import Mathlib

/-! Order book reconstruction: a shallow embedding of `orderbook.cpp` and `main.cpp`.

The C++ program keeps two ordered maps of price levels (`bids`, `asks`) and a
registry of resting orders (`orders`), applies market-by-order records to them
and renders a 76 column row after each record.

Modelling choices.

* `std::string` is a list of characters (`Str`).
* `double` prices are rationals: every finite `double` is a rational number and
  `<`, `>`, `==` on finite doubles are the rational comparisons.  The test
  `std::fabs(a - b) < 1e-9` is modelled with exact subtraction.  Infinities and
  NaN are outside the model.
* `uint64_t` is `Nat` with explicit reduction modulo `2 ^ 64` wherever the code
  adds, subtracts or converts.  The `int` counters `level` and `depth` are `Nat`
  (they count map entries and stay far below `2 ^ 31`).
* `std::map<double, PriceLevel, Cmp>` is the list of its entries in iteration
  order; `std::unordered_map<uint64_t, Order>` is an association list (nothing in
  the program iterates over it).  Like the C++ containers the functions below
  assume, but do not require, that keys are unique.
* The library conversions `std::stod`, `std::stoull` and `ostream << double`
  are parameters (`Lib`); `none` stands for a thrown `std::exception`.
-/

namespace OrderBookModel

/-- A `std::string`. -/
abbrev Str := List Char

/-- A finite `double`. -/
abbrev Price := ℚ

/-- The modulus of `uint64_t` arithmetic. -/
def U64 : Nat := 2 ^ 64

/-- Unsigned 64-bit addition `a + b`. -/
def add64 (a b : Nat) : Nat := (a + b) % U64

/-- Unsigned 64-bit subtraction `a - b` (wraps below zero). -/
def sub64 (a b : Nat) : Nat := (a % U64 + U64 - b % U64) % U64

/-- The C++ `struct Order`. -/
structure Order where
  price : Price
  size : Nat
  side : Char
deriving DecidableEq

/-- The C++ `struct PriceLevel`. -/
structure PriceLevel where
  total_size : Nat
  order_count : Nat
deriving DecidableEq

/-- The entries of one `std::map<double, PriceLevel, Cmp>` in iteration order. -/
abbrev Ledger := List (Price × PriceLevel)

/-- The entries of the `std::unordered_map<uint64_t, Order>`. -/
abbrev Registry := List (Nat × Order)

/-- The data members of `class OrderBook`. -/
structure OrderBook where
  bids : Ledger
  asks : Ledger
  orders : Registry
deriving DecidableEq

/-- The library functions the program calls on text and doubles. -/
structure Lib where
  /-- The conversion `std::stod`; `none` when it throws. -/
  stod : Str → Option Price
  /-- The conversion `std::stoull`; `none` when it throws. -/
  stoull : Str → Option Nat
  /-- The text `std::ostringstream << double` produces. -/
  fmt : Price → Str

/-! ## Ordered map and registry primitives -/

/-- `m.find(price)`: the level stored under the key, if any. -/
def levelFind (price : Price) : Ledger → Option PriceLevel
  | [] => none
  | (q, l) :: rest => if q = price then some l else levelFind price rest

/-- Insertion of a new key into the ordered map; `before a b` is the map's
comparator (`std::greater` for bids, `std::less` for asks). -/
def levelInsert (before : Price → Price → Bool) (price : Price) (l : PriceLevel) :
    Ledger → Ledger
  | [] => [(price, l)]
  | (q, m) :: rest =>
    if before price q then (price, l) :: (q, m) :: rest
    else (q, m) :: levelInsert before price l rest

/-- In-place modification of the level stored under `price`. -/
def levelUpdate (price : Price) (f : PriceLevel → PriceLevel) (m : Ledger) : Ledger :=
  m.map fun e => if e.1 = price then (e.1, f e.2) else e

/-- `m.erase(it)` for the iterator `it = m.find(price)`. -/
def levelErase (price : Price) (m : Ledger) : Ledger :=
  m.filter fun e => e.1 ≠ price

/-- `orders.find(order_id)`. -/
def regFind (order_id : Nat) : Registry → Option Order
  | [] => none
  | (k, o) :: rest => if k = order_id then some o else regFind order_id rest

/-- `orders[order_id] = o`: overwrite the entry when the key exists, add it
otherwise. -/
def regSet (order_id : Nat) (o : Order) : Registry → Registry
  | [] => [(order_id, o)]
  | (k, v) :: rest =>
    if k = order_id then (order_id, o) :: rest else (k, v) :: regSet order_id o rest

/-- `orders.erase(order_it)` for `order_it = orders.find(order_id)`. -/
def regErase (order_id : Nat) (r : Registry) : Registry :=
  r.filter fun e => e.1 ≠ order_id

/-- The comparator of `bids`, `std::greater<double>`. -/
def bidBefore (a b : Price) : Bool := decide (a > b)

/-- The comparator of `asks`, `std::less<double>`. -/
def askBefore (a b : Price) : Bool := decide (a < b)

/-- The test `std::fabs(a - b) < 1e-9`. -/
def near (a b : Price) : Bool := decide (|a - b| < 1 / 1000000000)

/-! ## `OrderBook` member functions -/

/-- A freshly constructed `OrderBook`. -/
def empty : OrderBook := ⟨[], [], []⟩

/-- `OrderBook::clear`. -/
def clear (_b : OrderBook) : OrderBook := ⟨[], [], []⟩

/-- The body of one branch of `add_order`: a new level `{size, 1}` when the
price is absent, otherwise `total_size += size; order_count += 1`. -/
def add_level (before : Price → Price → Bool) (price : Price) (size : Nat)
    (m : Ledger) : Ledger :=
  match levelFind price m with
  | none => levelInsert before price ⟨size, 1⟩ m
  | some _ =>
    levelUpdate price (fun l => ⟨add64 l.total_size size, add64 l.order_count 1⟩) m

/-- `OrderBook::add_order`. -/
def add_order (b : OrderBook) (order_id : Nat) (price : Price) (size : Nat)
    (side : Char) : OrderBook :=
  let orders := regSet order_id ⟨price, size, side⟩ b.orders
  if side = 'B' then
    { bids := add_level bidBefore price size b.bids, asks := b.asks, orders := orders }
  else if side = 'A' then
    { bids := b.bids, asks := add_level askBefore price size b.asks, orders := orders }
  else
    { bids := b.bids, asks := b.asks, orders := orders }

/-- The body of one branch of `cancel_order`: lower the level found under
`price` by `actual`, decrement its count on a complete cancellation and erase
it when its total is zero. -/
def cancel_level (price : Price) (actual : Nat) (complete : Bool) (m : Ledger) : Ledger :=
  match levelFind price m with
  | none => m
  | some l =>
    let total := sub64 l.total_size actual
    let count := if complete then sub64 l.order_count 1 else l.order_count
    if total = 0 then levelErase price m
    else levelUpdate price (fun _ => ⟨total, count⟩) m

/-- `OrderBook::cancel_order`. -/
def cancel_order (b : OrderBook) (order_id : Nat) (size : Nat) : OrderBook :=
  match regFind order_id b.orders with
  | none => b
  | some order =>
    let is_complete_cancellation : Bool := decide (size ≥ order.size)
    let actual_canceled_size := min size order.size
    let bids :=
      if order.side = 'B' then
        cancel_level order.price actual_canceled_size is_complete_cancellation b.bids
      else b.bids
    let asks :=
      if order.side = 'B' then b.asks
      else if order.side = 'A' then
        cancel_level order.price actual_canceled_size is_complete_cancellation b.asks
      else b.asks
    let orders :=
      if is_complete_cancellation then regErase order_id b.orders
      else regSet order_id { order with size := order.size - actual_canceled_size } b.orders
    { bids := bids, asks := asks, orders := orders }

/-! ## Text helpers -/

/-- The loop `while (std::getline(ss, field, ','))`: `cur` holds the characters
extracted so far for the current field, most recent first.  A final `getline`
that extracts nothing at end of input fails, so no empty last field is
produced. -/
def getFieldsAux : Str → Str → List Str
  | [], [] => []
  | [], c :: cur => [(c :: cur).reverse]
  | c :: cs, cur =>
    if c = ',' then cur.reverse :: getFieldsAux cs [] else getFieldsAux cs (c :: cur)

/-- All fields of a line, as the `getline` loops of the program collect them. -/
def getFields (line : Str) : List Str := getFieldsAux line []

/-- The expression `s[0]` on a `std::string`: the terminating null character
when the string is empty. -/
def firstChar (s : Str) : Char := s.headD (Char.ofNat 0)

/-- The i-th element of a field vector (callers check the size first). -/
def fieldAt (fields : List Str) (i : Nat) : Str := fields.getD i []

/-- The characters `clean_field` trims. -/
def isTrimmed (c : Char) : Bool := c = ' ' || c = '\t' || c = '\r' || c = '\n'

/-- The lambda `clean_field` of `get_mbp_10_snapshot`. -/
def clean_field (s : Str) : Str :=
  ((s.dropWhile isTrimmed).reverse.dropWhile isTrimmed).reverse

/-- `std::to_string` on a non-negative integer. -/
def to_string (n : Nat) : Str := (Nat.repr n).toList

/-- The statements `s = s.substr(0, s.find_last_not_of('0') + 1);
if (s.back() == '.') s.pop_back();`. -/
def strip_zeros (s : Str) : Str :=
  let t := (s.reverse.dropWhile fun c => c = '0')
  match t with
  | '.' :: r => r.reverse
  | _ => t.reverse

/-- Removal of trailing zeros, applied only when the text has a `.`. -/
def strip_if_dot (s : Str) : Str := if '.' ∈ s then strip_zeros s else s

/-- The text written for a list of columns: the columns separated by commas. -/
def joinComma : List Str → Str
  | [] => []
  | [x] => x
  | x :: y :: rest => x ++ ',' :: joinComma (y :: rest)

/-! ## The snapshot encoder -/

/-- The price column of the row: the cleaned price text, reformatted through
`std::stod` and `ostream <<` when it is non-empty and contains a `.`; the
original text is kept when `std::stod` throws. -/
def format_price (lib : Lib) (price_str : Str) : Str :=
  if price_str ≠ [] ∧ '.' ∈ price_str then
    match lib.stod price_str with
    | some price_val => strip_if_dot (lib.fmt price_val)
    | none => price_str
  else price_str

/-- The three columns of level `i` of one side: formatted price, total size and
order count, or the initial values `""`, `"0"`, `"0"` when the side has no
level `i`. -/
def level_cells (lib : Lib) (m : Ledger) (i : Nat) : List Str :=
  match m.get? i with
  | some (price, l) =>
    [strip_if_dot (lib.fmt price), to_string l.total_size, to_string l.order_count]
  | none => [[], to_string 0, to_string 0]

/-- The vector `output_row` of `get_mbp_10_snapshot` just before it is joined:
14 metadata columns, 10 blocks of bid and ask cells, symbol and order id. -/
def output_row (lib : Lib) (b : OrderBook) (mbo_fields : List Str) (row_index : Nat)
    (depth : Nat) : List Str :=
  let ts_event := clean_field (fieldAt mbo_fields 1)
  let action := firstChar (fieldAt mbo_fields 5)
  let side := firstChar (fieldAt mbo_fields 6)
  let price_str := format_price lib (clean_field (fieldAt mbo_fields 7))
  let size_str := clean_field (fieldAt mbo_fields 8)
  let flags := clean_field (fieldAt mbo_fields 11)
  let ts_in_delta := clean_field (fieldAt mbo_fields 12)
  let sequence := clean_field (fieldAt mbo_fields 13)
  let symbol := clean_field (fieldAt mbo_fields 14)
  let order_id := clean_field (fieldAt mbo_fields 10)
  [to_string row_index, ts_event, ts_event, to_string 10, to_string 2, to_string 1108,
    [action], [side], to_string depth, price_str, size_str, flags, ts_in_delta, sequence]
  ++ (List.range 10).flatMap (fun i => level_cells lib b.bids i ++ level_cells lib b.asks i)
  ++ [symbol, order_id]

/-- `OrderBook::get_mbp_10_snapshot`. -/
def get_mbp_10_snapshot (lib : Lib) (b : OrderBook) (mbo_fields : List Str)
    (row_index : Nat) (depth : Nat) : Str :=
  joinComma (output_row lib b mbo_fields row_index depth)

/-! ## The depth locator -/

/-- The cancel scan: `level` counts the entries passed; the result is the
index of the first entry within tolerance of `price`, and the initial `depth = 0`
when the scan ends without a match. -/
def cancel_scan (price : Price) : Ledger → Nat → Nat
  | [], _ => 0
  | (q, _) :: rest, level => if near q price then level else cancel_scan price rest (level + 1)

/-- The add scan `for (it = m.begin(); it != m.end() && level < 10; ++it, ++level)`:
stops at the first entry the price goes before or is within tolerance of; when
the loop ends without a match the depth is the final `level`. -/
def add_scan (before : Price → Price → Bool) (price : Price) : Ledger → Nat → Nat
  | [], level => level
  | (q, _) :: rest, level =>
    if level < 10 then
      if before price q then level
      else if near q price then level
      else add_scan before price rest (level + 1)
    else level

/-- The depth computed by `process_mbo_action` before the action is applied. -/
def compute_depth (b : OrderBook) (action side : Char) (price : Price) : Nat :=
  if action = 'C' ∧ side ≠ 'N' then
    if side = 'B' then cancel_scan price b.bids 0
    else if side = 'A' then cancel_scan price b.asks 0
    else 0
  else if action = 'A' ∧ side ≠ 'N' then
    if side = 'B' then
      if b.bids.isEmpty then 0 else add_scan bidBefore price b.bids 0
    else if side = 'A' then
      if b.asks.isEmpty then 0 else add_scan askBefore price b.asks 0
    else 0
  else 0

/-! ## The event processor -/

/-- The guarded conversion `if (!s.empty()) x = std::stod(s)`: the default
`0.0` for an empty field, `none` when the conversion throws. -/
def parse_price (lib : Lib) (s : Str) : Option Price :=
  if s = [] then some 0 else lib.stod s

/-- The guarded conversion `if (!s.empty()) x = std::stoull(s)` into a
`uint64_t`: the default `0` for an empty field, `none` when the conversion
throws. -/
def parse_u64 (lib : Lib) (s : Str) : Option Nat :=
  if s = [] then some 0 else (lib.stoull s).map (fun n => n % U64)

/-- `OrderBook::process_mbo_action`: the book after the record and the text
left in `output_line` (empty when the record is suppressed). -/
def process_mbo_action (lib : Lib) (b : OrderBook) (line : Str) : OrderBook × Str :=
  let fields := getFields line
  if fields.length < 15 then (b, [])
  else
    let action := firstChar (fieldAt fields 5)
    let side := firstChar (fieldAt fields 6)
    match parse_price lib (fieldAt fields 7) with
    | none => (b, [])
    | some price =>
      match parse_u64 lib (fieldAt fields 8) with
      | none => (b, [])
      | some size =>
        match parse_u64 lib (fieldAt fields 10) with
        | none => (b, [])
        | some order_id =>
          let depth := compute_depth b action side price
          if action = 'R' then
            (clear b, get_mbp_10_snapshot lib (clear b) fields 0 depth)
          else if action = 'A' then
            let b1 := if side ≠ 'N' then add_order b order_id price size side else b
            (b1, get_mbp_10_snapshot lib b1 fields 0 depth)
          else if action = 'C' then
            let b1 := if side ≠ 'N' then cancel_order b order_id size else b
            (b1, get_mbp_10_snapshot lib b1 fields 0 depth)
          else if action = 'T' then
            (b, get_mbp_10_snapshot lib b fields 0 depth)
          else (b, [])

/-- `OrderBook::process_tfc_sequence`; the fill line is not read. -/
def process_tfc_sequence (lib : Lib) (b : OrderBook) (t_line _f_line c_line : Str) :
    OrderBook × Str :=
  let c_fields := getFields c_line
  if c_fields.length < 15 then (b, [])
  else
    let t_fields := getFields t_line
    if t_fields.length < 15 then (b, [])
    else
      let c_side := firstChar (fieldAt c_fields 6)
      match parse_u64 lib (fieldAt c_fields 8) with
      | none => (b, [])
      | some size =>
        match parse_u64 lib (fieldAt c_fields 10) with
        | none => (b, [])
        | some order_id =>
          if c_side = 'N' then (b, [])
          else
            match parse_price lib (fieldAt c_fields 7) with
            | none => (b, [])
            | some c_price =>
              let depth :=
                if c_side = 'B' then cancel_scan c_price b.bids 0
                else if c_side = 'A' then cancel_scan c_price b.asks 0
                else 0
              let b1 := cancel_order b order_id size
              let output_fields := t_fields.set 6 [c_side]
              (b1, get_mbp_10_snapshot lib b1 output_fields 0 depth)

/-! ## The driver loop of `main` -/

/-- The test `fields.size() >= 6 && fields[5][0] == c` on the fields of a line. -/
def has_action (line : Str) (c : Char) : Bool :=
  let fields := getFields line
  decide (fields.length ≥ 6) && decide (firstChar (fieldAt fields 5) = c)

/-- The inner loop `for (j = i + 2; j < min(i + 5, size); j++)` over the lines it
visits: `true` when a Cancel is met, `false` when an Add or a Trade is met
first or the lines are exhausted. -/
def cancel_follows : List Str → Bool
  | [] => false
  | future :: rest =>
    if has_action future 'C' then true
    else if has_action future 'A' || has_action future 'T' then false
    else cancel_follows rest

/-- The value of `skip_this_action` for the line `all_lines[i]` with at least 6
fields, where `following` is `all_lines[i+1], all_lines[i+2], ...`. -/
def skip_this_action (current_line : Str) (following : List Str) : Bool :=
  let action := firstChar (fieldAt (getFields current_line) 5)
  let skip_fill : Bool := decide (action = 'F')
  let skip_trade : Bool :=
    if action = 'T' then
      match following with
      | [] => false
      | next :: later =>
        if has_action next 'F' then cancel_follows (later.take 3) else false
    else false
  skip_fill || skip_trade

/-- The lines the loop hands to `process_mbo_action`: `true` for the line
`all_lines[i]` when neither `continue` is taken. -/
def passes (current_line : Str) (following : List Str) : Bool :=
  decide ((getFields current_line).length ≥ 6) && !skip_this_action current_line following

/-- The row written to the output file: the text up to the first comma replaced
by the row index (the whole line is kept when it has no comma). -/
def renumber (row_index : Nat) (output_line : Str) : Str :=
  match output_line.dropWhile (fun c => c ≠ ',') with
  | [] => output_line
  | rest => to_string row_index ++ rest

/-- The state carried by the loop of `main`: the book, `row_index` and the rows
written so far. -/
structure Run where
  book : OrderBook
  row_index : Nat
  rows : List Str
deriving DecidableEq

/-- The end of the loop body of `main`, reached when no `continue` is taken:
the line goes through `process_mbo_action` and a non-empty output line is
renumbered and written. -/
def process_line (lib : Lib) (s : Run) (current_line : Str) : Run :=
  let r := process_mbo_action lib s.book current_line
  if r.2 ≠ [] then
    { book := r.1, row_index := s.row_index + 1,
      rows := s.rows ++ [renumber s.row_index r.2] }
  else { s with book := r.1 }

/-- One iteration of the loop of `main` at the line `all_lines[i]`. -/
def main_step (lib : Lib) (s : Run) (current_line : Str) (following : List Str) : Run :=
  if passes current_line following then process_line lib s current_line else s

/-- The loop `for (i = 0; i < all_lines.size(); i++)` of `main`, run on the
lines from the current index on. -/
def main_loop (lib : Lib) : Run → List Str → Run
  | s, [] => s
  | s, current_line :: following =>
    main_loop lib (main_step lib s current_line following) following

/-- The sequence collapser: the lines of the log that reach
`process_mbo_action`. -/
def collapse : List Str → List Str
  | [] => []
  | current_line :: following =>
    if passes current_line following then current_line :: collapse following
    else collapse following

/-- The decision of the loop at index `i` of the log: `true` when the record is
suppressed by `skip_this_action`. -/
def skip_at (all_lines : List Str) (i : Nat) : Bool :=
  match all_lines.drop i with
  | [] => false
  | current_line :: following => skip_this_action current_line following

/-- The book after a sequence of records has gone through
`process_mbo_action`, one after the other. -/
def run_actions (lib : Lib) (b : OrderBook) (lines : List Str) : OrderBook :=
  lines.foldl (fun acc line => (process_mbo_action lib acc line).1) b

/-! ## Statements used by the theorems -/

/-- A record that `process_mbo_action` reads as the given action, side, price,
size and order id: at least 15 fields, and numeric fields that are empty or
converted without an exception. -/
structure Parsed (lib : Lib) (line : Str) (action side : Char) (price : Price)
    (size order_id : Nat) : Prop where
  len : 15 ≤ (getFields line).length
  action_eq : firstChar (fieldAt (getFields line) 5) = action
  side_eq : firstChar (fieldAt (getFields line) 6) = side
  price_eq : parse_price lib (fieldAt (getFields line) 7) = some price
  size_eq : parse_u64 lib (fieldAt (getFields line) 8) = some size
  id_eq : parse_u64 lib (fieldAt (getFields line) 10) = some order_id

/-- The ledger of a side: `bids` for `B`, `asks` otherwise. -/
def sideLedger (b : OrderBook) (side : Char) : Ledger :=
  if side = 'B' then b.bids else b.asks

/-- The comparator of a side: `std::greater` for `B`, `std::less` otherwise. -/
def sideBefore (side : Char) : Price → Price → Bool :=
  if side = 'B' then bidBefore else askBefore

/-- The rank of a price for a Cancel: the index of the first level within
`1e-9` of the price, and 0 when there is none. -/
def cancel_rank (price : Price) (m : Ledger) : Nat :=
  if m.any (fun e => decide (|e.1 - price| < 1 / 1000000000)) then
    m.findIdx (fun e => decide (|e.1 - price| < 1 / 1000000000))
  else 0

/-- The insertion rank of a price for an Add: the index of the first level the
price is strictly better than or that lies within `1e-9` of it, and the number
of levels when there is none. -/
def add_rank (before : Price → Price → Bool) (price : Price) (m : Ledger) : Nat :=
  m.findIdx (fun e => before price e.1 || decide (|e.1 - price| < 1 / 1000000000))

/-- The depth column of an output line. -/
def depth_field (output_line : Str) : Str := fieldAt (getFields output_line) 8

/-- The side column of an output line. -/
def side_field (output_line : Str) : Str := fieldAt (getFields output_line) 7


/-- Scanning the records that exist among `i+2`, `i+3`, `i+4` in order, a Cancel
is met before any Add or Trade. -/
def CancelMetFirst (all_lines : List Str) (i : Nat) : Prop :=
  ∃ j, j < 3 ∧ (∃ c, all_lines[i + 2 + j]? = some c ∧ has_action c 'C' = true) ∧
    ∀ k, k < j → ∀ r, all_lines[i + 2 + k]? = some r →
      has_action r 'A' = false ∧ has_action r 'T' = false

/-- Neither ledger holds a level whose total size is 0. -/
def NoZeroLevel (b : OrderBook) : Prop :=
  (∀ e ∈ b.bids, e.2.total_size ≠ 0) ∧ (∀ e ∈ b.asks, e.2.total_size ≠ 0)

/-- Every record of the sequence satisfies the guard `G` in the book it is
applied to, the records going through `process_mbo_action` one after the
other. -/
def Admissible (lib : Lib) (G : OrderBook → Str → Prop) : OrderBook → List Str → Prop
  | _, [] => True
  | b, line :: rest => G b line ∧ Admissible lib G (process_mbo_action lib b line).1 rest

/-- Guard on a record: if it is an Add with side `B` or `A`, its size is not 0
and adding it to the total of the level it joins stays within 64 bits. -/
def PositiveAdd (lib : Lib) (b : OrderBook) (line : Str) : Prop :=
  ∀ side price size order_id, Parsed lib line 'A' side price size order_id →
    (side = 'B' ∨ side = 'A') →
      0 < size ∧
      ∀ l, levelFind price (sideLedger b side) = some l → l.total_size + size < U64

/-- Guard on a record: if it is an Add that reaches `add_order`, its order id is
not registered, its size is not 0 and, on side `B` or `A`, adding it to the
total of the level it joins stays within 64 bits. -/
def FreshPositiveAdd (lib : Lib) (b : OrderBook) (line : Str) : Prop :=
  ∀ side price size order_id, Parsed lib line 'A' side price size order_id →
    side ≠ 'N' →
      regFind order_id b.orders = none ∧ 0 < size ∧
      ((side = 'B' ∨ side = 'A') →
        ∀ l, levelFind price (sideLedger b side) = some l → l.total_size + size < U64)

/-- The sum of the sizes of the registered orders with the given price and
side. -/
def regTotal (price : Price) (side : Char) (r : Registry) : Nat :=
  ((r.filter fun e => decide (e.2.price = price ∧ e.2.side = side)).map
    fun e => e.2.size).sum

/-- The number of registered orders with the given price and side. -/
def regCount (price : Price) (side : Char) (r : Registry) : Nat :=
  (r.filter fun e => decide (e.2.price = price ∧ e.2.side = side)).length

/-- The aggregate invariant: every level of the bid and of the ask ledger holds
the sum of the sizes and the number of the registered orders with its price
and side. -/
def Aggregate (b : OrderBook) : Prop :=
  (∀ e ∈ b.bids, e.2.total_size = regTotal e.1 'B' b.orders ∧
      e.2.order_count = regCount e.1 'B' b.orders) ∧
  (∀ e ∈ b.asks, e.2.total_size = regTotal e.1 'A' b.orders ∧
      e.2.order_count = regCount e.1 'A' b.orders)

/-- The sum of `g` over the registered orders with the given price and side;
`regTotal` is the case `g = size` and `regCount` the case `g = 1`. -/
def regAgg (g : Order → Nat) (price : Price) (side : Char) (r : Registry) : Nat :=
  ((r.filter fun e => decide (e.2.price = price ∧ e.2.side = side)).map
    fun e => g e.2).sum

/-- The registry `cancel_order` leaves when `order_id` is registered as `o`:
the order erased on a complete cancellation, its size lowered otherwise. -/
def cancel_registry (order_id size : Nat) (o : Order) (r : Registry) : Registry :=
  if decide (size ≥ o.size) = true then regErase order_id r
  else regSet order_id { o with size := o.size - min size o.size } r

/-- The aggregate invariant of one ledger, for the side `side`. -/
def LedgerAgg (side : Char) (m : Ledger) (r : Registry) : Prop :=
  ∀ e ∈ m, e.2.total_size = regTotal e.1 side r ∧ e.2.order_count = regCount e.1 side r

/-- Every registered order of the side has a level at its price. -/
def Covered (side : Char) (m : Ledger) (r : Registry) : Prop :=
  ∀ e ∈ r, e.2.side = side → levelFind e.2.price m ≠ none

/-- Every total of the ledger is a 64-bit value. -/
def Bounded (m : Ledger) : Prop := ∀ e ∈ m, e.2.total_size < U64

/-- The invariant carried along a sequence of records with fresh, non-zero,
non-overflowing Adds: the aggregate invariant, positive resting sizes, a level
under every resting order of side `B` or `A`, unique order ids and 64-bit
totals. -/
def AggInv (b : OrderBook) : Prop :=
  LedgerAgg 'B' b.bids b.orders ∧ LedgerAgg 'A' b.asks b.orders ∧
  (∀ e ∈ b.orders, 0 < e.2.size) ∧
  Covered 'B' b.bids b.orders ∧ Covered 'A' b.asks b.orders ∧
  (b.orders.map Prod.fst).Nodup ∧
  Bounded b.bids ∧ Bounded b.asks

/-- The decision of the loop at index `i` of the log: `true` when the record
reaches `process_mbo_action`, `false` when one of the two `continue` is taken. -/
def passes_at (all_lines : List Str) (i : Nat) : Bool :=
  match all_lines.drop i with
  | [] => false
  | current_line :: following => passes current_line following

/-- The book and the output lines left by a sequence of records, each going
through `process_mbo_action` on the book the previous one left (an empty
output line stands for a suppressed record). -/
def run_outputs (lib : Lib) : OrderBook → List Str → OrderBook × List Str
  | b, [] => (b, [])
  | b, line :: rest =>
    ((run_outputs lib (process_mbo_action lib b line).1 rest).1,
      (process_mbo_action lib b line).2 :: (run_outputs lib (process_mbo_action lib b line).1 rest).2)

/-- The fields of a text separated by commas (a plain split: `n` commas give
`n + 1` fields, the last one possibly empty). -/
def splitCommaAux : Str → Str → List Str
  | [], cur => [cur.reverse]
  | c :: cs, cur =>
    if c = ',' then cur.reverse :: splitCommaAux cs [] else splitCommaAux cs (c :: cur)

/-- The comma-separated fields of a text. -/
def splitComma (text : Str) : List Str := splitCommaAux text []

/-- The six fields of level block `i` of an output line: fields `14 + 6 i` to
`19 + 6 i`. -/
def level_block (output_line : Str) (i : Nat) : List Str :=
  ((splitComma output_line).drop (14 + 6 * i)).take 6

/-- The comma-separated fields of the text `get_mbp_10_snapshot` returns. -/
def snapshot_fields (lib : Lib) (b : OrderBook) (mbo_fields : List Str) (row_index : Nat)
    (depth : Nat) : List Str :=
  splitComma (get_mbp_10_snapshot lib b mbo_fields row_index depth)

/-- The price cell of level `i` of a ledger. -/
def cell_price (lib : Lib) (m : Ledger) (i : Nat) : Str :=
  match m.get? i with
  | some (price, _) => strip_if_dot (lib.fmt price)
  | none => []

/-- The size cell of level `i` of a ledger. -/
def cell_size (m : Ledger) (i : Nat) : Str :=
  match m.get? i with
  | some (_, l) => to_string l.total_size
  | none => to_string 0

/-- The count cell of level `i` of a ledger. -/
def cell_count (m : Ledger) (i : Nat) : Str :=
  match m.get? i with
  | some (_, l) => to_string l.order_count
  | none => to_string 0

/-- What the types of the program guarantee of a book: the bid map iterates
in strictly descending and the ask map in strictly ascending key order (so no
key occurs twice), and every total and count is a 64-bit value. -/
def BookValid (b : OrderBook) : Prop :=
  b.bids.Pairwise (fun x y => x.1 > y.1) ∧ b.asks.Pairwise (fun x y => x.1 < y.1) ∧
  (∀ e ∈ b.bids, e.2.total_size < U64 ∧ e.2.order_count < U64) ∧
  (∀ e ∈ b.asks, e.2.total_size < U64 ∧ e.2.order_count < U64)

/-- The level of a ledger at a price, with total 0 and count 0 when the price
has no level. -/
def levelAt (m : Ledger) (price : Price) : PriceLevel :=
  (levelFind price m).getD ⟨0, 0⟩

/-- A call of the two entry points that change the book: a record through
`process_mbo_action`, or a Trade, Fill, Cancel triplet through
`process_tfc_sequence`. -/
inductive Call where
  | mbo (line : Str)
  | tfc (t_line f_line c_line : Str)

/-- The book a call leaves. -/
def apply_call (lib : Lib) (b : OrderBook) : Call → OrderBook
  | Call.mbo line => (process_mbo_action lib b line).1
  | Call.tfc t_line f_line c_line => (process_tfc_sequence lib b t_line f_line c_line).1

/-- The book after a sequence of calls, one after the other. -/
def run_calls (lib : Lib) (b : OrderBook) (calls : List Call) : OrderBook :=
  calls.foldl (apply_call lib) b

/-- Guard on a call: an Add record with side `B` or `A` adds its size to the
total of its level (0 for a new level) without exceeding the 64-bit range. -/
def AddFits (lib : Lib) (b : OrderBook) : Call → Prop
  | Call.mbo line =>
    ∀ side price size order_id, Parsed lib line 'A' side price size order_id →
      (side = 'B' ∨ side = 'A') →
        (levelAt (sideLedger b side) price).total_size + size < U64
  | Call.tfc _ _ _ => True

/-- Every call of the sequence satisfies `AddFits` in the book it is applied
to. -/
def AllFit (lib : Lib) : OrderBook → List Call → Prop
  | _, [] => True
  | b, c :: rest => AddFits lib b c ∧ AllFit lib (apply_call lib b c) rest

/-- For every price, the total of the bid level (0 when there is none) is at
least the sum of the sizes of the registered bid orders at that price, and
likewise for the asks. -/
def TotalsCover (b : OrderBook) : Prop :=
  ∀ p, regTotal p 'B' b.orders ≤ (levelAt b.bids p).total_size ∧
    regTotal p 'A' b.orders ≤ (levelAt b.asks p).total_size

/-- The invariant carried along every sequence of calls whose Adds fit: a
valid book, unique order ids, totals that cover the resting sizes. -/
def CoverInv (b : OrderBook) : Prop :=
  BookValid b ∧ (b.orders.map Prod.fst).Nodup ∧ TotalsCover b

/-! ## A small library instance and records for the concrete examples -/

/-- Value of a run of decimal digits; `none` when another character occurs. -/
def digitsVal : Str → Nat → Option Nat
  | [], acc => some acc
  | c :: cs, acc => if c.isDigit then digitsVal cs (acc * 10 + (c.toNat - 48)) else none

/-- The first `n` decimal digits of a fraction in `[0, 1)`. -/
def fracDigits : Nat → ℚ → Str
  | 0, _ => []
  | n + 1, x =>
    Char.ofNat (48 + Int.toNat (Int.floor (x * 10))) ::
      fracDigits n (x * 10 - Int.floor (x * 10))

/-- A library instance for unsigned decimal numerals: `stoull` reads digits,
`stod` reads `digits` or `digits.digits`, and `fmt` writes the integer part
followed, for a non-integer, by six decimals. -/
def sampleLib : Lib where
  stoull := fun s => if s = [] then none else digitsVal s 0
  stod := fun s =>
    let ip := s.takeWhile (fun c => c ≠ '.')
    let fp := (s.dropWhile (fun c => c ≠ '.')).drop 1
    if ip = [] then none
    else
      match digitsVal ip 0, digitsVal fp 0 with
      | some a, some f => some (mkRat (Int.ofNat (a * 10 ^ fp.length + f)) (10 ^ fp.length))
      | _, _ => none
  fmt := fun x =>
    if x - Int.floor x = 0 then to_string (Int.toNat (Int.floor x))
    else to_string (Int.toNat (Int.floor x)) ++ '.' :: fracDigits 6 (x - Int.floor x)

/-- A Trade record on the ask side. -/
def tradeLine : Str := "r1,e1,160,2,1108,T,A,100,5,0,0,130,165,851,ARL".toList

/-- A Fill record. -/
def fillLine : Str := "r2,e2,160,2,1108,F,A,100,5,0,42,131,166,852,ARL".toList

/-- A Cancel record for order 42 on the bid side: price 100, size 5. -/
def cancelLine : Str := "r3,e3,160,2,1108,C,B,100,5,0,42,132,167,853,ARL".toList

/-- An Add record for order 42 on the bid side: price 100, size 8. -/
def addLine42 : Str := "r0,e0,160,2,1108,A,B,100,8,0,42,129,164,850,ARL".toList

/-- A book with two bid levels (101 and 100) and the orders 7 and 42 behind
them. -/
def twoBids : OrderBook :=
  ⟨[(101, ⟨3, 1⟩), (100, ⟨8, 1⟩)], [], [(7, ⟨101, 3, 'B'⟩), (42, ⟨100, 8, 'B'⟩)]⟩

/-- A record of 15 fields with the given action, side, price, size and order id
texts. -/
def record (action side price size order_id : String) : Str :=
  ("r,e,160,2,1108," ++ action ++ "," ++ side ++ "," ++ price ++ "," ++ size ++ ",0,"
    ++ order_id ++ ",130,165,851,ARL").toList

/-- An Add record on the bid side at the given price text and order id text,
size 1. -/
def addBid (price order_id : String) : Str := record "A" "B" price "1" order_id

/-- Records after which the bid level 100 holds total size 7 with order count 0
while the orders 3 (size 5) and 4 (size 2) rest on it: two Adds of size 0, an
Add and a full Cancel that erase the level under them, two fresh Adds, and the
Cancels of the two orders of size 0. -/
def zeroCountLog : List Str :=
  [record "A" "B" "100" "0" "1", record "A" "B" "100" "0" "2",
    record "A" "B" "100" "5" "9", record "C" "B" "100" "5" "9",
    record "A" "B" "100" "5" "3", record "A" "B" "100" "2" "4",
    record "C" "B" "100" "0" "1", record "C" "B" "100" "0" "2"]

/-- The book after `zeroCountLog`. -/
def zeroCountBook : OrderBook := run_actions sampleLib empty zeroCountLog

/-- Eleven Add records on the bid side at the prices 20, 19, ..., 10. -/
def elevenAdds : List Str :=
  [addBid "20" "1", addBid "19" "2", addBid "18" "3", addBid "17" "4", addBid "16" "5",
    addBid "15" "6", addBid "14" "7", addBid "13" "8", addBid "12" "9", addBid "11" "10",
    addBid "10" "11"]

/-- The book after the eleven Add records: bid levels 20 down to 10. -/
def elevenBids : OrderBook := run_actions sampleLib empty elevenAdds

/-- Two Add records with the same order id 1 (bid, price 100, size 5). -/
def dupLog : List Str := [record "A" "B" "100" "5" "1", record "A" "B" "100" "5" "1"]

/-- An Add of size 0, then an Add and its full Cancel that erase the level, then
a fresh Add at the same price: order 1 (size 0) still rests at price 100. -/
def zeroSizeLog : List Str :=
  [record "A" "B" "100" "0" "1", record "A" "B" "100" "5" "2",
    record "C" "B" "100" "5" "2", record "A" "B" "100" "7" "3"]

/-- Two Add records of size `2^63` at the same bid price. -/
def overflowLog : List Str :=
  [record "A" "B" "100" "9223372036854775808" "1",
    record "A" "B" "100" "9223372036854775808" "2"]

/-- An Add of order 42 followed by a partial Cancel of it. -/
def addCancelLog : List Str := [addLine42, cancelLine]

/-- A log whose Trade at index 0 is followed by three Fills and a Cancel at
index 4. -/
def farCancelLog : List Str := [tradeLine, fillLine, fillLine, fillLine, cancelLine]

/-- The same log with an Add at index 4 in place of the Cancel. -/
def farAddLog : List Str := [tradeLine, fillLine, fillLine, fillLine, addLine42]

/-- A Reset record whose size field is not a number. -/
def badResetLine : Str := record "R" "N" "" "x5" "0"

/-- A book with two bid levels and one ask level. -/
def twoSided : OrderBook :=
  ⟨[(101, ⟨3, 1⟩), (100, ⟨8, 2⟩)], [(102, ⟨4, 1⟩)],
    [(7, ⟨101, 3, 'B'⟩), (42, ⟨100, 5, 'B'⟩), (43, ⟨100, 3, 'B'⟩), (50, ⟨102, 4, 'A'⟩)]⟩

/-- A Cancel record for order 99, which `twoSided` does not hold. -/
def cancelUnknownLine : Str := record "C" "B" "100" "5" "99"

/-- An Add record whose side field is empty. -/
def noSideAddLine : Str := record "A" "" "100" "5" "1"

/-- A record whose action field is empty. -/
def noActionLine : Str := record "" "B" "100" "5" "1"

/-- The first Add of `overflowLog`: order 1, bid, price 100, size `2^63`. -/
def overflowFirst : Str := record "A" "B" "100" "9223372036854775808" "1"

/-- The second Add of `overflowLog`: order 2, bid, price 100, size `2^63`. -/
def overflowSecond : Str := record "A" "B" "100" "9223372036854775808" "2"

/-- The scenario of the specification: Add(1, 10.50, 100, Bid), Add(2, 10.50,
50, Bid), Cancel(1, 100). -/
def scenarioLog : List Str :=
  [record "A" "B" "10.50" "100" "1", record "A" "B" "10.50" "50" "2",
    record "C" "B" "10.50" "100" "1"]

/-- An Add of order 3 on the ask side at price 9.00, size 10. -/
def addAsk3 : Str := record "A" "A" "9.00" "10" "3"

/-- A Cancel of order 3, size 10. -/
def cancelAsk3 : Str := record "C" "A" "9.00" "10" "3"

/-- An Add of order 1 on the bid side at price 100, size 5. -/
def addNear1 : Str := record "A" "B" "100" "5" "1"

/-- An Add of order 2 on the bid side at price 100.0000000001, size 7. -/
def addNear2 : Str := record "A" "B" "100.0000000001" "7" "2"

/-- The price `100.0000000001`. -/
def nearPrice : Price := mkRat 1000000000001 10000000000

/-- A Reset record. -/
def resetLine : Str := record "R" "N" "" "" "0"

/-- An Add record without a side (`N`) carrying the id of the resting order 42. -/
def sidelessAdd : Str := record "A" "N" "100" "5" "42"

/-- A Cancel record without a side (`N`) for the resting order 42. -/
def sidelessCancel : Str := record "C" "N" "100" "5" "42"

/-- An Add of size 0 for order 1 on the bid side at price 100. -/
def zeroAdd : Str := record "A" "B" "100" "0" "1"

/-- Calls with a repeated order id, a size 0 and a triplet: two Adds of order
42 (size 8 at the bid level 100), an Add of size 0, and the triplet whose
Cancel takes 5 from order 42. -/
def coverCalls : List Call :=
  [Call.mbo addLine42, Call.mbo addLine42, Call.mbo zeroAdd,
    Call.tfc tradeLine fillLine cancelLine]

/-- An Add of order 2 on the bid side at price 100 with size `2^64 - 5`. -/
def wrapAdd : Str := record "A" "B" "100" "18446744073709551611" "2"

/-- The book after the Adds `addLine42` and `wrapAdd`: the total of the bid
level 100 has wrapped to 3 while order 42 rests on it with size 8. -/
def wrapBook : OrderBook :=
  ⟨[(100, ⟨3, 2⟩)], [], [(42, ⟨100, 8, 'B'⟩), (2, ⟨100, 18446744073709551611, 'B'⟩)]⟩

/-! ## Text lemmas -/

theorem has_action_iff (line : Str) (c : Char) :
    has_action line c = true ↔
      6 ≤ (getFields line).length ∧ firstChar (fieldAt (getFields line) 5) = c := by
  simp [has_action]

theorem has_action_unique {line : Str} {c d : Char} (hc : has_action line c = true)
    (hd : has_action line d = true) : c = d := by
  rw [has_action_iff] at hc hd
  exact hc.2.symm.trans hd.2

/-! ## The sequence collapser and fill suppression -/

theorem skip_of_fill {line : Str} (h : has_action line 'F' = true) (following : List Str) :
    skip_this_action line following = true := by
  rw [has_action_iff] at h
  simp [skip_this_action, h.2]

theorem passes_of_fill {line : Str} (h : has_action line 'F' = true) (following : List Str) :
    passes line following = false := by
  simp [passes, skip_of_fill h]

/-- C8 (fill suppression): on a record whose action code is `F`,
`process_mbo_action` returns an empty output line and the same book, and the
iteration of the loop of `main` at that record changes neither the book, nor the
row index, nor the rows written, whatever the state and the following records. -/
theorem fill_suppressed (lib : Lib) (b : OrderBook) (line : Str)
    (h : has_action line 'F' = true) :
    process_mbo_action lib b line = (b, []) ∧
    (∀ (s : Run) (following : List Str), main_step lib s line following = s) ∧
    (∀ (s : Run) (following : List Str),
      main_loop lib s (line :: following) = main_loop lib s following) := by
  have hF := (has_action_iff line 'F').1 h
  refine ⟨?_, ?_, ?_⟩
  · unfold process_mbo_action
    simp only [hF.2]
    split
    · rfl
    · cases parse_price lib (fieldAt (getFields line) 7) <;>
        cases parse_u64 lib (fieldAt (getFields line) 8) <;>
        cases parse_u64 lib (fieldAt (getFields line) 10) <;> simp
  · intro s following
    simp [main_step, passes_of_fill h]
  · intro s following
    simp [main_loop, main_step, passes_of_fill h]

/-- Witness for C8 on a concrete Fill record. -/
theorem fill_suppressed_witness :
    has_action fillLine 'F' = true ∧
    process_mbo_action sampleLib empty fillLine = (empty, []) :=
  ⟨by decide, (fill_suppressed sampleLib empty fillLine (by decide)).1⟩

theorem cancel_follows_iff (l : List Str) :
    cancel_follows l = true ↔
      ∃ j : Nat, (∃ c, l[j]? = some c ∧ has_action c 'C' = true) ∧
        ∀ k : Nat, k < j → ∀ r, l[k]? = some r →
          has_action r 'A' = false ∧ has_action r 'T' = false := by
  induction l with
  | nil => simp [cancel_follows]
  | cons x xs ih =>
    unfold cancel_follows
    cases hC : has_action x 'C' with
    | true =>
      simp only [if_true, true_iff]
      exact ⟨0, ⟨x, by simp, hC⟩, fun k hk => absurd hk (Nat.not_lt_zero k)⟩
    | false =>
      cases hAT : (has_action x 'A' || has_action x 'T') with
      | true =>
        simp only [Bool.false_eq_true, if_false, if_true, false_iff]
        rintro ⟨j, ⟨c, hc, hcC⟩, hall⟩
        cases j with
        | zero =>
          simp at hc
          subst hc
          rw [hC] at hcC
          cases hcC
        | succ j =>
          have := hall 0 (Nat.succ_pos j) x (by simp)
          simp [this.1, this.2] at hAT
      | false =>
        simp only [Bool.false_eq_true, if_false, ih]
        constructor
        · rintro ⟨j, ⟨c, hc, hcC⟩, hall⟩
          refine ⟨j + 1, ⟨c, by simpa using hc, hcC⟩, ?_⟩
          intro k hk r hr
          cases k with
          | zero =>
            simp at hr
            subst hr
            simpa using hAT
          | succ k => exact hall k (Nat.lt_of_succ_lt_succ hk) r (by simpa using hr)
        · rintro ⟨j, ⟨c, hc, hcC⟩, hall⟩
          cases j with
          | zero =>
            simp at hc
            subst hc
            rw [hC] at hcC
            cases hcC
          | succ j =>
            refine ⟨j, ⟨c, by simpa using hc, hcC⟩, ?_⟩
            intro k hk r hr
            exact hall (k + 1) (Nat.succ_lt_succ hk) r (by simpa using hr)

theorem cancel_follows_take_iff (l : List Str) :
    cancel_follows (l.take 3) = true ↔
      ∃ j : Nat, j < 3 ∧ (∃ c, l[j]? = some c ∧ has_action c 'C' = true) ∧
        ∀ k : Nat, k < j → ∀ r, l[k]? = some r →
          has_action r 'A' = false ∧ has_action r 'T' = false := by
  rw [cancel_follows_iff]
  constructor
  · rintro ⟨j, ⟨c, hc, hcC⟩, hall⟩
    have hj : j < 3 := by
      by_contra hn
      have : (List.take 3 l)[j]? = none := by
        apply List.getElem?_eq_none
        have := List.length_take_le 3 l
        omega
      rw [this] at hc
      cases hc
    refine ⟨j, hj, ⟨c, ?_, hcC⟩, ?_⟩
    · rwa [List.getElem?_take_of_lt hj] at hc
    · intro k hk r hr
      exact hall k hk r (by rwa [List.getElem?_take_of_lt (by omega)])
  · rintro ⟨j, hj, ⟨c, hc, hcC⟩, hall⟩
    refine ⟨j, ⟨c, ?_, hcC⟩, ?_⟩
    · rwa [List.getElem?_take_of_lt hj]
    · intro k hk r hr
      rw [List.getElem?_take_of_lt (by omega)] at hr
      exact hall k hk r hr

theorem skip_trade_iff (t : Str) (following : List Str) (ht : has_action t 'T' = true) :
    skip_this_action t following = true ↔
      (∃ f, following[0]? = some f ∧ has_action f 'F' = true) ∧
      ∃ j, j < 3 ∧ (∃ c, following[1 + j]? = some c ∧ has_action c 'C' = true) ∧
        ∀ k, k < j → ∀ r, following[1 + k]? = some r →
          has_action r 'A' = false ∧ has_action r 'T' = false := by
  have hT := (has_action_iff t 'T').1 ht
  unfold skip_this_action
  simp only [hT.2]
  cases following with
  | nil => simp
  | cons next later =>
    have key := cancel_follows_take_iff later
    by_cases hF : has_action next 'F' = true
    · simp only [hF, if_true]
      simp only [show ('T' : Char) = 'F' ↔ False from by decide, decide_False, Bool.false_or,
        key]
      constructor
      · rintro ⟨j, hj, ⟨c, hc, hcC⟩, hall⟩
        refine ⟨⟨next, by simp, hF⟩, j, hj, ⟨c, ?_, hcC⟩, ?_⟩
        · rw [Nat.add_comm]; simpa using hc
        · intro k hk r hr
          rw [Nat.add_comm] at hr
          exact hall k hk r (by simpa using hr)
      · rintro ⟨-, j, hj, ⟨c, hc, hcC⟩, hall⟩
        refine ⟨j, hj, ⟨c, ?_, hcC⟩, ?_⟩
        · rw [Nat.add_comm] at hc; simpa using hc
        · intro k hk r hr
          exact hall k hk r (by rw [Nat.add_comm]; simpa using hr)
    · simp only [hF]
      simp only [show ('T' : Char) = 'F' ↔ False from by decide, decide_False, Bool.false_or]
      constructor
      · intro h; simp at h
      · rintro ⟨⟨f, hf, hfF⟩, -⟩
        simp at hf
        subst hf
        exact absurd hfF hF

/-- C9 (collapser decision): for a Trade record at index `i`, the loop of `main`
suppresses it exactly when record `i+1` exists and is a Fill and, scanning the
existing records among `i+2`, `i+3`, `i+4` in order, a Cancel is met before any
Add or Trade; otherwise the Trade is handed to `process_mbo_action`. -/
theorem collapser_decision (all_lines : List Str) (i : Nat) (t : Str)
    (hi : all_lines[i]? = some t) (ht : has_action t 'T' = true) :
    (skip_at all_lines i = true ↔
      (∃ f, all_lines[i + 1]? = some f ∧ has_action f 'F' = true) ∧
        CancelMetFirst all_lines i) ∧
    passes t (all_lines.drop (i + 1)) = !skip_at all_lines i := by
  have hlt : i < all_lines.length := by
    by_contra hn
    rw [List.getElem?_eq_none (by omega)] at hi
    cases hi
  have hdrop : all_lines.drop i = t :: all_lines.drop (i + 1) := by
    rw [List.drop_eq_getElem_cons hlt]
    rw [List.getElem?_eq_getElem hlt] at hi
    rw [Option.some.inj hi]
  have hskip : skip_at all_lines i = skip_this_action t (all_lines.drop (i + 1)) := by
    simp [skip_at, hdrop]
  have hidx : ∀ k, (all_lines.drop (i + 1))[k]? = all_lines[i + 1 + k]? := by
    intro k
    rw [List.getElem?_drop]
  refine ⟨?_, ?_⟩
  · rw [hskip, skip_trade_iff t _ ht]
    unfold CancelMetFirst
    simp only [hidx, Nat.add_zero]
    have e : ∀ k, i + 1 + (1 + k) = i + 2 + k := by intro k; omega
    simp only [e]
  · have h6 := ((has_action_iff t 'T').1 ht).1
    rw [hskip]
    simp [passes, h6]

/-- Witness for C9: in the log Trade, Fill, Cancel the Trade at index 0 is
suppressed. -/
theorem collapser_decision_witness :
    skip_at [tradeLine, fillLine, cancelLine] 0 = true ↔
      (∃ f, [tradeLine, fillLine, cancelLine][0 + 1]? = some f ∧ has_action f 'F' = true) ∧
        CancelMetFirst [tradeLine, fillLine, cancelLine] 0 :=
  (collapser_decision [tradeLine, fillLine, cancelLine] 0 tradeLine (by decide) (by decide)).1

theorem collapse_mem {l : List Str} {x : Str} (h : x ∈ collapse l) :
    6 ≤ (getFields x).length ∧ firstChar (fieldAt (getFields x) 5) ≠ 'F' := by
  induction l with
  | nil => simp [collapse] at h
  | cons cur following ih =>
    unfold collapse at h
    by_cases hp : passes cur following = true
    · rw [if_pos hp] at h
      rcases List.mem_cons.1 h with rfl | h
      · simp only [passes, Bool.and_eq_true, decide_eq_true_eq, Bool.not_eq_true'] at hp
        refine ⟨hp.1, ?_⟩
        intro hF
        have := skip_of_fill ((has_action_iff x 'F').2 ⟨hp.1, hF⟩) following
        rw [this] at hp
        exact absurd hp.2 (by decide)
      · exact ih h
    · rw [if_neg hp] at h
      exact ih h

theorem collapse_fixed (l : List Str)
    (h : ∀ x ∈ l, 6 ≤ (getFields x).length ∧ firstChar (fieldAt (getFields x) 5) ≠ 'F') :
    collapse l = l := by
  induction l with
  | nil => rfl
  | cons cur following ih =>
    have hcur := h cur (List.mem_cons_self _ _)
    have hp : passes cur following = true := by
      simp only [passes, Bool.and_eq_true, decide_eq_true_eq, Bool.not_eq_true']
      refine ⟨hcur.1, ?_⟩
      unfold skip_this_action
      cases following with
      | nil => simp [hcur.2]
      | cons next later =>
        have hnext := h next (by simp)
        have : has_action next 'F' = false := by
          rw [Bool.eq_false_iff]
          intro hF
          exact hnext.2 ((has_action_iff next 'F').1 hF).2
        simp [hcur.2, this]
    unfold collapse
    rw [if_pos hp, ih (fun x hx => h x (List.mem_cons_of_mem _ hx))]

/-- The loop of `main` is the run of `process_line` over the collapsed log. -/
theorem main_loop_collapse (lib : Lib) (s : Run) (l : List Str) :
    main_loop lib s l = (collapse l).foldl (process_line lib) s := by
  induction l generalizing s with
  | nil => rfl
  | cons cur following ih =>
    unfold main_loop collapse main_step
    by_cases hp : passes cur following = true
    · simp only [hp, if_true, List.foldl_cons]
      exact ih _
    · simp only [hp, if_false, Bool.false_eq_true]
      exact ih _

/-- C10 (collapser idempotence): running the collapser of the loop of `main`
on its own output returns that output. -/
theorem collapse_idempotent (l : List Str) : collapse (collapse l) = collapse l :=
  collapse_fixed (collapse l) (fun _ hx => collapse_mem hx)

/-! ## Columns of a joined row -/

theorem digitChar_ne_comma (m : Nat) (h : m < 10) : Nat.digitChar m ≠ ',' := by
  interval_cases m <;> decide

theorem toDigitsCore_no_comma (fuel n : Nat) (acc : List Char) (hacc : ',' ∉ acc) :
    ',' ∉ Nat.toDigitsCore 10 fuel n acc := by
  induction fuel generalizing n acc with
  | zero => simpa [Nat.toDigitsCore] using hacc
  | succ fuel ih =>
    have hd : ',' ∉ Nat.digitChar (n % 10) :: acc := by
      intro hm
      rcases List.mem_cons.1 hm with h | h
      · exact digitChar_ne_comma (n % 10) (Nat.mod_lt _ (by decide)) h.symm
      · exact hacc h
    unfold Nat.toDigitsCore
    by_cases h0 : n / 10 = 0
    · simpa [h0] using hd
    · simp only [h0, if_false]
      exact ih _ _ hd

theorem to_string_no_comma (n : Nat) : ',' ∉ to_string n := by
  unfold to_string Nat.repr Nat.toDigits
  exact toDigitsCore_no_comma _ _ [] (by simp)

theorem getFieldsAux_no_comma (line cur : Str) (hcur : ',' ∉ cur) :
    ∀ f ∈ getFieldsAux line cur, ',' ∉ f := by
  induction line generalizing cur with
  | nil =>
    cases cur with
    | nil => simp [getFieldsAux]
    | cons c cur =>
      intro f hf
      simp only [getFieldsAux, List.mem_singleton] at hf
      subst hf
      intro hm
      exact hcur (List.mem_reverse.1 hm)
  | cons c cs ih =>
    intro f hf
    unfold getFieldsAux at hf
    by_cases hc : c = ','
    · rw [if_pos hc] at hf
      rcases List.mem_cons.1 hf with rfl | hf
      · simpa using hcur
      · exact ih [] (by simp) f hf
    · rw [if_neg hc] at hf
      refine ih (c :: cur) ?_ f hf
      intro hm
      rcases List.mem_cons.1 hm with h | h
      · exact hc h.symm
      · exact hcur h

theorem getFields_no_comma (line : Str) : ∀ f ∈ getFields line, ',' ∉ f :=
  getFieldsAux_no_comma line [] (by simp)

theorem fieldAt_no_comma (line : Str) (i : Nat) : ',' ∉ fieldAt (getFields line) i := by
  unfold fieldAt
  by_cases h : i < (getFields line).length
  · rw [List.getD_eq_getElem _ _ h]
    exact getFields_no_comma line _ (List.getElem_mem _)
  · rw [List.getD_eq_default _ _ (by omega)]
    simp

theorem firstChar_fieldAt_ne_comma (line : Str) (i : Nat) :
    firstChar (fieldAt (getFields line) i) ≠ ',' := by
  have h := fieldAt_no_comma line i
  unfold firstChar
  cases hf : fieldAt (getFields line) i with
  | nil => simp only [List.headD_nil]; decide
  | cons c cs =>
    rw [hf] at h
    simp only [List.headD_cons]
    intro hc
    exact h (by simp [hc])

theorem clean_field_no_comma (s : Str) (h : ',' ∉ s) : ',' ∉ clean_field s := by
  unfold clean_field
  intro hm
  have h1 := List.mem_reverse.1 hm
  have h2 := (List.dropWhile_sublist _).subset h1
  have h3 := List.mem_reverse.1 h2
  exact h ((List.dropWhile_sublist _).subset h3)

theorem getFieldsAux_append (x rest cur : Str) (hx : ',' ∉ x) :
    getFieldsAux (x ++ ',' :: rest) cur = (cur.reverse ++ x) :: getFieldsAux rest [] := by
  induction x generalizing cur with
  | nil => simp [getFieldsAux]
  | cons c cs ih =>
    have hc : c ≠ ',' := fun h => hx (by simp [h])
    have hcs : ',' ∉ cs := fun h => hx (List.mem_cons_of_mem _ h)
    have e : getFieldsAux ((c :: cs) ++ ',' :: rest) cur
        = getFieldsAux (cs ++ ',' :: rest) (c :: cur) := by
      show getFieldsAux (c :: (cs ++ ',' :: rest)) cur = _
      rw [getFieldsAux, if_neg hc]
    rw [e, ih (c :: cur) hcs]
    simp

theorem getFields_joinComma_cons (x y : Str) (rest : List Str) (hx : ',' ∉ x) :
    getFields (joinComma (x :: y :: rest)) = x :: getFields (joinComma (y :: rest)) := by
  unfold getFields
  rw [joinComma, getFieldsAux_append x _ [] hx]
  simp

/-- Reading back column `i` of a joined row: when the columns up to `i` hold no
comma and column `i` is not the last one, field `i` of the text is column `i`. -/
theorem fieldAt_getFields_joinComma (row : List Str) (i : Nat) (hi : i + 1 < row.length)
    (h : ∀ j, j ≤ i → ',' ∉ fieldAt row j) :
    fieldAt (getFields (joinComma row)) i = fieldAt row i := by
  induction i generalizing row with
  | zero =>
    match row, hi with
    | x :: y :: rest, _ =>
      have hx : ',' ∉ x := by simpa [fieldAt] using h 0 (Nat.le_refl 0)
      rw [getFields_joinComma_cons x y rest hx]
      simp [fieldAt]
  | succ i ih =>
    match row, hi with
    | x :: y :: rest, hi =>
      have hx : ',' ∉ x := by simpa [fieldAt] using h 0 (Nat.zero_le _)
      rw [getFields_joinComma_cons x y rest hx]
      have := ih (y :: rest) (by simpa using hi)
        (fun j hj => by simpa [fieldAt] using h (j + 1) (Nat.succ_le_succ hj))
      simpa [fieldAt] using this

theorem renumber_joinComma (n : Nat) (x y : Str) (rest : List Str) (hx : ',' ∉ x) :
    renumber n (joinComma (x :: y :: rest)) = joinComma (to_string n :: y :: rest) := by
  have hd : ∀ (x t : Str), ',' ∉ x →
      List.dropWhile (fun c => decide (c ≠ ',')) (x ++ ',' :: t) = ',' :: t := by
    intro x t hx
    induction x with
    | nil => simp [List.dropWhile]
    | cons c cs ih =>
      have hc : c ≠ ',' := fun h => hx (by simp [h])
      have hcs : ',' ∉ cs := fun h => hx (List.mem_cons_of_mem _ h)
      have := ih hcs
      simp only [ne_eq, decide_not] at this
      simp [List.dropWhile, hc, this]
  unfold renumber
  rw [joinComma, hd x _ hx]
  simp [joinComma]

theorem joinComma_ne_nil (x y : Str) (rest : List Str) : joinComma (x :: y :: rest) ≠ [] := by
  simp [joinComma]

/-! ## The event processor on a parsed record -/

theorem firstChar_ne_comma (s : Str) (h : ',' ∉ s) : firstChar s ≠ ',' := by
  unfold firstChar
  cases s with
  | nil => simp only [List.headD_nil]; decide
  | cons c cs =>
    simp only [List.headD_cons]
    intro hc
    exact h (by simp [hc])

theorem output_row_side (lib : Lib) (b : OrderBook) (f : List Str) (n d : Nat) :
    fieldAt (output_row lib b f n d) 7 = [firstChar (fieldAt f 6)] := by
  simp [output_row, fieldAt]

theorem output_row_depth (lib : Lib) (b : OrderBook) (f : List Str) (n d : Nat) :
    fieldAt (output_row lib b f n d) 8 = to_string d := by
  simp [output_row, fieldAt]

theorem output_row_length_gt (lib : Lib) (b : OrderBook) (f : List Str) (n d : Nat) :
    14 < (output_row lib b f n d).length := by
  simp [output_row]

/-- Fields 0 to 8 of the text of a snapshot are columns 0 to 8 of the row. -/
theorem snapshot_fieldAt (lib : Lib) (b : OrderBook) (f : List Str) (n d : Nat)
    (hf : ∀ i, ',' ∉ fieldAt f i) (i : Nat) (hi : i ≤ 8) :
    fieldAt (getFields (get_mbp_10_snapshot lib b f n d)) i
      = fieldAt (output_row lib b f n d) i := by
  unfold get_mbp_10_snapshot
  apply fieldAt_getFields_joinComma
  · have := output_row_length_gt lib b f n d
    omega
  · intro j hj
    have h1 := clean_field_no_comma _ (hf 1)
    have h5 := firstChar_ne_comma _ (hf 5)
    have h6 := firstChar_ne_comma _ (hf 6)
    have hj8 : j ≤ 8 := le_trans hj hi
    interval_cases j <;>
      first
      | (change ',' ∉ to_string _; exact to_string_no_comma _)
      | (change ',' ∉ clean_field (fieldAt f 1); exact h1)
      | (change ',' ∉ [firstChar (fieldAt f 5)]; simpa using Ne.symm h5)
      | (change ',' ∉ [firstChar (fieldAt f 6)]; simpa using Ne.symm h6)

theorem snapshot_depth_field (lib : Lib) (b : OrderBook) (line : Str) (n d : Nat) :
    depth_field (get_mbp_10_snapshot lib b (getFields line) n d) = to_string d := by
  unfold depth_field
  rw [snapshot_fieldAt lib b _ n d (fieldAt_no_comma line) 8 (Nat.le_refl 8), output_row_depth]

theorem snapshot_side_field (lib : Lib) (b : OrderBook) (line : Str) (n d : Nat) :
    side_field (get_mbp_10_snapshot lib b (getFields line) n d)
      = [firstChar (fieldAt (getFields line) 6)] := by
  unfold side_field
  rw [snapshot_fieldAt lib b _ n d (fieldAt_no_comma line) 7 (by decide), output_row_side]

theorem process_add (lib : Lib) (b : OrderBook) (line : Str) (side : Char) (price : Price)
    (size order_id : Nat) (h : Parsed lib line 'A' side price size order_id)
    (hN : side ≠ 'N') :
    process_mbo_action lib b line =
      (add_order b order_id price size side,
        get_mbp_10_snapshot lib (add_order b order_id price size side) (getFields line) 0
          (compute_depth b 'A' side price)) := by
  unfold process_mbo_action
  have hlen : ¬ (getFields line).length < 15 := by have := h.len; omega
  simp only [hlen, if_false, h.action_eq, h.side_eq, h.price_eq, h.size_eq, h.id_eq]
  simp [hN]

theorem process_cancel (lib : Lib) (b : OrderBook) (line : Str) (side : Char) (price : Price)
    (size order_id : Nat) (h : Parsed lib line 'C' side price size order_id)
    (hN : side ≠ 'N') :
    process_mbo_action lib b line =
      (cancel_order b order_id size,
        get_mbp_10_snapshot lib (cancel_order b order_id size) (getFields line) 0
          (compute_depth b 'C' side price)) := by
  unfold process_mbo_action
  have hlen : ¬ (getFields line).length < 15 := by have := h.len; omega
  simp only [hlen, if_false, h.action_eq, h.side_eq, h.price_eq, h.size_eq, h.id_eq]
  simp [hN]

/-! ## The depth locator -/

theorem cancel_scan_eq (price : Price) (m : Ledger) (k : Nat) :
    cancel_scan price m k =
      if m.any (fun e => decide (|e.1 - price| < 1 / 1000000000)) then
        k + m.findIdx (fun e => decide (|e.1 - price| < 1 / 1000000000))
      else 0 := by
  induction m generalizing k with
  | nil => simp [cancel_scan]
  | cons e rest ih =>
    obtain ⟨q, l⟩ := e
    unfold cancel_scan
    by_cases hq : |q - price| < 1 / 1000000000
    · have hn : near q price = true := by simp only [near, hq, decide_True]
      rw [if_pos hn]
      simp only [List.any_cons, hq, decide_True, Bool.true_or, if_true, List.findIdx_cons,
        cond_true, Nat.add_zero]
    · have hn : near q price = false := by simp only [near, hq, decide_False]
      rw [hn, ih (k + 1)]
      simp only [Bool.false_eq_true, if_false, List.any_cons, hq, decide_False,
        Bool.false_or, List.findIdx_cons, cond_false]
      split
      · omega
      · rfl

theorem cancel_scan_zero (price : Price) (m : Ledger) :
    cancel_scan price m 0 = cancel_rank price m := by
  rw [cancel_scan_eq]
  simp [cancel_rank]

theorem cancelLine_parsed : Parsed sampleLib cancelLine 'C' 'B' 100 5 42 :=
  ⟨by decide, by decide, by decide, by with_unfolding_all decide,
    by with_unfolding_all decide, by with_unfolding_all decide⟩

/-- C5, the code at the failing input: with the eleven bid levels 20, 19, ...,
10 in the book, an Add on the bid side at price 5 is worse than every level, so
its rank is the number of levels, 11, and the new level lands at index 11 of
the bid side; the depth column of the emitted row is `10`.  The scan of a
Cancel, which has no bound, reports `11` for that same level. -/
theorem add_depth_beyond_ten :
    Parsed sampleLib (addBid "5" "12") 'A' 'B' 5 1 12 ∧
    elevenBids.bids.length = 11 ∧
    add_rank bidBefore 5 elevenBids.bids = 11 ∧
    depth_field (process_mbo_action sampleLib elevenBids (addBid "5" "12")).2
      = to_string 10 ∧
    to_string 10 ≠ to_string 11 ∧
    (process_mbo_action sampleLib elevenBids (addBid "5" "12")).1.bids.get? 11
      = some (5, ⟨1, 1⟩) ∧
    Parsed sampleLib (record "C" "B" "5" "1" "12") 'C' 'B' 5 1 12 ∧
    depth_field (process_mbo_action sampleLib
        (process_mbo_action sampleLib elevenBids (addBid "5" "12")).1
        (record "C" "B" "5" "1" "12")).2
      = to_string 11 := by
  refine ⟨⟨?_, ?_, ?_, ?_, ?_, ?_⟩, ?_, ?_, ?_, ?_, ?_, ⟨?_, ?_, ?_, ?_, ?_, ?_⟩, ?_⟩ <;>
    with_unfolding_all decide

theorem addLine42_parsed : Parsed sampleLib addLine42 'A' 'B' 100 8 42 :=
  ⟨by decide, by decide, by decide, by with_unfolding_all decide,
    by with_unfolding_all decide, by with_unfolding_all decide⟩

/-! ## Lookups after the map and registry primitives -/

theorem levelUpdate_cons (p k : Price) (l : PriceLevel) (f : PriceLevel → PriceLevel)
    (rest : Ledger) :
    levelUpdate p f ((k, l) :: rest)
      = (if k = p then (k, f l) else (k, l)) :: levelUpdate p f rest := by
  simp [levelUpdate]

theorem levelErase_cons (p k : Price) (l : PriceLevel) (rest : Ledger) :
    levelErase p ((k, l) :: rest)
      = if k = p then levelErase p rest else (k, l) :: levelErase p rest := by
  by_cases hk : k = p <;> simp [levelErase, List.filter_cons, hk]

theorem regErase_cons (order_id k : Nat) (o : Order) (rest : Registry) :
    regErase order_id ((k, o) :: rest)
      = if k = order_id then regErase order_id rest else (k, o) :: regErase order_id rest := by
  by_cases hk : k = order_id <;> simp [regErase, List.filter_cons, hk]

theorem levelFind_update (q p : Price) (f : PriceLevel → PriceLevel) (m : Ledger) :
    levelFind q (levelUpdate p f m)
      = if q = p then (levelFind p m).map f else levelFind q m := by
  induction m with
  | nil => simp [levelFind, levelUpdate]
  | cons e rest ih =>
    obtain ⟨k, l⟩ := e
    rw [levelUpdate_cons]
    by_cases hk : k = p
    · subst hk
      rw [if_pos rfl]
      by_cases hq : q = k
      · subst hq
        simp [levelFind]
      · have hkq : ¬ k = q := fun h => hq h.symm
        simp only [levelFind, hkq, if_false, ih, hq]
    · rw [if_neg hk]
      by_cases hkq : k = q
      · subst hkq
        simp [levelFind, hk]
      · simp only [levelFind, hkq, if_false, ih, hk]

theorem levelFind_erase (q p : Price) (m : Ledger) :
    levelFind q (levelErase p m) = if q = p then none else levelFind q m := by
  induction m with
  | nil => simp [levelFind, levelErase]
  | cons e rest ih =>
    obtain ⟨k, l⟩ := e
    rw [levelErase_cons]
    by_cases hk : k = p
    · subst hk
      rw [if_pos rfl, ih]
      by_cases hq : q = k
      · simp [hq]
      · have hkq : ¬ k = q := fun h => hq h.symm
        simp only [levelFind, hkq, if_false, hq]
    · rw [if_neg hk]
      by_cases hkq : k = q
      · subst hkq
        simp [levelFind, hk]
      · simp only [levelFind, hkq, if_false, ih]

theorem levelFind_insert (before : Price → Price → Bool) (q p : Price) (l : PriceLevel)
    (m : Ledger) (hp : levelFind p m = none) :
    levelFind q (levelInsert before p l m) = if q = p then some l else levelFind q m := by
  induction m with
  | nil =>
    by_cases hq : q = p
    · simp [levelFind, levelInsert, hq]
    · have hpq : ¬ p = q := fun h => hq h.symm
      simp [levelFind, levelInsert, hq, hpq]
  | cons e rest ih =>
    obtain ⟨k, v⟩ := e
    have hkp : ¬ k = p := by
      intro h
      simp [levelFind, h] at hp
    have hrest : levelFind p rest = none := by
      simpa [levelFind, hkp] using hp
    unfold levelInsert
    by_cases hb : before p k = true
    · rw [if_pos hb]
      by_cases hq : q = p
      · simp [levelFind, hq]
      · have hpq : ¬ p = q := fun h => hq h.symm
        simp [levelFind, hq, hpq]
    · rw [if_neg hb]
      by_cases hq : q = p
      · subst hq
        simp only [levelFind, hkp, if_false, ih hrest, if_true]
      · simp only [levelFind, ih hrest, hq, if_false]

theorem regFind_set (k order_id : Nat) (o : Order) (r : Registry) :
    regFind k (regSet order_id o r) = if k = order_id then some o else regFind k r := by
  induction r with
  | nil =>
    by_cases hk : k = order_id
    · simp [regFind, regSet, hk]
    · have : ¬ order_id = k := fun h => hk h.symm
      simp [regFind, regSet, hk, this]
  | cons e rest ih =>
    obtain ⟨j, v⟩ := e
    unfold regSet
    by_cases hj : j = order_id
    · rw [if_pos hj]
      by_cases hk : k = order_id
      · simp [regFind, hk]
      · have h1 : ¬ order_id = k := fun h => hk h.symm
        have h2 : ¬ j = k := fun h => hk (h.symm.trans hj)
        simp [regFind, hk, h1, h2]
    · rw [if_neg hj]
      by_cases hk : k = order_id
      · subst hk
        simp only [regFind, hj, if_false, ih, if_true]
      · simp only [regFind, ih, hk, if_false]

theorem regFind_erase (k order_id : Nat) (r : Registry) :
    regFind k (regErase order_id r) = if k = order_id then none else regFind k r := by
  induction r with
  | nil => simp [regFind, regErase]
  | cons e rest ih =>
    obtain ⟨j, v⟩ := e
    rw [regErase_cons]
    by_cases hj : j = order_id
    · subst hj
      rw [if_pos rfl, ih]
      by_cases hk : k = j
      · simp [hk]
      · have hjk : ¬ j = k := fun h => hk h.symm
        simp only [regFind, hjk, if_false, hk]
    · rw [if_neg hj]
      by_cases hjk : j = k
      · subst hjk
        simp [regFind, hj]
      · simp only [regFind, hjk, if_false, ih]

theorem sub64_of_le {a c : Nat} (hca : c ≤ a) (ha : a < U64) : sub64 a c = a - c := by
  unfold sub64
  have hc : c < U64 := lt_of_le_of_lt hca ha
  rw [Nat.mod_eq_of_lt ha, Nat.mod_eq_of_lt hc]
  have e : a + U64 - c = (a - c) + U64 := by omega
  rw [e, Nat.add_mod_right, Nat.mod_eq_of_lt (by omega)]

/-- The level found under `price` after `cancel_level`, when the subtraction from
the total does not wrap. -/
theorem levelFind_cancel_level (price : Price) (actual : Nat) (complete : Bool) (m : Ledger)
    (l : PriceLevel) (hl : levelFind price m = some l) (ha : actual ≤ l.total_size)
    (ht : l.total_size < U64) :
    levelFind price (cancel_level price actual complete m)
      = if l.total_size - actual = 0 then none
        else some ⟨l.total_size - actual,
          if complete then sub64 l.order_count 1 else l.order_count⟩ := by
  unfold cancel_level
  simp only [hl, sub64_of_le ha ht]
  by_cases h0 : l.total_size - actual = 0
  · simp only [h0, if_true, levelFind_erase]
  · simp only [h0, if_false, levelFind_update, if_true, hl, Option.map_some']

theorem levelFind_cancel_level_ne (q price : Price) (actual : Nat) (complete : Bool)
    (m : Ledger) (hq : q ≠ price) :
    levelFind q (cancel_level price actual complete m) = levelFind q m := by
  unfold cancel_level
  cases levelFind price m with
  | none => rfl
  | some l =>
    simp only
    split
    · simp [levelFind_erase, hq]
    · simp [levelFind_update, hq]

theorem cancel_order_registered (b : OrderBook) (order_id size : Nat) (o : Order)
    (hreg : regFind order_id b.orders = some o) :
    cancel_order b order_id size =
      { bids := if o.side = 'B' then
            cancel_level o.price (min size o.size) (decide (size ≥ o.size)) b.bids
          else b.bids,
        asks := if o.side = 'B' then b.asks
          else if o.side = 'A' then
            cancel_level o.price (min size o.size) (decide (size ≥ o.size)) b.asks
          else b.asks,
        orders := if decide (size ≥ o.size) = true then regErase order_id b.orders
          else regSet order_id { o with size := o.size - min size o.size } b.orders } := by
  unfold cancel_order
  simp only [hreg]

theorem sideLedger_cancel_order (b : OrderBook) (order_id size : Nat) (o : Order)
    (hreg : regFind order_id b.orders = some o) (hside : o.side = 'B' ∨ o.side = 'A') :
    sideLedger (cancel_order b order_id size) o.side
      = cancel_level o.price (min size o.size) (decide (size ≥ o.size))
          (sideLedger b o.side) := by
  rw [cancel_order_registered b order_id size o hreg]
  rcases hside with h | h
  · simp [sideLedger, h]
  · simp [sideLedger, h]

theorem zeroCountBook_eq :
    zeroCountBook = ⟨[(100, ⟨7, 0⟩)], [], [(3, ⟨100, 5, 'B'⟩), (4, ⟨100, 2, 'B'⟩)]⟩ := by
  with_unfolding_all decide

/-- C2, counterexample: after the records of `zeroCountLog` order 3 rests with
size 5 at price 100 on the bid side and that level is present with total size
7 and order count 0; `cancel_order(3, 5)` leaves the level with total size 2 and
order count `2^64 - 1`, not a count lowered by 1. -/
theorem cancel_clamping_counterexample :
    regFind 3 zeroCountBook.orders = some ⟨100, 5, 'B'⟩ ∧
    levelFind 100 zeroCountBook.bids = some ⟨7, 0⟩ ∧
    levelFind 100 (cancel_order zeroCountBook 3 5).bids
      = some ⟨2, 18446744073709551615⟩ := by
  rw [zeroCountBook_eq]
  refine ⟨?_, ?_, ?_⟩ <;> decide

/-- C2, amended: when order `order_id` is registered with resting size `R` at
price `p` on side `B` or `A`, and the level `(p, side)` is present with total
size `T ≥ R` and order count at least 1, `cancel_order(order_id, S)` lowers the
level's total size by exactly `min S R`, the level being erased when that
reaches 0; if `S < R` the order stays registered with size `R - S` and the
level keeps its order count; if `S ≥ R` the order leaves the registry and the
order count drops by exactly 1. -/
theorem cancel_clamping_amended (b : OrderBook) (order_id S : Nat) (o : Order)
    (l : PriceLevel) (hreg : regFind order_id b.orders = some o)
    (hside : o.side = 'B' ∨ o.side = 'A')
    (hlev : levelFind o.price (sideLedger b o.side) = some l)
    (hT : o.size ≤ l.total_size) (hT64 : l.total_size < U64)
    (hc : 1 ≤ l.order_count) (hc64 : l.order_count < U64) :
    (levelFind o.price (sideLedger (cancel_order b order_id S) o.side)
      = if l.total_size - min S o.size = 0 then none
        else some ⟨l.total_size - min S o.size,
          if o.size ≤ S then l.order_count - 1 else l.order_count⟩) ∧
    (S < o.size →
      regFind order_id (cancel_order b order_id S).orders
          = some { o with size := o.size - S } ∧
      levelFind o.price (sideLedger (cancel_order b order_id S) o.side)
          = some ⟨l.total_size - S, l.order_count⟩) ∧
    (o.size ≤ S →
      regFind order_id (cancel_order b order_id S).orders = none ∧
      levelFind o.price (sideLedger (cancel_order b order_id S) o.side)
          = if l.total_size = o.size then none
            else some ⟨l.total_size - o.size, l.order_count - 1⟩) := by
  have hmin : min S o.size ≤ l.total_size := le_trans (Nat.min_le_right _ _) hT
  have key := levelFind_cancel_level o.price (min S o.size) (decide (S ≥ o.size))
    (sideLedger b o.side) l hlev hmin hT64
  rw [sub64_of_le hc hc64] at key
  rw [← sideLedger_cancel_order b order_id S o hreg hside] at key
  refine ⟨?_, ?_, ?_⟩
  · rw [key]
    simp
  · intro hlt
    have hm : min S o.size = S := Nat.min_eq_left (Nat.le_of_lt hlt)
    have hnc : ¬ S ≥ o.size := by omega
    constructor
    · rw [cancel_order_registered b order_id S o hreg]
      simp [hnc, regFind_set, hm]
    · rw [key, hm]
      have h0 : ¬ l.total_size - S = 0 := by omega
      simp [h0, hnc]
  · intro hle
    have hm : min S o.size = o.size := Nat.min_eq_right hle
    constructor
    · rw [cancel_order_registered b order_id S o hreg]
      simp [hle, regFind_erase]
    · rw [key, hm]
      by_cases hTe : l.total_size = o.size
      · simp [hTe]
      · have h0 : ¬ l.total_size - o.size = 0 := by omega
        simp [h0, hTe, hle]

/-- Witness for the amended C2: cancelling 5 of order 42 (size 8) in a book
whose bid level 100 holds total size 8 and one order. -/
theorem cancel_clamping_amended_witness :
    regFind 42 twoBids.orders = some ⟨100, 8, 'B'⟩ ∧
    levelFind 100 (sideLedger twoBids 'B') = some ⟨8, 1⟩ ∧
    regFind 42 (cancel_order twoBids 42 5).orders = some ⟨100, 8 - 5, 'B'⟩ ∧
    levelFind 100 (sideLedger (cancel_order twoBids 42 5) 'B') = some ⟨8 - 5, 1⟩ :=
  ⟨by decide, by decide,
    (cancel_clamping_amended twoBids 42 5 ⟨100, 8, 'B'⟩ ⟨8, 1⟩ (by decide) (Or.inl rfl)
      (by decide) (by decide) (by decide) (by decide) (by decide)).2.1 (by decide)⟩

/-! ## The driver loop on a Trade, Fill, Cancel triplet -/

theorem snapshot_ne_nil (lib : Lib) (b : OrderBook) (f : List Str) (n d : Nat) :
    get_mbp_10_snapshot lib b f n d ≠ [] := by
  unfold get_mbp_10_snapshot output_row
  exact joinComma_ne_nil _ _ _

/-- Replacing the text before the first comma of a snapshot by the row index
gives the snapshot rendered with that row index. -/
theorem renumber_snapshot (lib : Lib) (b : OrderBook) (f : List Str) (n d : Nat) :
    renumber n (get_mbp_10_snapshot lib b f 0 d) = get_mbp_10_snapshot lib b f n d := by
  unfold get_mbp_10_snapshot output_row
  exact renumber_joinComma n _ _ _ (to_string_no_comma 0)

theorem main_step_emit (lib : Lib) (s : Run) (cur : Str) (following : List Str)
    (b1 : OrderBook) (out : Str) (hp : passes cur following = true)
    (hr : process_mbo_action lib s.book cur = (b1, out)) (hout : out ≠ []) :
    main_step lib s cur following
      = ⟨b1, s.row_index + 1, s.rows ++ [renumber s.row_index out]⟩ := by
  unfold main_step process_line
  simp [hp, hr, hout]

theorem main_step_skip (lib : Lib) (s : Run) (cur : Str) (following : List Str)
    (hp : passes cur following = false) : main_step lib s cur following = s := by
  unfold main_step
  simp [hp]

theorem skip_trade_fill_cancel (t f c : Str) (rest : List Str)
    (ht : has_action t 'T' = true) (hf : has_action f 'F' = true)
    (hc : has_action c 'C' = true) : skip_this_action t (f :: c :: rest) = true := by
  have hT := (has_action_iff t 'T').1 ht
  simp [skip_this_action, hT.2, hf, cancel_follows, hc]

theorem passes_cancel (c : Str) (rest : List Str) (hc : has_action c 'C' = true) :
    passes c rest = true := by
  have hC := (has_action_iff c 'C').1 hc
  simp [passes, skip_this_action, hC.1, hC.2]

theorem Parsed.has_action {lib : Lib} {line : Str} {action side : Char} {price : Price}
    {size order_id : Nat} (h : Parsed lib line action side price size order_id) :
    OrderBookModel.has_action line action = true :=
  (has_action_iff line action).2 ⟨le_trans (by decide) h.len, h.action_eq⟩

theorem wrapAdd_parsed :
    Parsed sampleLib wrapAdd 'A' 'B' 100 18446744073709551611 2 :=
  ⟨by decide, by decide, by decide, by with_unfolding_all decide, by decide, by decide⟩

theorem wrapBook_eq : run_actions sampleLib empty [addLine42, wrapAdd] = wrapBook := by
  simp only [run_actions, List.foldl_cons, List.foldl_nil]
  rw [process_add sampleLib _ _ 'B' 100 _ 42 addLine42_parsed (by decide)]
  simp only
  rw [process_add sampleLib _ _ 'B' 100 _ 2 wrapAdd_parsed (by decide)]
  decide

theorem wrapBook_loop :
    main_loop sampleLib ⟨wrapBook, 0, []⟩ [tradeLine, fillLine, cancelLine]
      = ⟨cancel_order wrapBook 42 5, 0 + 1,
          [] ++ [renumber 0 (get_mbp_10_snapshot sampleLib (cancel_order wrapBook 42 5)
            (getFields cancelLine) 0 (compute_depth wrapBook 'C' 'B' 100))]⟩ := by
  have h1 : main_step sampleLib ⟨wrapBook, 0, []⟩ tradeLine [fillLine, cancelLine]
      = ⟨wrapBook, 0, []⟩ := main_step_skip _ _ _ _ (by decide)
  have h2 : main_step sampleLib ⟨wrapBook, 0, []⟩ fillLine [cancelLine]
      = ⟨wrapBook, 0, []⟩ := main_step_skip _ _ _ _ (by decide)
  have h3 := main_step_emit sampleLib ⟨wrapBook, 0, []⟩ cancelLine [] _ _ (by decide)
    (process_cancel sampleLib wrapBook cancelLine 'B' 100 5 42 cancelLine_parsed (by decide))
    (snapshot_ne_nil _ _ _ _ _)
  simp only [main_loop, h1, h2, h3]

/-- C3, counterexample: the Adds of order 42 (bid, price 100, size 8) and of
order 2 (same level, size `2^64 - 5`) leave a book in which order 42 rests on
side `B` at price 100 with size 8 and the level 100 holds the wrapped total 3.
The loop of `main` on the well-formed records Trade(side `A`), Fill,
Cancel(side `B`, price 100, size 5, order 42) writes one row and leaves the
prior book with `cancel_order(42, 5)` applied, in which order 42 keeps 3, but
the level total is `2^64 - 2`: it is not the prior total 3 reduced by 5. -/
theorem tfc_collapsing_counterexample :
    run_actions sampleLib empty [addLine42, wrapAdd] = wrapBook ∧
    regFind 42 wrapBook.orders = some ⟨100, 8, 'B'⟩ ∧
    levelFind 100 wrapBook.bids = some ⟨3, 2⟩ ∧
    has_action tradeLine 'T' = true ∧
    firstChar (fieldAt (getFields tradeLine) 6) = 'A' ∧
    has_action fillLine 'F' = true ∧
    Parsed sampleLib cancelLine 'C' 'B' 100 5 42 ∧
    (main_loop sampleLib ⟨wrapBook, 0, []⟩ [tradeLine, fillLine, cancelLine]).rows.length = 1 ∧
    (main_loop sampleLib ⟨wrapBook, 0, []⟩ [tradeLine, fillLine, cancelLine]).book
      = cancel_order wrapBook 42 5 ∧
    regFind 42 (cancel_order wrapBook 42 5).orders = some ⟨100, 3, 'B'⟩ ∧
    levelFind 100 (cancel_order wrapBook 42 5).bids = some ⟨18446744073709551614, 2⟩ ∧
    (18446744073709551614 : Nat) + 5 ≠ 3 := by
  refine ⟨wrapBook_eq, by decide, by decide, by decide, by decide, by decide,
    cancelLine_parsed, ?_, ?_, by decide, by decide, by decide⟩
  · rw [wrapBook_loop]
    rfl
  · rw [wrapBook_loop]

/-- C3, amended (collapsing correctness in the loop of `main`): with order 42
resting on side `B` at price 100 with size `R ≥ 5` and the bid level 100
holding a total of at least 5, the iterations at the consecutive records
Trade, Fill, Cancel(side `B`, price 100, size 5, order 42) leave the state
untouched at the Trade and at the Fill and write exactly one row at the
Cancel; the side column of that row is `B` and the book afterwards is the
prior book with `cancel_order(42, 5)` applied: the asks, the other orders and
the other bid levels are unchanged, order 42 keeps `R - 5` (leaving the
registry when that is 0), and the level 100 of total `T ≥ 5` is lowered by 5
(and erased when that leaves 0).  Only the last part needs the bound on the
level total. -/
theorem tfc_collapsing_amended (lib : Lib) (s : Run) (t f c : Str) (rest : List Str) (R : Nat)
    (ht : has_action t 'T' = true) (hf : has_action f 'F' = true)
    (hc : Parsed lib c 'C' 'B' 100 5 42)
    (hreg : regFind 42 s.book.orders = some ⟨100, R, 'B'⟩) (hR : 5 ≤ R) :
    main_step lib s t (f :: c :: rest) = s ∧
    main_step lib s f (c :: rest) = s ∧
    main_step lib s c rest
      = ⟨cancel_order s.book 42 5, s.row_index + 1,
          s.rows ++ [get_mbp_10_snapshot lib (cancel_order s.book 42 5) (getFields c)
            s.row_index (cancel_rank 100 s.book.bids)]⟩ ∧
    side_field (get_mbp_10_snapshot lib (cancel_order s.book 42 5) (getFields c)
      s.row_index (cancel_rank 100 s.book.bids)) = ['B'] ∧
    main_loop lib s (t :: f :: c :: rest) = main_loop lib (main_step lib s c rest) rest ∧
    (cancel_order s.book 42 5).asks = s.book.asks ∧
    regFind 42 (cancel_order s.book 42 5).orders
      = (if R = 5 then none else some ⟨100, R - 5, 'B'⟩) ∧
    (∀ k, k ≠ 42 → regFind k (cancel_order s.book 42 5).orders = regFind k s.book.orders) ∧
    (∀ q, q ≠ 100 → levelFind q (cancel_order s.book 42 5).bids = levelFind q s.book.bids) ∧
    (∀ l, levelFind 100 s.book.bids = some l → 5 ≤ l.total_size → l.total_size < U64 →
      (levelFind 100 (cancel_order s.book 42 5).bids).map PriceLevel.total_size
        = if l.total_size - 5 = 0 then none else some (l.total_size - 5)) := by
  have h1 : main_step lib s t (f :: c :: rest) = s :=
    main_step_skip lib s t _ (by simp [passes, skip_trade_fill_cancel t f c rest ht hf hc.has_action])
  have h2 : main_step lib s f (c :: rest) = s :=
    main_step_skip lib s f _ (passes_of_fill hf _)
  have hproc := process_cancel lib s.book c 'B' 100 5 42 hc (by decide)
  have hdepth : compute_depth s.book 'C' 'B' 100 = cancel_rank 100 s.book.bids := by
    simp [compute_depth, cancel_scan_zero]
  rw [hdepth] at hproc
  have h3 := main_step_emit lib s c rest _ _ (passes_cancel c rest hc.has_action) hproc
    (snapshot_ne_nil _ _ _ _ _)
  rw [renumber_snapshot] at h3
  have hco := cancel_order_registered s.book 42 5 ⟨100, R, 'B'⟩ hreg
  have hmin : min 5 R = 5 := Nat.min_eq_left hR
  simp only [hmin, if_true] at hco
  refine ⟨h1, h2, h3, ?_, ?_, ?_, ?_, ?_, ?_, ?_⟩
  · rw [snapshot_side_field, hc.side_eq]
  · simp only [main_loop, h1, h2]
  · rw [hco]
  · rw [hco]
    by_cases hR5 : R = 5
    · subst hR5
      simp [regFind_erase]
    · have hlt : ¬ 5 ≥ R := by omega
      simp [hlt, regFind_set, hR5]
  · intro k hk
    rw [hco]
    by_cases hge : 5 ≥ R
    · simp [hge, regFind_erase, hk]
    · simp [hge, regFind_set, hk]
  · intro q hq
    rw [hco]
    exact levelFind_cancel_level_ne q 100 5 _ _ hq
  · intro l hl h5 h64
    rw [hco]
    simp only
    rw [levelFind_cancel_level 100 5 _ _ l hl h5 h64]
    by_cases h0 : l.total_size - 5 = 0
    · simp [h0]
    · simp [h0]

/-- Witness for the amended C3: the triplet in a book where order 42 rests at
the bid level 100 with size 8 and the level holds the total 8; one row is
written at the Cancel and the level total becomes 3. -/
theorem tfc_collapsing_amended_witness :
    regFind 42 twoBids.orders = some ⟨100, 8, 'B'⟩ ∧
    levelFind 100 twoBids.bids = some ⟨8, 1⟩ ∧
    main_step sampleLib ⟨twoBids, 0, []⟩ cancelLine []
      = ⟨cancel_order twoBids 42 5, 0 + 1,
          [] ++ [get_mbp_10_snapshot sampleLib (cancel_order twoBids 42 5)
            (getFields cancelLine) 0 (cancel_rank 100 twoBids.bids)]⟩ ∧
    (levelFind 100 (cancel_order twoBids 42 5).bids).map PriceLevel.total_size
      = if (8 : Nat) - 5 = 0 then none else some (8 - 5) :=
  ⟨by decide, by decide,
    (tfc_collapsing_amended sampleLib ⟨twoBids, 0, []⟩ tradeLine fillLine cancelLine [] 8
      (by decide) (by decide) cancelLine_parsed (by decide) (by decide)).2.2.1,
    (tfc_collapsing_amended sampleLib ⟨twoBids, 0, []⟩ tradeLine fillLine cancelLine [] 8
      (by decide) (by decide) cancelLine_parsed (by decide) (by decide)).2.2.2.2.2.2.2.2.2
      ⟨8, 1⟩ (by decide) (by decide) (show (8 : Nat) < U64 from by unfold U64; decide)⟩

/-- C4, the code at the failing input: for the log Trade (event `e1`, flags
`130`, sequence `851`), Fill, Cancel (event `e3`, flags `132`, sequence `853`)
the loop of `main` writes one row whose timestamp, flags and sequence columns
are the Cancel record's, with side `B` and action `C`; `process_tfc_sequence`,
which `main` never calls, renders the Trade record's columns with side `B`. -/
theorem tfc_row_metadata_code :
    (main_loop sampleLib ⟨twoBids, 0, []⟩ [tradeLine, fillLine, cancelLine]).rows.map
        (fun r => (fieldAt (getFields r) 1, fieldAt (getFields r) 11,
          fieldAt (getFields r) 13, fieldAt (getFields r) 7))
      = [("e3".toList, "132".toList, "853".toList, "B".toList)] ∧
    (main_loop sampleLib ⟨twoBids, 0, []⟩ [tradeLine, fillLine, cancelLine]).rows.map
        (fun r => fieldAt (getFields r) 6) = ["C".toList] ∧
    (fieldAt (getFields tradeLine) 1, fieldAt (getFields tradeLine) 11,
        fieldAt (getFields tradeLine) 13)
      = ("e1".toList, "130".toList, "851".toList) ∧
    (fun r => (fieldAt (getFields r) 1, fieldAt (getFields r) 11,
          fieldAt (getFields r) 13, fieldAt (getFields r) 7))
        (process_tfc_sequence sampleLib twoBids tradeLine fillLine cancelLine).2
      = ("e1".toList, "130".toList, "851".toList, "B".toList) := by
  refine ⟨?_, ?_, ?_, ?_⟩ <;> with_unfolding_all decide

/-! ## Books reached through `process_mbo_action` -/

/-- The book `process_mbo_action` leaves: the same book, the cleared book, the
book after `add_order` on an Add record, or after `cancel_order` on a Cancel
record. -/
theorem process_book_cases (lib : Lib) (b : OrderBook) (line : Str) :
    (process_mbo_action lib b line).1 = b ∨
    (process_mbo_action lib b line).1 = clear b ∨
    (∃ side price size order_id, Parsed lib line 'A' side price size order_id ∧
      side ≠ 'N' ∧ (process_mbo_action lib b line).1 = add_order b order_id price size side) ∨
    (∃ side price size order_id, Parsed lib line 'C' side price size order_id ∧
      side ≠ 'N' ∧ (process_mbo_action lib b line).1 = cancel_order b order_id size) := by
  by_cases hlen : (getFields line).length < 15
  · left
    simp [process_mbo_action, hlen]
  · cases hp : parse_price lib (fieldAt (getFields line) 7) with
    | none => left; simp [process_mbo_action, hlen, hp]
    | some price =>
      cases hs : parse_u64 lib (fieldAt (getFields line) 8) with
      | none => left; simp [process_mbo_action, hlen, hp, hs]
      | some size =>
        cases hi : parse_u64 lib (fieldAt (getFields line) 10) with
        | none => left; simp [process_mbo_action, hlen, hp, hs, hi]
        | some order_id =>
          by_cases hR : firstChar (fieldAt (getFields line) 5) = 'R'
          · right; left
            simp [process_mbo_action, hlen, hp, hs, hi, hR]
          · by_cases hA : firstChar (fieldAt (getFields line) 5) = 'A'
            · by_cases hN : firstChar (fieldAt (getFields line) 6) = 'N'
              · left
                simp [process_mbo_action, hlen, hp, hs, hi, hA, hN]
              · right; right; left
                refine ⟨_, price, size, order_id, ⟨by omega, hA, rfl, hp, hs, hi⟩, hN, ?_⟩
                simp [process_mbo_action, hlen, hp, hs, hi, hA, hN]
            · by_cases hC : firstChar (fieldAt (getFields line) 5) = 'C'
              · by_cases hN : firstChar (fieldAt (getFields line) 6) = 'N'
                · left
                  simp [process_mbo_action, hlen, hp, hs, hi, hC, hN]
                · right; right; right
                  refine ⟨_, price, size, order_id, ⟨by omega, hC, rfl, hp, hs, hi⟩, hN, ?_⟩
                  simp [process_mbo_action, hlen, hp, hs, hi, hC, hN]
              · left
                by_cases hT : firstChar (fieldAt (getFields line) 5) = 'T'
                · simp [process_mbo_action, hlen, hp, hs, hi, hT]
                · simp [process_mbo_action, hlen, hp, hs, hi, hR, hA, hC, hT]

/-- An invariant kept by every guarded step holds along every admissible
sequence of records. -/
theorem run_invariant (lib : Lib) (G : OrderBook → Str → Prop) (I : OrderBook → Prop)
    (hstep : ∀ b line, I b → G b line → I (process_mbo_action lib b line).1) :
    ∀ (lines : List Str) (b : OrderBook), I b → Admissible lib G b lines →
      I (run_actions lib b lines) := by
  intro lines
  induction lines with
  | nil => intro b hb _; simpa [run_actions] using hb
  | cons line rest ih =>
    intro b hb hadm
    have h := ih (process_mbo_action lib b line).1 (hstep b line hb hadm.1) hadm.2
    simpa [run_actions] using h

theorem levelFind_eq_none_iff (p : Price) (m : Ledger) :
    levelFind p m = none ↔ ∀ e ∈ m, e.1 ≠ p := by
  induction m with
  | nil => simp [levelFind]
  | cons e rest ih =>
    obtain ⟨k, l⟩ := e
    by_cases hk : k = p
    · simp [levelFind, hk]
    · simp [levelFind, hk, ih]

theorem levelFind_of_mem (m : Ledger) (hnd : (m.map Prod.fst).Nodup) (e : Price × PriceLevel)
    (he : e ∈ m) : levelFind e.1 m = some e.2 := by
  induction m with
  | nil => cases he
  | cons x rest ih =>
    obtain ⟨k, l⟩ := x
    rw [List.map_cons, List.nodup_cons] at hnd
    rcases List.mem_cons.1 he with rfl | he
    · simp [levelFind]
    · have hne : ¬ k = e.1 := by
        intro h
        have hm : e.1 ∈ rest.map Prod.fst := List.mem_map_of_mem Prod.fst he
        rw [← h] at hm
        exact hnd.1 hm
      simp only [levelFind, hne, if_false]
      exact ih hnd.2 he

theorem levelInsert_cons (before : Price → Price → Bool) (p k : Price) (l v : PriceLevel)
    (rest : Ledger) :
    levelInsert before p l ((k, v) :: rest)
      = if before p k then (p, l) :: (k, v) :: rest
        else (k, v) :: levelInsert before p l rest := rfl

theorem mem_levelInsert (before : Price → Price → Bool) (p : Price) (l : PriceLevel)
    (m : Ledger) (e : Price × PriceLevel) :
    e ∈ levelInsert before p l m ↔ e = (p, l) ∨ e ∈ m := by
  induction m with
  | nil => simp [levelInsert]
  | cons x rest ih =>
    obtain ⟨k, v⟩ := x
    rw [levelInsert_cons]
    cases hb : before p k with
    | true => simp
    | false =>
      simp only [Bool.false_eq_true, if_false, List.mem_cons, ih]
      tauto

theorem nodup_levelInsert (before : Price → Price → Bool) (p : Price) (l : PriceLevel)
    (m : Ledger) (hnd : (m.map Prod.fst).Nodup) (hp : levelFind p m = none) :
    ((levelInsert before p l m).map Prod.fst).Nodup := by
  induction m with
  | nil => simp [levelInsert]
  | cons x rest ih =>
    obtain ⟨k, v⟩ := x
    have hall := (levelFind_eq_none_iff p _).1 hp
    have hkp : k ≠ p := hall (k, v) (List.mem_cons_self _ _)
    have hrest : levelFind p rest = none :=
      (levelFind_eq_none_iff p rest).2 (fun e he => hall e (List.mem_cons_of_mem _ he))
    rw [List.map_cons, List.nodup_cons] at hnd
    rw [levelInsert_cons]
    cases hb : before p k with
    | true =>
      simp only [if_true, List.map_cons, List.nodup_cons]
      refine ⟨?_, hnd.1, hnd.2⟩
      intro hm
      rcases List.mem_cons.1 hm with h | h
      · exact hkp h.symm
      · obtain ⟨e, he, hep⟩ := List.mem_map.1 h
        exact hall e (List.mem_cons_of_mem _ he) hep
    | false =>
      simp only [Bool.false_eq_true, if_false, List.map_cons, List.nodup_cons]
      refine ⟨?_, ih hnd.2 hrest⟩
      intro hm
      obtain ⟨e, he, hek⟩ := List.mem_map.1 hm
      rcases (mem_levelInsert before p l rest e).1 he with rfl | he
      · exact hkp hek.symm
      · have hm2 : e.1 ∈ rest.map Prod.fst := List.mem_map_of_mem Prod.fst he
        rw [hek] at hm2
        exact hnd.1 hm2

theorem keys_levelUpdate (p : Price) (f : PriceLevel → PriceLevel) (m : Ledger) :
    (levelUpdate p f m).map Prod.fst = m.map Prod.fst := by
  induction m with
  | nil => rfl
  | cons x rest ih =>
    obtain ⟨k, v⟩ := x
    rw [levelUpdate_cons, List.map_cons, List.map_cons, ih]
    by_cases hk : k = p <;> simp [hk]

theorem nodup_levelErase (p : Price) (m : Ledger) (hnd : (m.map Prod.fst).Nodup) :
    ((levelErase p m).map Prod.fst).Nodup :=
  hnd.sublist ((List.filter_sublist m).map Prod.fst)

theorem mem_levelUpdate (p : Price) (f : PriceLevel → PriceLevel) (m : Ledger)
    (e : Price × PriceLevel) (he : e ∈ levelUpdate p f m) :
    (e ∈ m ∧ e.1 ≠ p) ∨ (∃ l, (p, l) ∈ m ∧ e = (p, f l)) := by
  unfold levelUpdate at he
  obtain ⟨x, hx, hxe⟩ := List.mem_map.1 he
  by_cases hk : x.1 = p
  · right
    rw [if_pos hk] at hxe
    refine ⟨x.2, ?_, ?_⟩
    · rw [← hk]; exact hx
    · rw [← hxe, hk]
  · left
    rw [if_neg hk] at hxe
    rw [← hxe]
    exact ⟨hx, hk⟩

theorem mem_levelErase (p : Price) (m : Ledger) (e : Price × PriceLevel) :
    e ∈ levelErase p m ↔ e ∈ m ∧ e.1 ≠ p := by
  simp [levelErase]

theorem add64_ne_zero {t size : Nat} (hs : 0 < size) (h : t + size < U64) :
    add64 t size ≠ 0 := by
  unfold add64
  rw [Nat.mod_eq_of_lt h]
  omega

theorem noZero_add_level (before : Price → Price → Bool) (price : Price) (size : Nat)
    (m : Ledger) (hnd : (m.map Prod.fst).Nodup) (hz : ∀ e ∈ m, e.2.total_size ≠ 0)
    (hs : 0 < size) (hov : ∀ l, levelFind price m = some l → l.total_size + size < U64) :
    (((add_level before price size m).map Prod.fst).Nodup) ∧
    ∀ e ∈ add_level before price size m, e.2.total_size ≠ 0 := by
  unfold add_level
  cases hf : levelFind price m with
  | none =>
    refine ⟨nodup_levelInsert before price _ m hnd hf, ?_⟩
    intro e he
    rcases (mem_levelInsert before price _ m e).1 he with rfl | he
    · exact Nat.pos_iff_ne_zero.1 hs
    · exact hz e he
  | some l0 =>
    refine ⟨by simpa [keys_levelUpdate] using hnd, ?_⟩
    intro e he
    rcases mem_levelUpdate price _ m e he with ⟨hm, -⟩ | ⟨l, hl, rfl⟩
    · exact hz e hm
    · have := levelFind_of_mem m hnd (price, l) hl
      rw [hf] at this
      have hl0 : l0 = l := Option.some.inj this
      subst hl0
      exact add64_ne_zero hs (hov l0 hf)

theorem noZero_cancel_level (price : Price) (actual : Nat) (complete : Bool) (m : Ledger)
    (hnd : (m.map Prod.fst).Nodup) (hz : ∀ e ∈ m, e.2.total_size ≠ 0) :
    (((cancel_level price actual complete m).map Prod.fst).Nodup) ∧
    ∀ e ∈ cancel_level price actual complete m, e.2.total_size ≠ 0 := by
  unfold cancel_level
  cases hf : levelFind price m with
  | none => exact ⟨hnd, hz⟩
  | some l0 =>
    simp only
    by_cases h0 : sub64 l0.total_size actual = 0
    · rw [if_pos h0]
      refine ⟨nodup_levelErase price m hnd, ?_⟩
      intro e he
      exact hz e ((mem_levelErase price m e).1 he).1
    · rw [if_neg h0]
      refine ⟨by simpa [keys_levelUpdate] using hnd, ?_⟩
      intro e he
      rcases mem_levelUpdate price _ m e he with ⟨hm, -⟩ | ⟨l, -, rfl⟩
      · exact hz e hm
      · exact h0

/-- The invariant carried for C7: no level of total size 0, and no price twice
in a ledger. -/
theorem noZero_step (lib : Lib) (b : OrderBook) (line : Str)
    (hI : NoZeroLevel b ∧ (b.bids.map Prod.fst).Nodup ∧ (b.asks.map Prod.fst).Nodup)
    (hG : PositiveAdd lib b line) :
    NoZeroLevel (process_mbo_action lib b line).1 ∧
    ((process_mbo_action lib b line).1.bids.map Prod.fst).Nodup ∧
    ((process_mbo_action lib b line).1.asks.map Prod.fst).Nodup := by
  obtain ⟨⟨hzb, hza⟩, hnb, hna⟩ := hI
  rcases process_book_cases lib b line with h | h | ⟨side, price, size, id, hp, hN, h⟩ |
      ⟨side, price, size, id, hp, hN, h⟩
  · rw [h]; exact ⟨⟨hzb, hza⟩, hnb, hna⟩
  · rw [h]; simp [clear, NoZeroLevel]
  · rw [h]
    unfold add_order
    by_cases hB : side = 'B'
    · have hg := hG side price size id hp (Or.inl hB)
      have hov : ∀ l, levelFind price b.bids = some l → l.total_size + size < U64 := by
        simpa [sideLedger, hB] using hg.2
      have := noZero_add_level bidBefore price size b.bids hnb hzb hg.1 hov
      simp only [hB, if_true]
      exact ⟨⟨this.2, hza⟩, this.1, hna⟩
    · by_cases hA : side = 'A'
      · have hg := hG side price size id hp (Or.inr hA)
        have hov : ∀ l, levelFind price b.asks = some l → l.total_size + size < U64 := by
          simpa [sideLedger, hB] using hg.2
        have := noZero_add_level askBefore price size b.asks hna hza hg.1 hov
        simp only [hB, hA, if_true, if_false]
        exact ⟨⟨hzb, this.2⟩, hnb, this.1⟩
      · simp only [hB, hA, if_false]
        exact ⟨⟨hzb, hza⟩, hnb, hna⟩
  · rw [h]
    unfold cancel_order
    cases hf : regFind id b.orders with
    | none => exact ⟨⟨hzb, hza⟩, hnb, hna⟩
    | some o =>
      simp only
      by_cases hB : o.side = 'B'
      · have := noZero_cancel_level o.price (min size o.size) (decide (size ≥ o.size)) b.bids
          hnb hzb
        simp only [hB, if_true]
        exact ⟨⟨this.2, hza⟩, this.1, hna⟩
      · by_cases hA : o.side = 'A'
        · have := noZero_cancel_level o.price (min size o.size) (decide (size ≥ o.size))
            b.asks hna hza
          simp only [hB, hA, if_true, if_false]
          exact ⟨⟨hzb, this.2⟩, hnb, this.1⟩
        · simp only [hB, hA, if_false]
          exact ⟨⟨hzb, hza⟩, hnb, hna⟩

/-- C7, counterexample: from the empty book, one Add record of size 0 (written
`0`, or left empty) on the bid side at price 100 leaves the bid ledger with the
level 100 of total size 0. -/
theorem no_zero_level_counterexample :
    (run_actions sampleLib empty [record "A" "B" "100" "0" "1"]).bids = [(100, ⟨0, 1⟩)] ∧
    (run_actions sampleLib empty [record "A" "B" "100" "" "1"]).bids = [(100, ⟨0, 1⟩)] ∧
    ¬ NoZeroLevel (run_actions sampleLib empty [record "A" "B" "100" "0" "1"]) := by
  have h1 : (run_actions sampleLib empty [record "A" "B" "100" "0" "1"]).bids
      = [(100, ⟨0, 1⟩)] := by with_unfolding_all decide
  refine ⟨h1, by with_unfolding_all decide, ?_⟩
  intro h
  exact h.1 (100, ⟨0, 1⟩) (by rw [h1]; simp) rfl

/-- C7, amended: for every book reached from the empty book by a sequence of
records applied through `process_mbo_action` in which every Add record with side
`B` or `A` has a size other than 0 and adds to its level's total without
exceeding 64 bits, neither the bid ledger nor the ask ledger contains a level
whose total size is 0. -/
theorem no_zero_level_amended (lib : Lib) (lines : List Str)
    (h : Admissible lib (PositiveAdd lib) empty lines) :
    NoZeroLevel (run_actions lib empty lines) :=
  (run_invariant lib (PositiveAdd lib)
    (fun b => NoZeroLevel b ∧ (b.bids.map Prod.fst).Nodup ∧ (b.asks.map Prod.fst).Nodup)
    (noZero_step lib) lines empty (by simp [empty, NoZeroLevel]) h).1

/-! ## Sums over the registry -/

theorem regTotal_eq (p : Price) (s : Char) (r : Registry) :
    regTotal p s r = regAgg (fun o => o.size) p s r := rfl

theorem regCount_eq (p : Price) (s : Char) (r : Registry) :
    regCount p s r = regAgg (fun _ => 1) p s r := by
  unfold regCount regAgg
  generalize (r.filter fun e => decide (e.2.price = p ∧ e.2.side = s)) = l
  induction l with
  | nil => rfl
  | cons x xs ih =>
    rw [List.length_cons, List.map_cons, List.sum_cons, ih, Nat.add_comm]

theorem regAgg_cons (g : Order → Nat) (p : Price) (s : Char) (k : Nat) (o : Order)
    (r : Registry) :
    regAgg g p s ((k, o) :: r)
      = (if o.price = p ∧ o.side = s then g o else 0) + regAgg g p s r := by
  unfold regAgg
  by_cases h : o.price = p ∧ o.side = s
  · simp [List.filter_cons, h]
  · simp [List.filter_cons, h]

theorem regAgg_append (g : Order → Nat) (p : Price) (s : Char) (r1 r2 : Registry) :
    regAgg g p s (r1 ++ r2) = regAgg g p s r1 + regAgg g p s r2 := by
  unfold regAgg
  simp [List.filter_append]

theorem regAgg_eq_zero (g : Order → Nat) (p : Price) (s : Char) (r : Registry)
    (h : ∀ e ∈ r, ¬ (e.2.price = p ∧ e.2.side = s)) : regAgg g p s r = 0 := by
  induction r with
  | nil => rfl
  | cons x rest ih =>
    obtain ⟨k, o⟩ := x
    rw [regAgg_cons, if_neg (h (k, o) (List.mem_cons_self _ _)),
      ih (fun e he => h e (List.mem_cons_of_mem _ he))]

theorem regFind_eq_none_iff (order_id : Nat) (r : Registry) :
    regFind order_id r = none ↔ ∀ e ∈ r, e.1 ≠ order_id := by
  induction r with
  | nil => simp [regFind]
  | cons e rest ih =>
    obtain ⟨k, o⟩ := e
    by_cases hk : k = order_id
    · simp [regFind, hk]
    · simp [regFind, hk, ih]

theorem mem_of_regFind (order_id : Nat) (o : Order) (r : Registry)
    (h : regFind order_id r = some o) : (order_id, o) ∈ r := by
  induction r with
  | nil => simp [regFind] at h
  | cons e rest ih =>
    obtain ⟨k, v⟩ := e
    by_cases hk : k = order_id
    · simp only [regFind, hk, if_true, Option.some.injEq] at h
      simp [hk, h]
    · simp only [regFind, hk, if_false] at h
      exact List.mem_cons_of_mem _ (ih h)

theorem regSet_fresh (order_id : Nat) (o : Order) (r : Registry)
    (h : regFind order_id r = none) : regSet order_id o r = r ++ [(order_id, o)] := by
  induction r with
  | nil => rfl
  | cons e rest ih =>
    obtain ⟨k, v⟩ := e
    have hk : ¬ k = order_id := by
      intro hk
      simp [regFind, hk] at h
    have hrest : regFind order_id rest = none := by
      simpa [regFind, hk] using h
    simp [regSet, hk, ih hrest]

theorem regErase_of_not_mem (order_id : Nat) (r : Registry)
    (h : ∀ e ∈ r, e.1 ≠ order_id) : regErase order_id r = r := by
  unfold regErase
  rw [List.filter_eq_self]
  intro e he
  simpa using h e he

theorem mem_regErase (order_id : Nat) (r : Registry) (e : Nat × Order) :
    e ∈ regErase order_id r ↔ e ∈ r ∧ e.1 ≠ order_id := by
  simp [regErase]

/-- Erasing a registered order removes its contribution from the sum of its
price and side. -/
theorem regAgg_erase (g : Order → Nat) (p : Price) (s : Char) (order_id : Nat) (o : Order)
    (r : Registry) (hnd : (r.map Prod.fst).Nodup) (h : regFind order_id r = some o) :
    regAgg g p s (regErase order_id r) + (if o.price = p ∧ o.side = s then g o else 0)
      = regAgg g p s r := by
  induction r with
  | nil => simp [regFind] at h
  | cons e rest ih =>
    obtain ⟨k, v⟩ := e
    rw [List.map_cons, List.nodup_cons] at hnd
    rw [regErase_cons]
    by_cases hk : k = order_id
    · subst hk
      simp only [regFind, if_true, Option.some.injEq] at h
      subst h
      have hno : ∀ e ∈ rest, e.1 ≠ k := by
        intro e he hek
        have hm : e.1 ∈ rest.map Prod.fst := List.mem_map_of_mem Prod.fst he
        rw [hek] at hm
        exact hnd.1 hm
      rw [if_pos rfl, regErase_of_not_mem k rest hno, regAgg_cons, Nat.add_comm]
    · simp only [regFind, hk, if_false] at h
      rw [if_neg hk, regAgg_cons, regAgg_cons, Nat.add_assoc, ih hnd.2 h]

/-- Overwriting a registered order exchanges its contribution. -/
theorem regAgg_set (g : Order → Nat) (p : Price) (s : Char) (order_id : Nat) (o o1 : Order)
    (r : Registry) (h : regFind order_id r = some o) :
    regAgg g p s (regSet order_id o1 r) + (if o.price = p ∧ o.side = s then g o else 0)
      = regAgg g p s r + (if o1.price = p ∧ o1.side = s then g o1 else 0) := by
  induction r with
  | nil => simp [regFind] at h
  | cons e rest ih =>
    obtain ⟨k, v⟩ := e
    by_cases hk : k = order_id
    · subst hk
      simp only [regFind, if_true, Option.some.injEq] at h
      subst h
      simp only [regSet, if_true, regAgg_cons]
      omega
    · simp only [regFind, hk, if_false] at h
      have := ih h
      simp only [regSet, hk, if_false, regAgg_cons]
      omega

theorem keys_regSet (order_id : Nat) (o o1 : Order) (r : Registry)
    (h : regFind order_id r = some o) :
    (regSet order_id o1 r).map Prod.fst = r.map Prod.fst := by
  induction r with
  | nil => simp [regFind] at h
  | cons e rest ih =>
    obtain ⟨k, v⟩ := e
    by_cases hk : k = order_id
    · simp [regSet, hk]
    · simp only [regFind, hk, if_false] at h
      simp [regSet, hk, ih h]

theorem mem_regSet (order_id : Nat) (o1 : Order) (r : Registry) (e : Nat × Order)
    (he : e ∈ regSet order_id o1 r) : e = (order_id, o1) ∨ e ∈ r := by
  induction r with
  | nil => left; simpa [regSet] using he
  | cons x rest ih =>
    obtain ⟨k, v⟩ := x
    by_cases hk : k = order_id
    · simp only [regSet, hk, if_true, List.mem_cons] at he
      rcases he with h | h
      · exact Or.inl h
      · exact Or.inr (List.mem_cons_of_mem _ h)
    · simp only [regSet, hk, if_false, List.mem_cons] at he
      rcases he with h | h
      · exact Or.inr (h ▸ List.mem_cons_self _ _)
      · rcases ih h with h | h
        · exact Or.inl h
        · exact Or.inr (List.mem_cons_of_mem _ h)

theorem regCount_le_regTotal (p : Price) (s : Char) (r : Registry)
    (hpos : ∀ e ∈ r, 0 < e.2.size) : regCount p s r ≤ regTotal p s r := by
  rw [regCount_eq, regTotal_eq]
  induction r with
  | nil => simp [regAgg]
  | cons x rest ih =>
    obtain ⟨k, o⟩ := x
    have ho := hpos (k, o) (List.mem_cons_self _ _)
    have := ih (fun e he => hpos e (List.mem_cons_of_mem _ he))
    rw [regAgg_cons, regAgg_cons]
    split <;> simp at ho ⊢ <;> omega

theorem no_match_of_regTotal_zero (p : Price) (s : Char) (r : Registry)
    (hpos : ∀ e ∈ r, 0 < e.2.size) (h0 : regTotal p s r = 0) :
    ∀ e ∈ r, ¬ (e.2.price = p ∧ e.2.side = s) := by
  rw [regTotal_eq] at h0
  induction r with
  | nil => intro e he; cases he
  | cons x rest ih =>
    obtain ⟨k, o⟩ := x
    rw [regAgg_cons] at h0
    have ho := hpos (k, o) (List.mem_cons_self _ _)
    intro e he
    rcases List.mem_cons.1 he with rfl | he
    · intro hm
      rw [if_pos hm] at h0
      simp at ho
      omega
    · exact ih (fun e he => hpos e (List.mem_cons_of_mem _ he)) (by omega) e he

/-! ## One ledger under `add_order` and `cancel_order` -/

theorem mem_of_levelFind (p : Price) (l : PriceLevel) (m : Ledger)
    (h : levelFind p m = some l) : (p, l) ∈ m := by
  induction m with
  | nil => simp [levelFind] at h
  | cons e rest ih =>
    obtain ⟨k, v⟩ := e
    by_cases hk : k = p
    · simp only [levelFind, hk, if_true, Option.some.injEq] at h
      simp [hk, h]
    · simp only [levelFind, hk, if_false] at h
      exact List.mem_cons_of_mem _ (ih h)

theorem regAgg_append_single (g : Order → Nat) (p : Price) (s : Char) (r : Registry)
    (order_id : Nat) (o : Order) :
    regAgg g p s (r ++ [(order_id, o)])
      = regAgg g p s r + (if o.price = p ∧ o.side = s then g o else 0) := by
  rw [regAgg_append, regAgg_cons]
  simp [regAgg]

theorem regAgg_append_other (g : Order → Nat) (p : Price) (s : Char) (r : Registry)
    (order_id : Nat) (o : Order) (h : ¬ (o.price = p ∧ o.side = s)) :
    regAgg g p s (r ++ [(order_id, o)]) = regAgg g p s r := by
  rw [regAgg_append_single, if_neg h, Nat.add_zero]

theorem regAgg_append_same (g : Order → Nat) (r : Registry) (order_id : Nat) (o : Order) :
    regAgg g o.price o.side (r ++ [(order_id, o)]) = regAgg g o.price o.side r + g o := by
  rw [regAgg_append_single, if_pos ⟨rfl, rfl⟩]

theorem add64_lt (a b : Nat) : add64 a b < U64 :=
  Nat.mod_lt _ (by unfold U64; decide)

theorem add64_eq {a b : Nat} (h : a + b < U64) : add64 a b = a + b :=
  Nat.mod_eq_of_lt h

theorem levelFind_add_level (before : Price → Price → Bool) (q price : Price) (size : Nat)
    (m : Ledger) (h : q = price ∨ levelFind q m ≠ none) :
    levelFind q (add_level before price size m) ≠ none := by
  unfold add_level
  cases hf : levelFind price m with
  | none =>
    simp only
    rw [levelFind_insert before q price _ m hf]
    by_cases hq : q = price
    · simp [hq]
    · simpa [hq] using h.resolve_left hq
  | some l0 =>
    simp only
    rw [levelFind_update]
    by_cases hq : q = price
    · simp [hq, hf]
    · simpa [hq] using h.resolve_left hq

/-- The ledger of the side of a fresh, non-zero, non-overflowing Add keeps the
aggregate invariant, covers every order of the side and stays within 64 bits. -/
theorem add_level_inv (before : Price → Price → Bool) (s : Char) (m : Ledger) (r : Registry)
    (order_id : Nat) (price : Price) (size : Nat)
    (hagg : LedgerAgg s m r) (hpos : ∀ e ∈ r, 0 < e.2.size) (hcov : Covered s m r)
    (hs : 0 < size) (hs64 : size < U64)
    (hov : ∀ l, levelFind price m = some l → l.total_size + size < U64) :
    LedgerAgg s (add_level before price size m) (r ++ [(order_id, ⟨price, size, s⟩)]) ∧
    Covered s (add_level before price size m) (r ++ [(order_id, ⟨price, size, s⟩)]) ∧
    (Bounded m → Bounded (add_level before price size m)) := by
  have hother : ∀ e ∈ m, e.1 ≠ price →
      e.2.total_size = regTotal e.1 s (r ++ [(order_id, ⟨price, size, s⟩)]) ∧
      e.2.order_count = regCount e.1 s (r ++ [(order_id, ⟨price, size, s⟩)]) := by
    intro e he hne
    have hne2 : ¬ ((⟨price, size, s⟩ : Order).price = e.1 ∧ (⟨price, size, s⟩ : Order).side = s) :=
      fun h => hne h.1.symm
    rw [regTotal_eq, regCount_eq, regAgg_append_other _ _ _ _ _ _ hne2,
      regAgg_append_other _ _ _ _ _ _ hne2, ← regTotal_eq, ← regCount_eq]
    exact hagg e he
  refine ⟨?_, ?_, ?_⟩
  · intro e he
    unfold add_level at he
    cases hf : levelFind price m with
    | none =>
      rw [hf] at he
      rcases (mem_levelInsert before price _ m e).1 he with rfl | he
      · have hz : ∀ g, regAgg g price s r = 0 := by
          intro g
          apply regAgg_eq_zero
          intro x hx hm
          have := hcov x hx hm.2
          rw [hm.1] at this
          exact this hf
        have e1 := regAgg_append_same (fun o => o.size) r order_id ⟨price, size, s⟩
        have e2 := regAgg_append_same (fun _ => 1) r order_id ⟨price, size, s⟩
        simp only at e1 e2
        rw [regTotal_eq, regCount_eq, e1, e2, hz, hz]
        simp
      · exact hother e he ((levelFind_eq_none_iff price m).1 hf e he)
    | some l0 =>
      rw [hf] at he
      rcases mem_levelUpdate price _ m e he with ⟨hm, hne⟩ | ⟨l, hl, rfl⟩
      · exact hother e hm hne
      · have h1 := hagg (price, l) hl
        have h0 := hagg (price, l0) (mem_of_levelFind price l0 m hf)
        have hle := regCount_le_regTotal price s r hpos
        have hov0 := hov l0 hf
        simp only at h1 h0
        have hlt : l.total_size + size < U64 := by rw [h1.1, ← h0.1]; exact hov0
        have hct : l.order_count + 1 < U64 := by omega
        have e1 := regAgg_append_same (fun o => o.size) r order_id ⟨price, size, s⟩
        have e2 := regAgg_append_same (fun _ => 1) r order_id ⟨price, size, s⟩
        simp only at e1 e2
        rw [regTotal_eq, regCount_eq, e1, e2, ← regTotal_eq, ← regCount_eq]
        simp only
        rw [add64_eq hlt, add64_eq hct, h1.1, h1.2]
        exact ⟨rfl, rfl⟩
  · intro e he hside
    apply levelFind_add_level
    rcases List.mem_append.1 he with he | he
    · exact Or.inr (hcov e he hside)
    · left
      simp only [List.mem_singleton] at he
      rw [he]
  · intro hb e he
    unfold add_level at he
    cases hf : levelFind price m with
    | none =>
      rw [hf] at he
      rcases (mem_levelInsert before price _ m e).1 he with rfl | he
      · exact hs64
      · exact hb e he
    | some l0 =>
      rw [hf] at he
      rcases mem_levelUpdate price _ m e he with ⟨hm, -⟩ | ⟨l, -, rfl⟩
      · exact hb e hm
      · exact add64_lt _ _

/-- A ledger of another side is not affected by registering an order. -/
theorem other_side_add (s : Char) (m : Ledger) (r : Registry) (order_id : Nat) (o : Order)
    (hagg : LedgerAgg s m r) (hcov : Covered s m r) (hne : o.side ≠ s) :
    LedgerAgg s m (r ++ [(order_id, o)]) ∧ Covered s m (r ++ [(order_id, o)]) := by
  constructor
  · intro e he
    have hne2 : ¬ (o.price = e.1 ∧ o.side = s) := fun h => hne h.2
    rw [regTotal_eq, regCount_eq, regAgg_append_other _ _ _ _ _ _ hne2,
      regAgg_append_other _ _ _ _ _ _ hne2, ← regTotal_eq, ← regCount_eq]
    exact hagg e he
  · intro e he hside
    rcases List.mem_append.1 he with he | he
    · exact hcov e he hside
    · simp only [List.mem_singleton] at he
      rw [he] at hside
      exact absurd hside hne

theorem cancel_registry_total (p : Price) (s : Char) (order_id size : Nat) (o : Order)
    (r : Registry) (hnd : (r.map Prod.fst).Nodup) (hf : regFind order_id r = some o) :
    regTotal p s (cancel_registry order_id size o r)
        + (if o.price = p ∧ o.side = s then min size o.size else 0)
      = regTotal p s r := by
  unfold cancel_registry
  by_cases hc : size ≥ o.size
  · have hm : min size o.size = o.size := Nat.min_eq_right hc
    simp only [hc, decide_True, if_true, hm]
    rw [regTotal_eq, regTotal_eq]
    exact regAgg_erase (fun o => o.size) p s order_id o r hnd hf
  · have hm : min size o.size = size := Nat.min_eq_left (by omega)
    simp only [hc, decide_False, Bool.false_eq_true, if_false, hm]
    have := regAgg_set (fun o => o.size) p s order_id o { o with size := o.size - size } r hf
    rw [regTotal_eq, regTotal_eq]
    simp only at this ⊢
    by_cases hmt : o.price = p ∧ o.side = s
    · simp only [hmt, and_self, if_true] at this ⊢
      omega
    · simp only [hmt, if_false] at this ⊢
      omega

theorem cancel_registry_count (p : Price) (s : Char) (order_id size : Nat) (o : Order)
    (r : Registry) (hnd : (r.map Prod.fst).Nodup) (hf : regFind order_id r = some o) :
    regCount p s (cancel_registry order_id size o r)
        + (if (o.price = p ∧ o.side = s) ∧ size ≥ o.size then 1 else 0)
      = regCount p s r := by
  unfold cancel_registry
  by_cases hc : size ≥ o.size
  · simp only [hc, decide_True, if_true, and_true]
    rw [regCount_eq, regCount_eq]
    exact regAgg_erase (fun _ => 1) p s order_id o r hnd hf
  · simp only [hc, decide_False, Bool.false_eq_true, if_false, and_false, Nat.add_zero]
    have := regAgg_set (fun _ => 1) p s order_id o
      { o with size := o.size - min size o.size } r hf
    rw [regCount_eq, regCount_eq]
    simp only at this ⊢
    by_cases hmt : o.price = p ∧ o.side = s
    · simp only [hmt, and_self, if_true] at this ⊢
      omega
    · simp only [hmt, if_false] at this ⊢
      omega

theorem cancel_registry_mem (order_id size : Nat) (o : Order) (r : Registry)
    (e : Nat × Order) (he : e ∈ cancel_registry order_id size o r) :
    e ∈ r ∨ (¬ size ≥ o.size ∧
      e = (order_id, { o with size := o.size - min size o.size })) := by
  unfold cancel_registry at he
  by_cases hc : size ≥ o.size
  · simp only [hc, decide_True, if_true] at he
    exact Or.inl ((mem_regErase order_id r e).1 he).1
  · simp only [hc, decide_False, Bool.false_eq_true, if_false] at he
    rcases mem_regSet order_id _ r e he with h | h
    · exact Or.inr ⟨hc, h⟩
    · exact Or.inl h

theorem cancel_registry_pos (order_id size : Nat) (o : Order) (r : Registry)
    (hpos : ∀ e ∈ r, 0 < e.2.size) :
    ∀ e ∈ cancel_registry order_id size o r, 0 < e.2.size := by
  intro e he
  rcases cancel_registry_mem order_id size o r e he with h | ⟨hc, rfl⟩
  · exact hpos e h
  · have hm : min size o.size = size := Nat.min_eq_left (by omega)
    simp only [hm]
    omega

theorem cancel_registry_nodup (order_id size : Nat) (o : Order) (r : Registry)
    (hnd : (r.map Prod.fst).Nodup) (hf : regFind order_id r = some o) :
    ((cancel_registry order_id size o r).map Prod.fst).Nodup := by
  unfold cancel_registry
  by_cases hc : size ≥ o.size
  · simp only [hc, decide_True, if_true]
    exact hnd.sublist ((List.filter_sublist r).map Prod.fst)
  · simp only [hc, decide_False, Bool.false_eq_true, if_false]
    rw [keys_regSet order_id o _ r hf]
    exact hnd

/-- The ledger of the side of a cancelled order keeps the aggregate invariant,
covers every remaining order of the side and stays within 64 bits. -/
theorem cancel_level_inv (s : Char) (m : Ledger) (r : Registry) (order_id size : Nat)
    (o : Order) (hf : regFind order_id r = some o) (hside : o.side = s)
    (hagg : LedgerAgg s m r) (hpos : ∀ e ∈ r, 0 < e.2.size) (hcov : Covered s m r)
    (hnd : (r.map Prod.fst).Nodup) (hb : Bounded m) :
    LedgerAgg s (cancel_level o.price (min size o.size) (decide (size ≥ o.size)) m)
      (cancel_registry order_id size o r) ∧
    Covered s (cancel_level o.price (min size o.size) (decide (size ≥ o.size)) m)
      (cancel_registry order_id size o r) ∧
    Bounded (cancel_level o.price (min size o.size) (decide (size ≥ o.size)) m) := by
  have hmem := mem_of_regFind order_id o r hf
  obtain ⟨l0, hl0⟩ : ∃ l0, levelFind o.price m = some l0 := by
    cases h : levelFind o.price m with
    | none => exact absurd h (hcov _ hmem hside)
    | some l0 => exact ⟨l0, rfl⟩
  have hl0m := mem_of_levelFind o.price l0 m hl0
  have h0 := hagg _ hl0m
  simp only at h0
  have h64 : l0.total_size < U64 := hb _ hl0m
  have hT := cancel_registry_total o.price s order_id size o r hnd hf
  have hC := cancel_registry_count o.price s order_id size o r hnd hf
  simp only [hside, and_self, if_true, true_and] at hT hC
  have hle := regCount_le_regTotal o.price s r hpos
  have hact : min size o.size ≤ l0.total_size := by omega
  have hsub : sub64 l0.total_size (min size o.size) = l0.total_size - min size o.size :=
    sub64_of_le hact h64
  have hother : ∀ e ∈ m, e.1 ≠ o.price →
      e.2.total_size = regTotal e.1 s (cancel_registry order_id size o r) ∧
      e.2.order_count = regCount e.1 s (cancel_registry order_id size o r) := by
    intro e he hne
    have hT2 := cancel_registry_total e.1 s order_id size o r hnd hf
    have hC2 := cancel_registry_count e.1 s order_id size o r hnd hf
    have hne2 : ¬ (o.price = e.1 ∧ o.side = s) := fun h => hne h.1.symm
    simp only [hne2, if_false, false_and, Nat.add_zero] at hT2 hC2
    rw [hT2, hC2]
    exact hagg e he
  have hnew : (l0.total_size - min size o.size
        = regTotal o.price s (cancel_registry order_id size o r)) ∧
      ((if decide (size ≥ o.size) = true then sub64 l0.order_count 1 else l0.order_count)
        = regCount o.price s (cancel_registry order_id size o r)) := by
    constructor
    · omega
    · by_cases hc : size ≥ o.size
      · simp only [hc, if_true] at hC
        have h1 : 1 ≤ l0.order_count := by omega
        have h2 : l0.order_count < U64 := by omega
        simp only [hc, decide_True, if_true, sub64_of_le h1 h2]
        omega
      · simp only [hc, if_false, Nat.add_zero] at hC
        simp only [hc, decide_False, Bool.false_eq_true, if_false]
        omega
  refine ⟨?_, ?_, ?_⟩
  · intro e he
    unfold cancel_level at he
    simp only [hl0, hsub] at he
    by_cases hz : l0.total_size - min size o.size = 0
    · rw [if_pos hz] at he
      have := (mem_levelErase o.price m e).1 he
      exact hother e this.1 this.2
    · rw [if_neg hz] at he
      rcases mem_levelUpdate o.price _ m e he with ⟨hm, hne⟩ | ⟨l, -, rfl⟩
      · exact hother e hm hne
      · simp only
        exact ⟨hnew.1, by
          have := hnew.2
          by_cases hc : size ≥ o.size
          · simpa [hc] using this
          · simpa [hc] using this⟩
  · intro e he hes
    by_cases hp : e.2.price = o.price
    · rw [hp, levelFind_cancel_level o.price _ _ m l0 hl0 hact h64]
      by_cases hz : l0.total_size - min size o.size = 0
      · exfalso
        have hzero : regTotal o.price s (cancel_registry order_id size o r) = 0 := by
          rw [← hnew.1]; exact hz
        exact no_match_of_regTotal_zero o.price s _
          (cancel_registry_pos order_id size o r hpos) hzero e he ⟨hp, hes⟩
      · simp [hz]
    · rw [levelFind_cancel_level_ne _ _ _ _ _ hp]
      rcases cancel_registry_mem order_id size o r e he with h | ⟨-, rfl⟩
      · exact hcov e h hes
      · exact absurd rfl hp
  · intro e he
    unfold cancel_level at he
    simp only [hl0, hsub] at he
    by_cases hz : l0.total_size - min size o.size = 0
    · rw [if_pos hz] at he
      exact hb e ((mem_levelErase o.price m e).1 he).1
    · rw [if_neg hz] at he
      rcases mem_levelUpdate o.price _ m e he with ⟨hm, -⟩ | ⟨l, -, rfl⟩
      · exact hb e hm
      · simp only
        omega

/-- A ledger of another side is not affected by a cancellation. -/
theorem other_side_cancel (s : Char) (m : Ledger) (r : Registry) (order_id size : Nat)
    (o : Order) (hf : regFind order_id r = some o) (hne : o.side ≠ s)
    (hnd : (r.map Prod.fst).Nodup) (hagg : LedgerAgg s m r) (hcov : Covered s m r) :
    LedgerAgg s m (cancel_registry order_id size o r) ∧
    Covered s m (cancel_registry order_id size o r) := by
  constructor
  · intro e he
    have hT2 := cancel_registry_total e.1 s order_id size o r hnd hf
    have hC2 := cancel_registry_count e.1 s order_id size o r hnd hf
    have hne2 : ¬ (o.price = e.1 ∧ o.side = s) := fun h => hne h.2
    simp only [hne2, if_false, false_and, Nat.add_zero] at hT2 hC2
    rw [hT2, hC2]
    exact hagg e he
  · intro e he hes
    rcases cancel_registry_mem order_id size o r e he with h | ⟨-, rfl⟩
    · exact hcov e h hes
    · exact absurd hes hne

/-! ## The aggregate invariant along a sequence of records -/

theorem parse_u64_lt (lib : Lib) (s : Str) (n : Nat) (h : parse_u64 lib s = some n) :
    n < U64 := by
  unfold parse_u64 at h
  by_cases hs : s = []
  · simp only [hs, if_true, Option.some.injEq] at h
    rw [← h]
    unfold U64
    decide
  · simp only [hs, if_false, Option.map_eq_some'] at h
    obtain ⟨k, -, hk⟩ := h
    rw [← hk]
    exact Nat.mod_lt _ (by unfold U64; decide)

theorem cancel_order_eq (b : OrderBook) (order_id size : Nat) (o : Order)
    (hreg : regFind order_id b.orders = some o) :
    cancel_order b order_id size =
      { bids := if o.side = 'B' then
            cancel_level o.price (min size o.size) (decide (size ≥ o.size)) b.bids
          else b.bids,
        asks := if o.side = 'B' then b.asks
          else if o.side = 'A' then
            cancel_level o.price (min size o.size) (decide (size ≥ o.size)) b.asks
          else b.asks,
        orders := cancel_registry order_id size o b.orders } :=
  cancel_order_registered b order_id size o hreg

theorem aggInv_add (b : OrderBook) (order_id : Nat) (price : Price) (size : Nat) (side : Char)
    (hI : AggInv b) (hfresh : regFind order_id b.orders = none) (hs : 0 < size)
    (hs64 : size < U64)
    (hov : (side = 'B' ∨ side = 'A') →
      ∀ l, levelFind price (sideLedger b side) = some l → l.total_size + size < U64) :
    AggInv (add_order b order_id price size side) := by
  obtain ⟨haB, haA, hpos, hcB, hcA, hnd, hbB, hbA⟩ := hI
  have hreg : regSet order_id ⟨price, size, side⟩ b.orders
      = b.orders ++ [(order_id, ⟨price, size, side⟩)] := regSet_fresh _ _ _ hfresh
  have hpos2 : ∀ e ∈ b.orders ++ [(order_id, (⟨price, size, side⟩ : Order))],
      0 < e.2.size := by
    intro e he
    rcases List.mem_append.1 he with he | he
    · exact hpos e he
    · simp only [List.mem_singleton] at he
      rw [he]
      exact hs
  have hnd2 : ((b.orders ++ [(order_id, (⟨price, size, side⟩ : Order))]).map
      Prod.fst).Nodup := by
    rw [List.map_append, List.nodup_append]
    refine ⟨hnd, by simp, ?_⟩
    intro k hk1 hk2
    simp only [List.map_cons, List.map_nil, List.mem_singleton] at hk2
    obtain ⟨e, he, hek⟩ := List.mem_map.1 hk1
    exact (regFind_eq_none_iff order_id b.orders).1 hfresh e he (hek.trans hk2)
  unfold add_order
  simp only [hreg]
  by_cases hB : side = 'B'
  · subst hB
    have hov2 : ∀ l, levelFind price b.bids = some l → l.total_size + size < U64 := by
      simpa [sideLedger] using hov (Or.inl rfl)
    have h1 := add_level_inv bidBefore 'B' b.bids b.orders order_id price size haB hpos hcB
      hs hs64 hov2
    have h2 := other_side_add 'A' b.asks b.orders order_id ⟨price, size, 'B'⟩ haA hcA
      (show ('B' : Char) ≠ 'A' from by decide)
    simp only [if_true]
    exact ⟨h1.1, h2.1, hpos2, h1.2.1, h2.2, hnd2, h1.2.2 hbB, hbA⟩
  · by_cases hA : side = 'A'
    · subst hA
      have hov2 : ∀ l, levelFind price b.asks = some l → l.total_size + size < U64 := by
        simpa [sideLedger] using hov (Or.inr rfl)
      have h1 := add_level_inv askBefore 'A' b.asks b.orders order_id price size haA hpos hcA
        hs hs64 hov2
      have h2 := other_side_add 'B' b.bids b.orders order_id ⟨price, size, 'A'⟩ haB hcB
        (show ('A' : Char) ≠ 'B' from by decide)
      simp only [show ¬ ('A' : Char) = 'B' from by decide, if_false, if_true]
      exact ⟨h2.1, h1.1, hpos2, h2.2, h1.2.1, hnd2, hbB, h1.2.2 hbA⟩
    · have h1 := other_side_add 'B' b.bids b.orders order_id ⟨price, size, side⟩ haB hcB hB
      have h2 := other_side_add 'A' b.asks b.orders order_id ⟨price, size, side⟩ haA hcA hA
      simp only [hB, hA, if_false]
      exact ⟨h1.1, h2.1, hpos2, h1.2, h2.2, hnd2, hbB, hbA⟩

theorem aggInv_cancel (b : OrderBook) (order_id size : Nat) (hI : AggInv b) :
    AggInv (cancel_order b order_id size) := by
  cases hf : regFind order_id b.orders with
  | none =>
    have : cancel_order b order_id size = b := by simp [cancel_order, hf]
    rw [this]
    exact hI
  | some o =>
    obtain ⟨haB, haA, hpos, hcB, hcA, hnd, hbB, hbA⟩ := hI
    rw [cancel_order_eq b order_id size o hf]
    have hpos2 := cancel_registry_pos order_id size o b.orders hpos
    have hnd2 := cancel_registry_nodup order_id size o b.orders hnd hf
    by_cases hB : o.side = 'B'
    · have h1 := cancel_level_inv 'B' b.bids b.orders order_id size o hf hB haB hpos hcB
        hnd hbB
      have h2 := other_side_cancel 'A' b.asks b.orders order_id size o hf
        (by rw [hB]; decide) hnd haA hcA
      simp only [hB, if_true]
      exact ⟨h1.1, h2.1, hpos2, h1.2.1, h2.2, hnd2, h1.2.2, hbA⟩
    · by_cases hA : o.side = 'A'
      · have h1 := cancel_level_inv 'A' b.asks b.orders order_id size o hf hA haA hpos hcA
          hnd hbA
        have h2 := other_side_cancel 'B' b.bids b.orders order_id size o hf hB hnd haB hcB
        simp only [hB, hA, if_false, if_true]
        exact ⟨h2.1, h1.1, hpos2, h2.2, h1.2.1, hnd2, hbB, h1.2.2⟩
      · have h1 := other_side_cancel 'B' b.bids b.orders order_id size o hf hB hnd haB hcB
        have h2 := other_side_cancel 'A' b.asks b.orders order_id size o hf hA hnd haA hcA
        simp only [hB, hA, if_false]
        exact ⟨h1.1, h2.1, hpos2, h1.2, h2.2, hnd2, hbB, hbA⟩

theorem aggInv_empty : AggInv empty := by
  simp [AggInv, empty, LedgerAgg, Covered, Bounded]

theorem aggInv_step (lib : Lib) (b : OrderBook) (line : Str) (hI : AggInv b)
    (hG : FreshPositiveAdd lib b line) : AggInv (process_mbo_action lib b line).1 := by
  rcases process_book_cases lib b line with h | h | ⟨side, price, size, id, hp, hN, h⟩ |
      ⟨side, price, size, id, hp, hN, h⟩
  · rw [h]; exact hI
  · rw [h]; exact aggInv_empty
  · rw [h]
    have hg := hG side price size id hp hN
    exact aggInv_add b id price size side hI hg.1 hg.2.1
      (parse_u64_lt lib _ size hp.size_eq) hg.2.2
  · rw [h]
    exact aggInv_cancel b id size hI

theorem Parsed.unique {lib : Lib} {line : Str} {a a1 s s1 : Char} {p p1 : Price}
    {z z1 i i1 : Nat} (h : Parsed lib line a s p z i) (h1 : Parsed lib line a1 s1 p1 z1 i1) :
    a = a1 ∧ s = s1 ∧ p = p1 ∧ z = z1 ∧ i = i1 := by
  refine ⟨h.action_eq.symm.trans h1.action_eq, h.side_eq.symm.trans h1.side_eq, ?_, ?_, ?_⟩
  · exact Option.some.inj (h.price_eq.symm.trans h1.price_eq)
  · exact Option.some.inj (h.size_eq.symm.trans h1.size_eq)
  · exact Option.some.inj (h.id_eq.symm.trans h1.id_eq)

/-- C1, amended: for every book reached from the empty book by a sequence of
records applied through `process_mbo_action` in which every Add record that
reaches `add_order` carries an order id not registered at that moment and a
size other than 0, and adds to its level's total without exceeding 64 bits
(any action codes, sides, prices and Cancel sizes otherwise), every price level
present in the bid or ask ledger has `total_size` equal to the sum of the
sizes of the registered orders with that price and side, and `order_count`
equal to their number. -/
theorem aggregate_invariant_amended (lib : Lib) (lines : List Str)
    (h : Admissible lib (FreshPositiveAdd lib) empty lines) :
    Aggregate (run_actions lib empty lines) := by
  have hI := run_invariant lib (FreshPositiveAdd lib) AggInv (aggInv_step lib) lines empty
    aggInv_empty h
  exact ⟨hI.1, hI.2.1⟩

theorem dupBook_eq :
    run_actions sampleLib empty dupLog = ⟨[(100, ⟨10, 2⟩)], [], [(1, ⟨100, 5, 'B'⟩)]⟩ := by
  with_unfolding_all decide

theorem zeroSizeBook_eq :
    run_actions sampleLib empty zeroSizeLog
      = ⟨[(100, ⟨7, 1⟩)], [], [(1, ⟨100, 0, 'B'⟩), (3, ⟨100, 7, 'B'⟩)]⟩ := by
  with_unfolding_all decide

theorem overflowBook_eq :
    run_actions sampleLib empty overflowLog
      = ⟨[(100, ⟨0, 2⟩)], [],
          [(1, ⟨100, 9223372036854775808, 'B'⟩), (2, ⟨100, 9223372036854775808, 'B'⟩)]⟩ := by
  have p1 : Parsed sampleLib (record "A" "B" "100" "9223372036854775808" "1") 'A' 'B' 100
      9223372036854775808 1 :=
    ⟨by decide, by decide, by decide, by with_unfolding_all decide, by decide, by decide⟩
  have p2 : Parsed sampleLib (record "A" "B" "100" "9223372036854775808" "2") 'A' 'B' 100
      9223372036854775808 2 :=
    ⟨by decide, by decide, by decide, by with_unfolding_all decide, by decide, by decide⟩
  simp only [run_actions, overflowLog, List.foldl_cons, List.foldl_nil]
  rw [process_add sampleLib _ _ 'B' 100 _ 1 p1 (by decide)]
  simp only
  rw [process_add sampleLib _ _ 'B' 100 _ 2 p2 (by decide)]
  decide

/-- C1, counterexample.  Repeated order id: after two Adds of order 1 (bid,
price 100, size 5) the level holds total 10 and count 2 while the registry
holds one order of size 5.  Size 0: after `zeroSizeLog` the level 100 holds
count 1 while two orders (sizes 0 and 7) are registered at it.  Overflow:
after two Adds of size `2^63` the level holds total 0 while the registered
sizes sum to `2^64`. -/
theorem aggregate_invariant_counterexample :
    (run_actions sampleLib empty dupLog = ⟨[(100, ⟨10, 2⟩)], [], [(1, ⟨100, 5, 'B'⟩)]⟩ ∧
      ¬ Aggregate (run_actions sampleLib empty dupLog)) ∧
    (run_actions sampleLib empty zeroSizeLog
        = ⟨[(100, ⟨7, 1⟩)], [], [(1, ⟨100, 0, 'B'⟩), (3, ⟨100, 7, 'B'⟩)]⟩ ∧
      ¬ Aggregate (run_actions sampleLib empty zeroSizeLog)) ∧
    (run_actions sampleLib empty overflowLog
        = ⟨[(100, ⟨0, 2⟩)], [],
            [(1, ⟨100, 9223372036854775808, 'B'⟩), (2, ⟨100, 9223372036854775808, 'B'⟩)]⟩ ∧
      ¬ Aggregate (run_actions sampleLib empty overflowLog)) := by
  refine ⟨⟨dupBook_eq, ?_⟩, ⟨zeroSizeBook_eq, ?_⟩, ⟨overflowBook_eq, ?_⟩⟩
  · rw [dupBook_eq]
    intro h
    have h1 := (h.1 (100, ⟨10, 2⟩) (by simp)).1
    have h2 : regTotal 100 'B' [(1, (⟨100, 5, 'B'⟩ : Order))] = 5 := by decide
    simp only [h2] at h1
    exact absurd h1 (by decide)
  · rw [zeroSizeBook_eq]
    intro h
    have h1 := (h.1 (100, ⟨7, 1⟩) (by simp)).2
    have h2 : regCount 100 'B' [(1, (⟨100, 0, 'B'⟩ : Order)), (3, ⟨100, 7, 'B'⟩)] = 2 := by
      decide
    simp only [h2] at h1
    exact absurd h1 (by decide)
  · rw [overflowBook_eq]
    intro h
    have h1 := (h.1 (100, ⟨0, 2⟩) (by simp)).1
    have h2 : regTotal 100 'B' [(1, (⟨100, 9223372036854775808, 'B'⟩ : Order)),
        (2, ⟨100, 9223372036854775808, 'B'⟩)] = 18446744073709551616 := by decide
    simp only [h2] at h1
    exact absurd h1 (by decide)

theorem not_add_guard (lib : Lib) (b : OrderBook) (line : Str)
    (h : firstChar (fieldAt (getFields line) 5) ≠ 'A') :
    FreshPositiveAdd lib b line ∧ PositiveAdd lib b line :=
  ⟨fun _ _ _ _ hp _ => absurd hp.action_eq h, fun _ _ _ _ hp _ => absurd hp.action_eq h⟩

theorem addCancelLog_fresh : Admissible sampleLib (FreshPositiveAdd sampleLib) empty addCancelLog := by
  refine ⟨?_, (not_add_guard sampleLib _ cancelLine (by decide)).1, trivial⟩
  intro side price size id hp _
  obtain ⟨-, rfl, rfl, rfl, rfl⟩ := hp.unique addLine42_parsed
  refine ⟨by decide, by decide, ?_⟩
  intro _ l hl
  simp [sideLedger, empty, levelFind] at hl

theorem addCancelLog_positive : Admissible sampleLib (PositiveAdd sampleLib) empty addCancelLog := by
  refine ⟨?_, (not_add_guard sampleLib _ cancelLine (by decide)).2, trivial⟩
  intro side price size id hp _
  obtain ⟨-, rfl, rfl, rfl, rfl⟩ := hp.unique addLine42_parsed
  refine ⟨by decide, ?_⟩
  intro l hl
  simp [sideLedger, empty, levelFind] at hl

/-- Witness for the amended C1: an Add of order 42 and a partial Cancel of it. -/
theorem aggregate_invariant_amended_witness :
    Admissible sampleLib (FreshPositiveAdd sampleLib) empty addCancelLog ∧
    Aggregate (run_actions sampleLib empty addCancelLog) :=
  ⟨addCancelLog_fresh, aggregate_invariant_amended sampleLib addCancelLog addCancelLog_fresh⟩

/-- Witness for the amended C7: an Add of order 42 and a partial Cancel of it. -/
theorem no_zero_level_amended_witness :
    Admissible sampleLib (PositiveAdd sampleLib) empty addCancelLog ∧
    NoZeroLevel (run_actions sampleLib empty addCancelLog) :=
  ⟨addCancelLog_positive, no_zero_level_amended sampleLib addCancelLog addCancelLog_positive⟩

/-! ## The lookahead window of the collapser -/

theorem skip_this_action_take (cur : Str) (following : List Str) :
    skip_this_action cur (following.take 4) = skip_this_action cur following := by
  unfold skip_this_action
  cases following with
  | nil => rfl
  | cons next later =>
    have e : (next :: later).take 4 = next :: later.take 3 := rfl
    rw [e]
    simp only [List.take_take, Nat.min_self]

theorem take_drop_congr (l1 l2 : List Str) (j n : Nat)
    (h : ∀ k, k < n → l1[j + k]? = l2[j + k]?) :
    (l1.drop j).take n = (l2.drop j).take n := by
  apply List.ext_getElem?
  intro k
  by_cases hk : k < n
  · rw [List.getElem?_take_of_lt hk, List.getElem?_take_of_lt hk, List.getElem?_drop,
      List.getElem?_drop]
    exact h k hk
  · rw [List.getElem?_eq_none, List.getElem?_eq_none]
    · have := List.length_take_le n (l2.drop j)
      omega
    · have := List.length_take_le n (l1.drop j)
      omega

theorem drop_eq_cons_of_getElem? (l : List Str) (i : Nat) (x : Str) (h : l[i]? = some x) :
    l.drop i = x :: l.drop (i + 1) := by
  have hlt : i < l.length := by
    by_contra hn
    rw [List.getElem?_eq_none (by omega)] at h
    cases h
  rw [List.drop_eq_getElem_cons hlt]
  rw [List.getElem?_eq_getElem hlt] at h
  rw [Option.some.inj h]

theorem drop_eq_nil_of_getElem? (l : List Str) (i : Nat) (h : l[i]? = none) :
    l.drop i = [] := by
  rw [List.drop_eq_nil_iff]
  exact List.getElem?_eq_none_iff.1 h

/-- C11, counterexample: the logs `farCancelLog` and `farAddLog` agree at the
positions 0 to 3 and both have a record at position 4; the Trade at index 0 is
suppressed in the first (the Cancel at index 4 is found) and passed in the
second. -/
theorem lookahead_bound_counterexample :
    (∀ k, k ≤ 3 → farCancelLog[0 + k]? = farAddLog[0 + k]?) ∧
    skip_at farCancelLog 0 = true ∧ skip_at farAddLog 0 = false ∧
    passes_at farCancelLog 0 = false ∧ passes_at farAddLog 0 = true := by
  refine ⟨?_, by decide, by decide, by decide, by decide⟩
  intro k hk
  interval_cases k <;> rfl

/-- C11, amended: the decision of the loop of `main` to suppress or pass record
`i` depends only on the records `i`, `i+1`, `i+2`, `i+3` and `i+4`: two logs
that agree at the positions `i` to `i+4` (and on whether those positions
exist) yield the same decision for record `i`. -/
theorem lookahead_bound_amended (l1 l2 : List Str) (i : Nat)
    (h : ∀ k, k ≤ 4 → l1[i + k]? = l2[i + k]?) :
    skip_at l1 i = skip_at l2 i ∧ passes_at l1 i = passes_at l2 i := by
  have h0 : l1[i]? = l2[i]? := by simpa using h 0 (by decide)
  have hrest : (l1.drop (i + 1)).take 4 = (l2.drop (i + 1)).take 4 := by
    apply take_drop_congr
    intro k hk
    have := h (k + 1) (by omega)
    rw [show i + 1 + k = i + (k + 1) from by omega]
    exact this
  cases hx : l1[i]? with
  | none =>
    rw [hx] at h0
    rw [skip_at, skip_at, passes_at, passes_at, drop_eq_nil_of_getElem? l1 i hx,
      drop_eq_nil_of_getElem? l2 i h0.symm]
    exact ⟨rfl, rfl⟩
  | some x =>
    rw [hx] at h0
    have hs : skip_this_action x (l1.drop (i + 1)) = skip_this_action x (l2.drop (i + 1)) := by
      rw [← skip_this_action_take x (l1.drop (i + 1)), hrest, skip_this_action_take]
    rw [skip_at, skip_at, passes_at, passes_at, drop_eq_cons_of_getElem? l1 i x hx,
      drop_eq_cons_of_getElem? l2 i x h0.symm]
    simp only [passes, hs]
    exact ⟨trivial, trivial⟩

/-- Witness for the amended C11: two logs that differ only at index 5. -/
theorem lookahead_bound_amended_witness :
    (∀ k, k ≤ 4 → (farCancelLog ++ [tradeLine])[0 + k]? = (farCancelLog ++ [fillLine])[0 + k]?) ∧
    skip_at (farCancelLog ++ [tradeLine]) 0 = skip_at (farCancelLog ++ [fillLine]) 0 :=
  ⟨fun k hk => by interval_cases k <;> rfl,
    (lookahead_bound_amended (farCancelLog ++ [tradeLine]) (farCancelLog ++ [fillLine]) 0
      (fun k hk => by interval_cases k <;> rfl)).1⟩

/-! ## Malformed records -/

/-- C12 (malformed input is suppressed atomically): on a record that has fewer
than 15 fields, or whose non-empty price, size or order-id field makes the
conversion throw, or whose action code is none of `R`, `A`, `C`, `T`, `F`,
`process_mbo_action` returns an empty output line and the same book; a Reset
record with an unparseable numeric field does not clear the book. -/
theorem malformed_suppressed (lib : Lib) (b : OrderBook) (line : Str)
    (h : (getFields line).length < 15 ∨
      (fieldAt (getFields line) 7 ≠ [] ∧ lib.stod (fieldAt (getFields line) 7) = none) ∨
      (fieldAt (getFields line) 8 ≠ [] ∧ lib.stoull (fieldAt (getFields line) 8) = none) ∨
      (fieldAt (getFields line) 10 ≠ [] ∧ lib.stoull (fieldAt (getFields line) 10) = none) ∨
      (firstChar (fieldAt (getFields line) 5) ≠ 'R' ∧
        firstChar (fieldAt (getFields line) 5) ≠ 'A' ∧
        firstChar (fieldAt (getFields line) 5) ≠ 'C' ∧
        firstChar (fieldAt (getFields line) 5) ≠ 'T' ∧
        firstChar (fieldAt (getFields line) 5) ≠ 'F')) :
    process_mbo_action lib b line = (b, []) := by
  unfold process_mbo_action
  by_cases hlen : (getFields line).length < 15
  · simp [hlen]
  · simp only [hlen, if_false]
    rcases h with h | ⟨hne, hp⟩ | ⟨hne, hp⟩ | ⟨hne, hp⟩ | ⟨hR, hA, hC, hT, -⟩
    · exact absurd h hlen
    · have : parse_price lib (fieldAt (getFields line) 7) = none := by
        simp [parse_price, hne, hp]
      simp only [this]
    · have : parse_u64 lib (fieldAt (getFields line) 8) = none := by
        simp [parse_u64, hne, hp]
      cases parse_price lib (fieldAt (getFields line) 7) <;> simp only [this]
    · have : parse_u64 lib (fieldAt (getFields line) 10) = none := by
        simp [parse_u64, hne, hp]
      cases parse_price lib (fieldAt (getFields line) 7) <;>
        cases parse_u64 lib (fieldAt (getFields line) 8) <;> simp only [this]
    · cases parse_price lib (fieldAt (getFields line) 7) <;>
        cases parse_u64 lib (fieldAt (getFields line) 8) <;>
        cases parse_u64 lib (fieldAt (getFields line) 10) <;> simp [hR, hA, hC, hT]

/-- Witness for C12: a Reset record whose size field is `x5` leaves the book
`twoBids` as it is and writes nothing. -/
theorem malformed_suppressed_witness :
    firstChar (fieldAt (getFields badResetLine) 5) = 'R' ∧
    (fieldAt (getFields badResetLine) 8 ≠ [] ∧
      sampleLib.stoull (fieldAt (getFields badResetLine) 8) = none) ∧
    process_mbo_action sampleLib twoBids badResetLine = (twoBids, []) :=
  ⟨by decide, by decide,
    malformed_suppressed sampleLib twoBids badResetLine (Or.inr (Or.inr (Or.inl (by decide))))⟩

/-! ## Reset -/

theorem process_reset (lib : Lib) (b : OrderBook) (line : Str) (side : Char) (price : Price)
    (size order_id : Nat) (h : Parsed lib line 'R' side price size order_id) :
    process_mbo_action lib b line
      = (empty, get_mbp_10_snapshot lib empty (getFields line) 0 0) := by
  unfold process_mbo_action
  have hlen : ¬ (getFields line).length < 15 := by have := h.len; omega
  simp only [hlen, if_false, h.action_eq, h.side_eq, h.price_eq, h.size_eq, h.id_eq]
  simp [clear, empty, compute_depth]

/-- C15 (reset idempotence): a well-formed Reset record applied to any book
through `process_mbo_action` leaves the empty book and a non-empty row; a second
Reset leaves the empty book again; and every sequence of records processed
after the Reset, or after both, gives the same output lines and the same final
book as when it is processed from a freshly constructed book. -/
theorem reset_idempotent (lib : Lib) (b : OrderBook) (line : Str) (side : Char) (price : Price)
    (size order_id : Nat) (h : Parsed lib line 'R' side price size order_id) :
    (process_mbo_action lib b line).1 = empty ∧
    (process_mbo_action lib b line).2 ≠ [] ∧
    (process_mbo_action lib (process_mbo_action lib b line).1 line).1 = empty ∧
    (∀ records : List Str,
      run_outputs lib (process_mbo_action lib b line).1 records = run_outputs lib empty records ∧
      run_outputs lib (process_mbo_action lib (process_mbo_action lib b line).1 line).1 records
        = run_outputs lib empty records) := by
  have h1 := process_reset lib b line side price size order_id h
  have h2 := process_reset lib empty line side price size order_id h
  rw [h1]
  refine ⟨rfl, snapshot_ne_nil _ _ _ _ _, ?_, fun _ => ⟨rfl, ?_⟩⟩
  · show (process_mbo_action lib empty line).1 = empty
    rw [h2]
  · show run_outputs lib (process_mbo_action lib empty line).1 _ = _
    rw [h2]

theorem resetLine_parsed : Parsed sampleLib resetLine 'R' 'N' 0 0 0 :=
  ⟨by decide, by decide, by decide, by decide, by decide, by decide⟩

/-- Witness for C15: a Reset applied to the book `twoBids`. -/
theorem reset_idempotent_witness :
    (process_mbo_action sampleLib twoBids resetLine).1 = empty ∧
    (process_mbo_action sampleLib twoBids resetLine).2 ≠ [] :=
  ⟨(reset_idempotent sampleLib twoBids resetLine 'N' 0 0 0 resetLine_parsed).1,
    (reset_idempotent sampleLib twoBids resetLine 'N' 0 0 0 resetLine_parsed).2.1⟩

/-! ## The text of a snapshot and its level blocks -/

theorem splitCommaAux_no_comma (x cur : Str) (hx : ',' ∉ x) :
    splitCommaAux x cur = [cur.reverse ++ x] := by
  induction x generalizing cur with
  | nil => simp [splitCommaAux]
  | cons c cs ih =>
    have hc : c ≠ ',' := fun h => hx (by simp [h])
    have hcs : ',' ∉ cs := fun h => hx (List.mem_cons_of_mem _ h)
    rw [splitCommaAux, if_neg hc, ih (c :: cur) hcs]
    simp

theorem splitCommaAux_append (x rest cur : Str) (hx : ',' ∉ x) :
    splitCommaAux (x ++ ',' :: rest) cur = (cur.reverse ++ x) :: splitCommaAux rest [] := by
  induction x generalizing cur with
  | nil => simp [splitCommaAux]
  | cons c cs ih =>
    have hc : c ≠ ',' := fun h => hx (by simp [h])
    have hcs : ',' ∉ cs := fun h => hx (List.mem_cons_of_mem _ h)
    have e : splitCommaAux ((c :: cs) ++ ',' :: rest) cur
        = splitCommaAux (cs ++ ',' :: rest) (c :: cur) := by
      show splitCommaAux (c :: (cs ++ ',' :: rest)) cur = _
      rw [splitCommaAux, if_neg hc]
    rw [e, ih (c :: cur) hcs]
    simp

/-- Splitting a joined row at its commas gives back the columns, when no
column holds a comma. -/
theorem splitComma_joinComma (row : List Str) (hne : row ≠ [])
    (h : ∀ x ∈ row, ',' ∉ x) : splitComma (joinComma row) = row := by
  induction row with
  | nil => exact absurd rfl hne
  | cons x rest ih =>
    cases rest with
    | nil =>
      unfold splitComma
      rw [joinComma, splitCommaAux_no_comma x [] (h x (List.mem_cons_self _ _))]
      simp
    | cons y rest =>
      have hx := h x (List.mem_cons_self _ _)
      have := ih (by simp) (fun z hz => h z (List.mem_cons_of_mem _ hz))
      unfold splitComma at this ⊢
      rw [joinComma, splitCommaAux_append x _ [] hx, this]
      simp

theorem level_cells_eq (lib : Lib) (m : Ledger) (i : Nat) :
    level_cells lib m i = [cell_price lib m i, cell_size m i, cell_count m i] := by
  unfold level_cells cell_price cell_size cell_count
  cases m.get? i with
  | none => rfl
  | some e => rfl

theorem strip_zeros_subset (s : Str) (c : Char) (h : c ∈ strip_zeros s) : c ∈ s := by
  unfold strip_zeros at h
  have hsub : ∀ x, x ∈ (s.reverse.dropWhile fun c => decide (c = '0')) → x ∈ s :=
    fun x hx => List.mem_reverse.1 ((List.dropWhile_sublist _).subset hx)
  cases ht : (s.reverse.dropWhile fun c => decide (c = '0')) with
  | nil =>
    rw [ht] at h
    simp at h
  | cons d r =>
    rw [ht] at h hsub
    by_cases hd : d = '.'
    · subst hd
      simp only at h
      exact hsub c (List.mem_cons_of_mem _ (List.mem_reverse.1 h))
    · have e : (match d :: r with
          | '.' :: r => r.reverse
          | _ => (d :: r).reverse) = (d :: r).reverse := by
        split
        · rename_i heq
          exact absurd (List.cons.inj heq).1 hd
        · rfl
      rw [e] at h
      exact hsub c (List.mem_reverse.1 h)

theorem strip_if_dot_no_comma (s : Str) (h : ',' ∉ s) : ',' ∉ strip_if_dot s := by
  unfold strip_if_dot
  split
  · exact fun hm => h (strip_zeros_subset s ',' hm)
  · exact h

theorem format_price_no_comma (lib : Lib) (hfmt : ∀ x, ',' ∉ lib.fmt x) (s : Str)
    (h : ',' ∉ s) : ',' ∉ format_price lib s := by
  unfold format_price
  split
  · cases lib.stod s with
    | none => exact h
    | some v => exact strip_if_dot_no_comma _ (hfmt v)
  · exact h

theorem level_cells_no_comma (lib : Lib) (hfmt : ∀ x, ',' ∉ lib.fmt x) (m : Ledger) (i : Nat) :
    ∀ x ∈ level_cells lib m i, ',' ∉ x := by
  intro x hx
  unfold level_cells at hx
  cases hg : m.get? i with
  | none =>
    rw [hg] at hx
    simp only [List.mem_cons, List.mem_singleton, List.not_mem_nil, or_false] at hx
    rcases hx with rfl | rfl | rfl
    · simp
    · exact to_string_no_comma _
    · exact to_string_no_comma _
  | some e =>
    rw [hg] at hx
    simp only [List.mem_cons, List.mem_singleton, List.not_mem_nil, or_false] at hx
    rcases hx with rfl | rfl | rfl
    · exact strip_if_dot_no_comma _ (hfmt _)
    · exact to_string_no_comma _
    · exact to_string_no_comma _

theorem output_row_no_comma (lib : Lib) (hfmt : ∀ x, ',' ∉ lib.fmt x) (b : OrderBook)
    (f : List Str) (hf : ∀ i, ',' ∉ fieldAt f i) (n d : Nat) :
    ∀ x ∈ output_row lib b f n d, ',' ∉ x := by
  intro x hx
  unfold output_row at hx
  have hc : ∀ i, ',' ∉ clean_field (fieldAt f i) := fun i => clean_field_no_comma _ (hf i)
  have h5 := firstChar_ne_comma _ (hf 5)
  have h6 := firstChar_ne_comma _ (hf 6)
  simp only [List.mem_append, List.mem_cons, List.mem_singleton, List.not_mem_nil, or_false,
    List.mem_flatMap] at hx
  rcases hx with (hx | ⟨i, -, hx | hx⟩) | hx
  · rcases hx with rfl | rfl | rfl | rfl | rfl | rfl | rfl | rfl | rfl | rfl | rfl | rfl | rfl | rfl
    · exact to_string_no_comma _
    · exact hc 1
    · exact hc 1
    · exact to_string_no_comma _
    · exact to_string_no_comma _
    · exact to_string_no_comma _
    · simpa using Ne.symm h5
    · simpa using Ne.symm h6
    · exact to_string_no_comma _
    · exact format_price_no_comma lib hfmt _ (hc 7)
    · exact hc 8
    · exact hc 11
    · exact hc 12
    · exact hc 13
  · exact level_cells_no_comma lib hfmt _ i x hx
  · exact level_cells_no_comma lib hfmt _ i x hx
  · rcases hx with rfl | rfl
    · exact hc 14
    · exact hc 10

/-- The text of a snapshot splits at its commas into the columns of the row. -/
theorem splitComma_snapshot (lib : Lib) (hfmt : ∀ x, ',' ∉ lib.fmt x) (b : OrderBook)
    (f : List Str) (hf : ∀ i, ',' ∉ fieldAt f i) (n d : Nat) :
    splitComma (get_mbp_10_snapshot lib b f n d) = output_row lib b f n d := by
  unfold get_mbp_10_snapshot
  apply splitComma_joinComma
  · intro h
    have := output_row_length_gt lib b f n d
    rw [h] at this
    simp at this
  · exact output_row_no_comma lib hfmt b f hf n d

theorem output_row_length (lib : Lib) (b : OrderBook) (f : List Str) (n d : Nat) :
    (output_row lib b f n d).length = 76 := by
  unfold output_row
  simp only [level_cells_eq]
  rfl

/-- Level block `i` of the row: the cells of bid level `i` followed by the
cells of ask level `i`. -/
theorem output_row_block (lib : Lib) (b : OrderBook) (f : List Str) (n d : Nat) (i : Nat)
    (hi : i < 10) :
    ((output_row lib b f n d).drop (14 + 6 * i)).take 6
      = level_cells lib b.bids i ++ level_cells lib b.asks i := by
  unfold output_row
  simp only [level_cells_eq]
  interval_cases i <;> rfl

theorem level_block_snapshot (lib : Lib) (hfmt : ∀ x, ',' ∉ lib.fmt x) (b : OrderBook)
    (f : List Str) (hf : ∀ i, ',' ∉ fieldAt f i) (n d : Nat) (i : Nat) (hi : i < 10) :
    level_block (get_mbp_10_snapshot lib b f n d) i
      = level_cells lib b.bids i ++ level_cells lib b.asks i := by
  unfold level_block
  rw [splitComma_snapshot lib hfmt b f hf n d, output_row_block lib b f n d i hi]

theorem ofNat_ne_comma (k : Nat) : Char.ofNat (48 + k) ≠ ',' := by
  intro h
  have h1 : (Char.ofNat (48 + k)).toNat = 44 := by rw [h]; rfl
  by_cases hv : (48 + k).isValidChar
  · have e : Char.ofNat (48 + k) = Char.ofNatAux (48 + k) hv := by
      unfold Char.ofNat
      rw [dif_pos hv]
    rw [e] at h1
    simp [Char.ofNatAux, Char.toNat, UInt32.toNat] at h1
    omega
  · have e : Char.ofNat (48 + k) = Char.ofNat 0 := by
      unfold Char.ofNat
      rw [dif_neg hv]
      rfl
    rw [e] at h1
    exact absurd h1 (by decide)

theorem fracDigits_no_comma (n : Nat) (x : ℚ) : ',' ∉ fracDigits n x := by
  induction n generalizing x with
  | zero => simp [fracDigits]
  | succ n ih =>
    unfold fracDigits
    intro hm
    rcases List.mem_cons.1 hm with h | h
    · exact ofNat_ne_comma _ h.symm
    · exact ih _ h

theorem sampleLib_fmt_no_comma : ∀ x, ',' ∉ sampleLib.fmt x := by
  intro x
  show ',' ∉ (if x - Int.floor x = 0 then to_string (Int.toNat (Int.floor x))
    else to_string (Int.toNat (Int.floor x)) ++ '.' :: fracDigits 6 (x - Int.floor x))
  split
  · exact to_string_no_comma _
  · intro hm
    rcases List.mem_append.1 hm with h | h
    · exact to_string_no_comma _ h
    · rcases List.mem_cons.1 h with h | h
      · exact absurd h (by decide)
      · exact fracDigits_no_comma _ _ h

theorem fieldAt_of_block (l : List Str) (a : Nat) (blk : List Str)
    (h : (l.drop a).take 6 = blk) (k : Nat) (hk : k < 6) :
    fieldAt l (a + k) = fieldAt blk k := by
  unfold fieldAt
  rw [← h, List.getD_eq_getElem?_getD, List.getD_eq_getElem?_getD,
    List.getElem?_take_of_lt hk, List.getElem?_drop]

theorem fieldAt_getFields_no_comma (line : Str) : ∀ i, ',' ∉ fieldAt (getFields line) i :=
  fieldAt_no_comma line

theorem fieldAt_no_comma_of_mem (f : List Str) (hf : ∀ x ∈ f, ',' ∉ x) (i : Nat) :
    ',' ∉ fieldAt f i := by
  unfold fieldAt
  by_cases h : i < f.length
  · rw [List.getD_eq_getElem _ _ h]
    exact hf _ (List.getElem_mem _)
  · rw [List.getD_eq_default _ _ (by omega)]
    simp

theorem cells_of_some (lib : Lib) (m : Ledger) (i : Nat) (p : Price) (l : PriceLevel)
    (h : m.get? i = some (p, l)) :
    cell_price lib m i = strip_if_dot (lib.fmt p) ∧ cell_size m i = to_string l.total_size ∧
    cell_count m i = to_string l.order_count := by
  unfold cell_price cell_size cell_count
  rw [h]
  exact ⟨rfl, rfl, rfl⟩

theorem cells_of_none (lib : Lib) (m : Ledger) (i : Nat) (h : m.get? i = none) :
    cell_price lib m i = [] ∧ cell_size m i = to_string 0 ∧ cell_count m i = to_string 0 := by
  unfold cell_price cell_size cell_count
  rw [h]
  exact ⟨rfl, rfl, rfl⟩

/-- The six fields of block `i` in the text of a snapshot. -/
theorem snapshot_block_fields (lib : Lib) (hfmt : ∀ x, ',' ∉ lib.fmt x) (b : OrderBook)
    (f : List Str) (hf : ∀ i, ',' ∉ fieldAt f i) (n d : Nat) (i : Nat) (hi : i < 10) :
    fieldAt (snapshot_fields lib b f n d) (14 + 6 * i) = cell_price lib b.bids i ∧
    fieldAt (snapshot_fields lib b f n d) (15 + 6 * i) = cell_size b.bids i ∧
    fieldAt (snapshot_fields lib b f n d) (16 + 6 * i) = cell_count b.bids i ∧
    fieldAt (snapshot_fields lib b f n d) (17 + 6 * i) = cell_price lib b.asks i ∧
    fieldAt (snapshot_fields lib b f n d) (18 + 6 * i) = cell_size b.asks i ∧
    fieldAt (snapshot_fields lib b f n d) (19 + 6 * i) = cell_count b.asks i := by
  have hb := level_block_snapshot lib hfmt b f hf n d i hi
  unfold level_block at hb
  rw [level_cells_eq, level_cells_eq] at hb
  have key := fieldAt_of_block (snapshot_fields lib b f n d) (14 + 6 * i) _ hb
  have e1 : 15 + 6 * i = 14 + 6 * i + 1 := by omega
  have e2 : 16 + 6 * i = 14 + 6 * i + 2 := by omega
  have e3 : 17 + 6 * i = 14 + 6 * i + 3 := by omega
  have e4 : 18 + 6 * i = 14 + 6 * i + 4 := by omega
  have e5 : 19 + 6 * i = 14 + 6 * i + 5 := by omega
  rw [e1, e2, e3, e4, e5]
  exact ⟨key 0 (by decide), key 1 (by decide), key 2 (by decide), key 3 (by decide),
    key 4 (by decide), key 5 (by decide)⟩

/-- C16 (snapshot layout): for a record of at least 15 comma-free fields (and a
number formatter that writes no comma) the text `get_mbp_10_snapshot` returns
has exactly 76 comma-separated fields; for every `i` from 0 to 9 the fields
`14+6i`, `15+6i`, `16+6i` are the formatted price, the total size and the order
count of the `i`-th level of the bid map in its iteration order (descending
price) when there is one and `""`, `"0"`, `"0"` otherwise; the fields `17+6i`,
`18+6i`, `19+6i` are likewise those of the `i`-th level of the ask map
(ascending price); the bid fields are the same for any book with the same bid
ledger and the ask fields for any book with the same ask ledger. -/
theorem snapshot_layout (lib : Lib) (hfmt : ∀ x, ',' ∉ lib.fmt x) (b : OrderBook)
    (mbo_fields : List Str) (_hlen : 15 ≤ mbo_fields.length)
    (hf : ∀ x ∈ mbo_fields, ',' ∉ x) (row_index depth : Nat) :
    (snapshot_fields lib b mbo_fields row_index depth).length = 76 ∧
    ∀ i, i < 10 →
      (∀ p l, b.bids.get? i = some (p, l) →
        fieldAt (snapshot_fields lib b mbo_fields row_index depth) (14 + 6 * i)
            = strip_if_dot (lib.fmt p) ∧
        fieldAt (snapshot_fields lib b mbo_fields row_index depth) (15 + 6 * i)
            = to_string l.total_size ∧
        fieldAt (snapshot_fields lib b mbo_fields row_index depth) (16 + 6 * i)
            = to_string l.order_count) ∧
      (b.bids.get? i = none →
        fieldAt (snapshot_fields lib b mbo_fields row_index depth) (14 + 6 * i) = [] ∧
        fieldAt (snapshot_fields lib b mbo_fields row_index depth) (15 + 6 * i)
            = to_string 0 ∧
        fieldAt (snapshot_fields lib b mbo_fields row_index depth) (16 + 6 * i)
            = to_string 0) ∧
      (∀ p l, b.asks.get? i = some (p, l) →
        fieldAt (snapshot_fields lib b mbo_fields row_index depth) (17 + 6 * i)
            = strip_if_dot (lib.fmt p) ∧
        fieldAt (snapshot_fields lib b mbo_fields row_index depth) (18 + 6 * i)
            = to_string l.total_size ∧
        fieldAt (snapshot_fields lib b mbo_fields row_index depth) (19 + 6 * i)
            = to_string l.order_count) ∧
      (b.asks.get? i = none →
        fieldAt (snapshot_fields lib b mbo_fields row_index depth) (17 + 6 * i) = [] ∧
        fieldAt (snapshot_fields lib b mbo_fields row_index depth) (18 + 6 * i)
            = to_string 0 ∧
        fieldAt (snapshot_fields lib b mbo_fields row_index depth) (19 + 6 * i)
            = to_string 0) ∧
      (∀ b2 : OrderBook, b2.bids = b.bids → ∀ k, k < 3 →
        fieldAt (snapshot_fields lib b2 mbo_fields row_index depth) (14 + 6 * i + k)
          = fieldAt (snapshot_fields lib b mbo_fields row_index depth) (14 + 6 * i + k)) ∧
      (∀ b2 : OrderBook, b2.asks = b.asks → ∀ k, k < 3 →
        fieldAt (snapshot_fields lib b2 mbo_fields row_index depth) (17 + 6 * i + k)
          = fieldAt (snapshot_fields lib b mbo_fields row_index depth) (17 + 6 * i + k)) := by
  have hfi := fieldAt_no_comma_of_mem mbo_fields hf
  refine ⟨?_, ?_⟩
  · unfold snapshot_fields
    rw [splitComma_snapshot lib hfmt b mbo_fields hfi, output_row_length]
  · intro i hi
    have key := snapshot_block_fields lib hfmt b mbo_fields hfi row_index depth i hi
    obtain ⟨k0, k1, k2, k3, k4, k5⟩ := key
    refine ⟨?_, ?_, ?_, ?_, ?_, ?_⟩
    · intro p l h
      have := cells_of_some lib b.bids i p l h
      rw [k0, k1, k2]
      exact this
    · intro h
      have := cells_of_none lib b.bids i h
      rw [k0, k1, k2]
      exact this
    · intro p l h
      have := cells_of_some lib b.asks i p l h
      rw [k3, k4, k5]
      exact this
    · intro h
      have := cells_of_none lib b.asks i h
      rw [k3, k4, k5]
      exact this
    · intro b2 hb k hk
      have key2 := snapshot_block_fields lib hfmt b2 mbo_fields hfi row_index depth i hi
      obtain ⟨j0, j1, j2, -, -, -⟩ := key2
      rw [hb] at j0 j1 j2
      have e1 : 14 + 6 * i + 1 = 15 + 6 * i := by omega
      have e2 : 14 + 6 * i + 2 = 16 + 6 * i := by omega
      interval_cases k
      · rw [Nat.add_zero, j0, k0]
      · rw [e1, j1, k1]
      · rw [e2, j2, k2]
    · intro b2 hb k hk
      have key2 := snapshot_block_fields lib hfmt b2 mbo_fields hfi row_index depth i hi
      obtain ⟨-, -, -, j3, j4, j5⟩ := key2
      rw [hb] at j3 j4 j5
      have e1 : 17 + 6 * i + 1 = 18 + 6 * i := by omega
      have e2 : 17 + 6 * i + 2 = 19 + 6 * i := by omega
      interval_cases k
      · rw [Nat.add_zero, j3, k3]
      · rw [e1, j4, k4]
      · rw [e2, j5, k5]

/-- Witness for C16: the snapshot of the book `twoSided` for the record
`addLine42` has 76 fields. -/
theorem snapshot_layout_witness :
    15 ≤ (getFields addLine42).length ∧
    (snapshot_fields sampleLib twoSided (getFields addLine42) 0 0).length = 76 :=
  ⟨by decide,
    (snapshot_layout sampleLib sampleLib_fmt_no_comma twoSided (getFields addLine42)
      (by decide) (getFields_no_comma addLine42) 0 0).1⟩

/-- The level fields of the snapshot of `twoSided`: bid levels 101 and 100, ask
level 102, and an empty second ask slot. -/
theorem snapshot_twoSided_fields :
    (List.range 12).map
        (fun k => String.mk (fieldAt (snapshot_fields sampleLib twoSided
          (getFields addLine42) 0 0) (14 + k)))
      = ["101", "3", "1", "102", "4", "1", "100", "8", "2", "", "0", "0"] := by
  with_unfolding_all decide

/-! ## Records that leave the book as it is -/

theorem process_trade (lib : Lib) (b : OrderBook) (line : Str) (side : Char) (price : Price)
    (size order_id : Nat) (h : Parsed lib line 'T' side price size order_id) :
    process_mbo_action lib b line = (b, get_mbp_10_snapshot lib b (getFields line) 0 0) := by
  unfold process_mbo_action
  have hlen : ¬ (getFields line).length < 15 := by have := h.len; omega
  simp only [hlen, if_false, h.action_eq, h.side_eq, h.price_eq, h.size_eq, h.id_eq]
  simp [compute_depth]

theorem cancel_order_unknown (b : OrderBook) (order_id size : Nat)
    (h : regFind order_id b.orders = none) : cancel_order b order_id size = b := by
  simp [cancel_order, h]

/-- C19 (cancel of an unknown order): a well-formed Cancel record with side `B`
or `A` whose order id is not registered leaves the bid ledger, the ask ledger
and the registry unchanged, and `process_mbo_action` emits a non-empty row, the
snapshot of that unchanged book: each of its ten level blocks holds the cells
of the book's bid and ask level of that index. -/
theorem cancel_unknown_noop (lib : Lib) (b : OrderBook) (line : Str) (side : Char)
    (price : Price) (size order_id : Nat)
    (h : Parsed lib line 'C' side price size order_id) (hside : side = 'B' ∨ side = 'A')
    (hreg : regFind order_id b.orders = none) :
    (process_mbo_action lib b line).1 = b ∧
    (process_mbo_action lib b line).2 ≠ [] ∧
    (process_mbo_action lib b line).2
      = get_mbp_10_snapshot lib b (getFields line) 0 (cancel_rank price (sideLedger b side)) ∧
    ((∀ x, ',' ∉ lib.fmt x) → ∀ i, i < 10 →
      level_block (process_mbo_action lib b line).2 i
        = level_cells lib b.bids i ++ level_cells lib b.asks i) := by
  have hN : side ≠ 'N' := by rcases hside with rfl | rfl <;> decide
  have hd : compute_depth b 'C' side price = cancel_rank price (sideLedger b side) := by
    rcases hside with rfl | rfl
    · simp [compute_depth, sideLedger, cancel_scan_zero]
    · simp [compute_depth, sideLedger, cancel_scan_zero]
  rw [process_cancel lib b line side price size order_id h hN,
    cancel_order_unknown b order_id size hreg, hd]
  refine ⟨rfl, snapshot_ne_nil _ _ _ _ _, rfl, ?_⟩
  intro hfmt i hi
  exact level_block_snapshot lib hfmt b _ (fieldAt_no_comma line) 0 _ i hi

theorem cancelUnknownLine_parsed : Parsed sampleLib cancelUnknownLine 'C' 'B' 100 5 99 :=
  ⟨by decide, by decide, by decide, by with_unfolding_all decide,
    by with_unfolding_all decide, by with_unfolding_all decide⟩

/-- Witness for C19: cancelling the unknown order 99 in the book `twoSided`. -/
theorem cancel_unknown_noop_witness :
    regFind 99 twoSided.orders = none ∧
    (process_mbo_action sampleLib twoSided cancelUnknownLine).1 = twoSided ∧
    (process_mbo_action sampleLib twoSided cancelUnknownLine).2 ≠ [] :=
  ⟨by decide,
    (cancel_unknown_noop sampleLib twoSided cancelUnknownLine 'B' 100 5 99
      cancelUnknownLine_parsed (Or.inl rfl) (by decide)).1,
    (cancel_unknown_noop sampleLib twoSided cancelUnknownLine 'B' 100 5 99
      cancelUnknownLine_parsed (Or.inl rfl) (by decide)).2.1⟩

/-- C20 (a Trade does not touch the book): a well-formed Trade record, whatever
its side, price, size and order id, leaves the bid ledger, the ask ledger and
the registry unchanged, and `process_mbo_action` emits a non-empty row whose
depth field is `0` and which is the snapshot of the book as it was: each of its
ten level blocks holds the cells of the book's bid and ask level of that
index. -/
theorem trade_frame (lib : Lib) (b : OrderBook) (line : Str) (side : Char)
    (price : Price) (size order_id : Nat)
    (h : Parsed lib line 'T' side price size order_id) :
    (process_mbo_action lib b line).1 = b ∧
    (process_mbo_action lib b line).2 ≠ [] ∧
    depth_field (process_mbo_action lib b line).2 = to_string 0 ∧
    (process_mbo_action lib b line).2 = get_mbp_10_snapshot lib b (getFields line) 0 0 ∧
    ((∀ x, ',' ∉ lib.fmt x) → ∀ i, i < 10 →
      level_block (process_mbo_action lib b line).2 i
        = level_cells lib b.bids i ++ level_cells lib b.asks i) := by
  rw [process_trade lib b line side price size order_id h]
  refine ⟨rfl, snapshot_ne_nil _ _ _ _ _, snapshot_depth_field _ _ _ _ _, rfl, ?_⟩
  intro hfmt i hi
  exact level_block_snapshot lib hfmt b _ (fieldAt_no_comma line) 0 _ i hi

theorem tradeLine_parsed : Parsed sampleLib tradeLine 'T' 'A' 100 5 0 :=
  ⟨by decide, by decide, by decide, by with_unfolding_all decide,
    by with_unfolding_all decide, by with_unfolding_all decide⟩

/-- Witness for C20: a Trade record applied to the book `twoSided`. -/
theorem trade_frame_witness :
    (process_mbo_action sampleLib twoSided tradeLine).1 = twoSided ∧
    depth_field (process_mbo_action sampleLib twoSided tradeLine).2 = to_string 0 :=
  ⟨(trade_frame sampleLib twoSided tradeLine 'A' 100 5 0 tradeLine_parsed).1,
    (trade_frame sampleLib twoSided tradeLine 'A' 100 5 0 tradeLine_parsed).2.2.1⟩

/-! ## Empty action and side fields -/

/-- C18, counterexample: the Add record `noSideAddLine` has 15 fields and an
empty side field; from the empty book `process_mbo_action` registers its order
(with the null character as side) and emits a non-empty row. -/
theorem empty_side_counterexample :
    15 ≤ (getFields noSideAddLine).length ∧
    fieldAt (getFields noSideAddLine) 6 = [] ∧
    (process_mbo_action sampleLib empty noSideAddLine).1
      = ⟨[], [], [(1, ⟨100, 5, Char.ofNat 0⟩)]⟩ ∧
    (process_mbo_action sampleLib empty noSideAddLine).1 ≠ empty ∧
    (process_mbo_action sampleLib empty noSideAddLine).2 ≠ [] := by
  refine ⟨by decide, by decide, ?_, ?_, ?_⟩ <;> with_unfolding_all decide

/-- C18, amended: on a record with at least 15 fields whose action field is the
empty string, `process_mbo_action` returns an empty output line and leaves the
book (both ledgers and the registry) unchanged. -/
theorem empty_action_rejected (lib : Lib) (b : OrderBook) (line : Str)
    (hlen15 : 15 ≤ (getFields line).length) (h : fieldAt (getFields line) 5 = []) :
    process_mbo_action lib b line = (b, []) := by
  have hc : firstChar (fieldAt (getFields line) 5) = Char.ofNat 0 := by
    rw [h]; rfl
  have hlen : ¬ (getFields line).length < 15 := by omega
  unfold process_mbo_action
  simp only [hlen, if_false, hc]
  cases parse_price lib (fieldAt (getFields line) 7) <;>
    cases parse_u64 lib (fieldAt (getFields line) 8) <;>
    cases parse_u64 lib (fieldAt (getFields line) 10) <;>
    simp [show Char.ofNat 0 ≠ 'R' from by decide, show Char.ofNat 0 ≠ 'A' from by decide,
      show Char.ofNat 0 ≠ 'C' from by decide, show Char.ofNat 0 ≠ 'T' from by decide]

/-- Witness for the amended C18: a record with an empty action field applied to
the book `twoSided`. -/
theorem empty_action_rejected_witness :
    15 ≤ (getFields noActionLine).length ∧ fieldAt (getFields noActionLine) 5 = [] ∧
    process_mbo_action sampleLib twoSided noActionLine = (twoSided, []) :=
  ⟨by decide, by decide,
    empty_action_rejected sampleLib twoSided noActionLine (by decide) (by decide)⟩


/-! ## Ordered ledgers with 64-bit values -/

theorem sorted_levelInsert (before : Price → Price → Bool) (r : Price → Price → Prop)
    (hbr : ∀ a c, before a c = true ↔ r a c) (htrans : ∀ a c d, r a c → r c d → r a d)
    (htot : ∀ a c, ¬ r a c → a ≠ c → r c a) (p : Price) (l : PriceLevel) (m : Ledger)
    (hs : m.Pairwise (fun x y => r x.1 y.1)) (hp : levelFind p m = none) :
    (levelInsert before p l m).Pairwise (fun x y => r x.1 y.1) := by
  induction m with
  | nil => simp [levelInsert]
  | cons e rest ih =>
    obtain ⟨k, v⟩ := e
    have hall := (levelFind_eq_none_iff p _).1 hp
    have hkp : k ≠ p := hall (k, v) (List.mem_cons_self _ _)
    have hrest : levelFind p rest = none :=
      (levelFind_eq_none_iff p rest).2 (fun e he => hall e (List.mem_cons_of_mem _ he))
    rw [List.pairwise_cons] at hs
    rw [levelInsert_cons]
    cases hb : before p k with
    | true =>
      have hpk : r p k := (hbr p k).1 hb
      simp only [if_true]
      rw [List.pairwise_cons, List.pairwise_cons]
      refine ⟨?_, hs.1, hs.2⟩
      intro y hy
      rcases List.mem_cons.1 hy with rfl | hy
      · exact hpk
      · exact htrans _ _ _ hpk (hs.1 y hy)
    | false =>
      have hnpk : ¬ r p k := by
        intro h
        have := (hbr p k).2 h
        rw [hb] at this
        cases this
      simp only [Bool.false_eq_true, if_false]
      rw [List.pairwise_cons]
      refine ⟨?_, ih hs.2 hrest⟩
      intro y hy
      rcases (mem_levelInsert before p l rest y).1 hy with rfl | hy
      · exact htot p k hnpk (Ne.symm hkp)
      · exact hs.1 y hy

theorem sorted_levelUpdate (r : Price → Price → Prop) (p : Price)
    (f : PriceLevel → PriceLevel) (m : Ledger) (hs : m.Pairwise (fun x y => r x.1 y.1)) :
    (levelUpdate p f m).Pairwise (fun x y => r x.1 y.1) := by
  have h1 : (m.map Prod.fst).Pairwise r := List.pairwise_map.2 hs
  rw [← keys_levelUpdate p f m] at h1
  exact List.pairwise_map.1 h1

theorem sorted_levelErase (r : Price → Price → Prop) (p : Price) (m : Ledger)
    (hs : m.Pairwise (fun x y => r x.1 y.1)) :
    (levelErase p m).Pairwise (fun x y => r x.1 y.1) :=
  hs.sublist (List.filter_sublist m)

/-- The two comparators of the program, with their order. -/
theorem bidBefore_iff (a c : Price) : bidBefore a c = true ↔ a > c := by
  simp [bidBefore]

theorem askBefore_iff (a c : Price) : askBefore a c = true ↔ a < c := by
  simp [askBefore]

theorem sub64_lt (a c : Nat) : sub64 a c < U64 :=
  Nat.mod_lt _ (by unfold U64; decide)

/-- `add_level` keeps a ledger ordered and its values within 64 bits. -/
theorem valid_add_level (before : Price → Price → Bool) (r : Price → Price → Prop)
    (hbr : ∀ a c, before a c = true ↔ r a c) (htrans : ∀ a c d, r a c → r c d → r a d)
    (htot : ∀ a c, ¬ r a c → a ≠ c → r c a) (price : Price) (size : Nat) (m : Ledger)
    (hs64 : size < U64) (hs : m.Pairwise (fun x y => r x.1 y.1))
    (hb : ∀ e ∈ m, e.2.total_size < U64 ∧ e.2.order_count < U64) :
    (add_level before price size m).Pairwise (fun x y => r x.1 y.1) ∧
    ∀ e ∈ add_level before price size m, e.2.total_size < U64 ∧ e.2.order_count < U64 := by
  unfold add_level
  cases hf : levelFind price m with
  | none =>
    refine ⟨sorted_levelInsert before r hbr htrans htot price _ m hs hf, ?_⟩
    intro e he
    rcases (mem_levelInsert before price _ m e).1 he with rfl | he
    · exact ⟨hs64, show 1 < U64 from by unfold U64; decide⟩
    · exact hb e he
  | some l0 =>
    refine ⟨sorted_levelUpdate r price _ m hs, ?_⟩
    intro e he
    rcases mem_levelUpdate price _ m e he with ⟨hm, -⟩ | ⟨l, -, rfl⟩
    · exact hb e hm
    · exact ⟨add64_lt _ _, add64_lt _ _⟩

/-- `cancel_level` keeps a ledger ordered and its values within 64 bits. -/
theorem valid_cancel_level (r : Price → Price → Prop) (price : Price) (actual : Nat)
    (complete : Bool) (m : Ledger) (hs : m.Pairwise (fun x y => r x.1 y.1))
    (hb : ∀ e ∈ m, e.2.total_size < U64 ∧ e.2.order_count < U64) :
    (cancel_level price actual complete m).Pairwise (fun x y => r x.1 y.1) ∧
    ∀ e ∈ cancel_level price actual complete m,
      e.2.total_size < U64 ∧ e.2.order_count < U64 := by
  unfold cancel_level
  cases hf : levelFind price m with
  | none => exact ⟨hs, hb⟩
  | some l0 =>
    have hl0 := hb _ (mem_of_levelFind price l0 m hf)
    have hcount : (if complete = true then sub64 l0.order_count 1 else l0.order_count) < U64 := by
      by_cases hc : complete = true
      · rw [if_pos hc]
        exact sub64_lt l0.order_count 1
      · rw [if_neg hc]
        exact hl0.2
    simp only
    by_cases h0 : sub64 l0.total_size actual = 0
    · rw [if_pos h0]
      refine ⟨sorted_levelErase r price m hs, ?_⟩
      intro e he
      exact hb e ((mem_levelErase price m e).1 he).1
    · rw [if_neg h0]
      refine ⟨sorted_levelUpdate r price _ m hs, ?_⟩
      intro e he
      rcases mem_levelUpdate price _ m e he with ⟨hm, -⟩ | ⟨l, -, rfl⟩
      · exact hb e hm
      · simp only
        exact ⟨sub64_lt l0.total_size actual, hcount⟩

theorem valid_add_order (b : OrderBook) (order_id : Nat) (price : Price) (size : Nat)
    (side : Char) (hs64 : size < U64) (hv : BookValid b) :
    BookValid (add_order b order_id price size side) := by
  obtain ⟨hsb, hsa, hbb, hba⟩ := hv
  unfold add_order
  by_cases hB : side = 'B'
  · have := valid_add_level bidBefore (fun a c => a > c) bidBefore_iff
      (fun a c d h1 h2 => lt_trans h2 h1)
      (fun a c h hne => lt_of_le_of_ne (not_lt.1 h) hne) price size b.bids hs64 hsb hbb
    simp only [hB, if_true]
    exact ⟨this.1, hsa, this.2, hba⟩
  · by_cases hA : side = 'A'
    · have := valid_add_level askBefore (fun a c => a < c) askBefore_iff
        (fun a c d h1 h2 => lt_trans h1 h2)
        (fun a c h hne => lt_of_le_of_ne (not_lt.1 h) (Ne.symm hne)) price size b.asks hs64
        hsa hba
      simp only [hB, hA, if_true, if_false]
      exact ⟨hsb, this.1, hbb, this.2⟩
    · simp only [hB, hA, if_false]
      exact ⟨hsb, hsa, hbb, hba⟩

theorem valid_cancel_order (b : OrderBook) (order_id size : Nat) (hv : BookValid b) :
    BookValid (cancel_order b order_id size) := by
  cases hf : regFind order_id b.orders with
  | none =>
    rw [cancel_order_unknown b order_id size hf]
    exact hv
  | some o =>
    obtain ⟨hsb, hsa, hbb, hba⟩ := hv
    rw [cancel_order_eq b order_id size o hf]
    by_cases hB : o.side = 'B'
    · have := valid_cancel_level (fun a c => a > c) o.price (min size o.size)
        (decide (size ≥ o.size)) b.bids hsb hbb
      simp only [hB, if_true]
      exact ⟨this.1, hsa, this.2, hba⟩
    · by_cases hA : o.side = 'A'
      · have := valid_cancel_level (fun a c => a < c) o.price (min size o.size)
          (decide (size ≥ o.size)) b.asks hsa hba
        simp only [hB, hA, if_true, if_false]
        exact ⟨hsb, this.1, hbb, this.2⟩
      · simp only [hB, hA, if_false]
        exact ⟨hsb, hsa, hbb, hba⟩

theorem valid_empty : BookValid empty := by
  simp [BookValid, empty]

/-- Every record keeps the book valid: ordered ledgers, 64-bit values. -/
theorem valid_step (lib : Lib) (b : OrderBook) (line : Str) (hv : BookValid b) :
    BookValid (process_mbo_action lib b line).1 := by
  rcases process_book_cases lib b line with h | h | ⟨side, price, size, id, hp, -, h⟩ |
      ⟨side, price, size, id, -, -, h⟩
  · rw [h]; exact hv
  · rw [h]; exact valid_empty
  · rw [h]
    exact valid_add_order b id price size side (parse_u64_lt lib _ size hp.size_eq) hv
  · rw [h]
    exact valid_cancel_order b id size hv

/-- Every book reached from the empty book is valid. -/
theorem valid_run (lib : Lib) (lines : List Str) : BookValid (run_actions lib empty lines) :=
  run_invariant lib (fun _ _ => True) BookValid (fun b line hv _ => valid_step lib b line hv)
    lines empty valid_empty (by
      generalize empty = b
      induction lines generalizing b with
      | nil => trivial
      | cons line rest ih => exact ⟨trivial, ih _⟩)

theorem valid_nodup (b : OrderBook) (hv : BookValid b) :
    (b.bids.map Prod.fst).Nodup ∧ (b.asks.map Prod.fst).Nodup := by
  constructor
  · exact (List.pairwise_map.2 hv.1).imp (fun h => ne_of_gt h)
  · exact (List.pairwise_map.2 hv.2.1).imp (fun h => ne_of_lt h)

/-! ## The effect of an Add -/

theorem levelFind_add_level_eq (before : Price → Price → Bool) (q price : Price) (size : Nat)
    (m : Ledger) :
    levelFind q (add_level before price size m)
      = if q = price then
          some (match levelFind price m with
            | none => ⟨size, 1⟩
            | some l => ⟨add64 l.total_size size, add64 l.order_count 1⟩)
        else levelFind q m := by
  unfold add_level
  cases hf : levelFind price m with
  | none =>
    simp only
    rw [levelFind_insert before q price _ m hf]
  | some l0 =>
    simp only
    rw [levelFind_update]
    by_cases hq : q = price
    · simp [hq, hf]
    · simp [hq]

theorem sideLedger_add_order (b : OrderBook) (order_id : Nat) (price : Price) (size : Nat)
    (side : Char) (hside : side = 'B' ∨ side = 'A') :
    sideLedger (add_order b order_id price size side) side
      = add_level (sideBefore side) price size (sideLedger b side) := by
  rcases hside with rfl | rfl
  · simp [add_order, sideLedger, sideBefore]
  · simp [add_order, sideLedger, sideBefore]

theorem otherLedger_add_order (b : OrderBook) (order_id : Nat) (price : Price) (size : Nat)
    (side : Char) :
    (side = 'B' → (add_order b order_id price size side).asks = b.asks) ∧
    (side = 'A' → (add_order b order_id price size side).bids = b.bids) := by
  constructor
  · rintro rfl
    simp [add_order]
  · rintro rfl
    simp [add_order]

theorem orders_add_order (b : OrderBook) (order_id : Nat) (price : Price) (size : Nat)
    (side : Char) :
    (add_order b order_id price size side).orders
      = regSet order_id ⟨price, size, side⟩ b.orders := by
  unfold add_order
  by_cases hB : side = 'B'
  · simp [hB]
  · by_cases hA : side = 'A'
    · simp [hB, hA]
    · simp [hB, hA]

/-- The level at the price of an Add, when neither addition wraps: the old
total plus the size and the old count plus 1, the old values being 0 when the
price had no level. -/
theorem levelFind_add_order_same (b : OrderBook) (order_id : Nat) (price : Price) (size : Nat)
    (side : Char) (hside : side = 'B' ∨ side = 'A')
    (hov : (levelAt (sideLedger b side) price).total_size + size < U64 ∧
      (levelAt (sideLedger b side) price).order_count + 1 < U64) :
    levelFind price (sideLedger (add_order b order_id price size side) side)
      = some ⟨(levelAt (sideLedger b side) price).total_size + size,
          (levelAt (sideLedger b side) price).order_count + 1⟩ := by
  rw [sideLedger_add_order b order_id price size side hside, levelFind_add_level_eq, if_pos rfl]
  unfold levelAt at hov ⊢
  cases hf : levelFind price (sideLedger b side) with
  | none => simp
  | some l =>
    rw [hf] at hov
    simp only [Option.getD_some] at hov ⊢
    rw [add64_eq hov.1, add64_eq hov.2]

theorem levelFind_add_order_other (b : OrderBook) (order_id : Nat) (price q : Price)
    (size : Nat) (side : Char) (hside : side = 'B' ∨ side = 'A') (hq : q ≠ price) :
    levelFind q (sideLedger (add_order b order_id price size side) side)
      = levelFind q (sideLedger b side) := by
  rw [sideLedger_add_order b order_id price size side hside, levelFind_add_level_eq, if_neg hq]

theorem overflowFirst_parsed :
    Parsed sampleLib overflowFirst 'A' 'B' 100 9223372036854775808 1 :=
  ⟨by decide, by decide, by decide, by with_unfolding_all decide, by decide, by decide⟩

theorem overflowSecond_parsed :
    Parsed sampleLib overflowSecond 'A' 'B' 100 9223372036854775808 2 :=
  ⟨by decide, by decide, by decide, by with_unfolding_all decide, by decide, by decide⟩

theorem overflowFirstBook_eq :
    (process_mbo_action sampleLib empty overflowFirst).1
      = ⟨[(100, ⟨9223372036854775808, 1⟩)], [], [(1, ⟨100, 9223372036854775808, 'B'⟩)]⟩ := by
  rw [process_add sampleLib _ _ 'B' 100 _ 1 overflowFirst_parsed (by decide)]
  decide

/-- C13, counterexample: after the Add of order 1 (bid, price 100, size `2^63`)
the level 100 holds total `2^63`; the well-formed Add of the unregistered order
2 with the same price and size leaves the level with total 0, not
`2^63 + 2^63`. -/
theorem add_aggregates_counterexample :
    levelFind 100 (process_mbo_action sampleLib empty overflowFirst).1.bids
      = some ⟨9223372036854775808, 1⟩ ∧
    regFind 2 (process_mbo_action sampleLib empty overflowFirst).1.orders = none ∧
    Parsed sampleLib overflowSecond 'A' 'B' 100 9223372036854775808 2 ∧
    levelFind 100 (process_mbo_action sampleLib
        (process_mbo_action sampleLib empty overflowFirst).1 overflowSecond).1.bids
      = some ⟨0, 2⟩ ∧
    9223372036854775808 + 9223372036854775808 ≠ 0 := by
  rw [overflowFirstBook_eq]
  refine ⟨by decide, by decide, overflowSecond_parsed, ?_, by decide⟩
  rw [process_add sampleLib _ _ 'B' 100 _ 2 overflowSecond_parsed (by decide)]
  decide

/-- C13, amended: for every book, side `B` or `A`, price `p`, size `z` and order
id not registered, when `old total_size + z` and `old order_count + 1` stay
within 64 bits (old values 0 when the level is absent), a well-formed
Add(id, `p`, `z`, side) through `process_mbo_action` emits a row and leaves the
level `(p, side)` with `total_size = old total_size + z` and
`order_count = old order_count + 1`, every other level of the side and the whole
other side unchanged, and the registry extended by `id -> (p, z, side)`. -/
theorem add_aggregates_amended (lib : Lib) (b : OrderBook) (line : Str) (side : Char)
    (price : Price) (size order_id : Nat)
    (h : Parsed lib line 'A' side price size order_id) (hside : side = 'B' ∨ side = 'A')
    (hfresh : regFind order_id b.orders = none)
    (hov : (levelAt (sideLedger b side) price).total_size + size < U64 ∧
      (levelAt (sideLedger b side) price).order_count + 1 < U64) :
    (process_mbo_action lib b line).2 ≠ [] ∧
    levelFind price (sideLedger (process_mbo_action lib b line).1 side)
      = some ⟨(levelAt (sideLedger b side) price).total_size + size,
          (levelAt (sideLedger b side) price).order_count + 1⟩ ∧
    (∀ q, q ≠ price →
      levelFind q (sideLedger (process_mbo_action lib b line).1 side)
        = levelFind q (sideLedger b side)) ∧
    (side = 'B' → (process_mbo_action lib b line).1.asks = b.asks) ∧
    (side = 'A' → (process_mbo_action lib b line).1.bids = b.bids) ∧
    (process_mbo_action lib b line).1.orders
      = b.orders ++ [(order_id, ⟨price, size, side⟩)] := by
  have hN : side ≠ 'N' := by rcases hside with rfl | rfl <;> decide
  rw [process_add lib b line side price size order_id h hN]
  refine ⟨snapshot_ne_nil _ _ _ _ _, ?_, ?_, ?_, ?_, ?_⟩
  · exact levelFind_add_order_same b order_id price size side hside hov
  · intro q hq
    exact levelFind_add_order_other b order_id price q size side hside hq
  · exact (otherLedger_add_order b order_id price size side).1
  · exact (otherLedger_add_order b order_id price size side).2
  · show (add_order b order_id price size side).orders = _
    rw [orders_add_order, regSet_fresh _ _ _ hfresh]

theorem scenarioFirst_parsed :
    Parsed sampleLib (record "A" "B" "10.50" "100" "1") 'A' 'B' (21 / 2) 100 1 :=
  ⟨by decide, by decide, by decide, by with_unfolding_all decide,
    by with_unfolding_all decide, by with_unfolding_all decide⟩

/-- The rows of the scenario of the specification: depth, bid level 0 (price,
size, count) and ask level 0 after each of the three records. -/
theorem scenario_rows :
    (run_outputs sampleLib empty scenarioLog).2.map
        (fun r => (String.mk (fieldAt (splitComma r) 8),
          (List.range 6).map (fun k => String.mk (fieldAt (splitComma r) (14 + k)))))
      = [("0", ["10.5", "100", "1", "", "0", "0"]),
         ("0", ["10.5", "150", "2", "", "0", "0"]),
         ("0", ["10.5", "50", "1", "", "0", "0"])] := by
  with_unfolding_all decide

/-- Witness for the amended C13: from the empty book, Add(1, 10.50, 100, Bid)
leaves the bid level 10.5 with total 100 and count 1. -/
theorem add_aggregates_amended_witness :
    regFind 1 empty.orders = none ∧
    levelFind (21 / 2) (sideLedger
        (process_mbo_action sampleLib empty (record "A" "B" "10.50" "100" "1")).1 'B')
      = some ⟨(levelAt (sideLedger empty 'B') (21 / 2)).total_size + 100,
          (levelAt (sideLedger empty 'B') (21 / 2)).order_count + 1⟩ :=
  ⟨by decide,
    (add_aggregates_amended sampleLib empty (record "A" "B" "10.50" "100" "1") 'B' (21 / 2)
      100 1 scenarioFirst_parsed (Or.inl rfl) (by decide) (by decide)).2.1⟩

/-! ## Prices within the tolerance -/

theorem addNear1_parsed : Parsed sampleLib addNear1 'A' 'B' 100 5 1 :=
  ⟨by decide, by decide, by decide, by with_unfolding_all decide,
    by with_unfolding_all decide, by with_unfolding_all decide⟩

theorem addNear2_parsed : Parsed sampleLib addNear2 'A' 'B' nearPrice 7 2 :=
  ⟨by decide, by decide, by decide, rfl, by decide, by decide⟩

theorem nearPrice_facts :
    (100 : Price) ≠ nearPrice ∧ nearPrice > 100 ∧ |(100 : Price) - nearPrice| < 1 / 1000000000 := by
  refine ⟨?_, ?_, ?_⟩ <;> with_unfolding_all decide

theorem two_adds_empty (p q : Price) (hlt : q > p) :
    add_order (add_order empty 1 p 5 'B') 2 q 7 'B'
      = ⟨[(q, ⟨7, 1⟩), (p, ⟨5, 1⟩)], [], [(1, ⟨p, 5, 'B'⟩), (2, ⟨q, 7, 'B'⟩)]⟩ := by
  have hne : ¬ p = q := ne_of_lt hlt
  simp [add_order, add_level, empty, levelFind, levelInsert, regSet, bidBefore, hne, hlt]

theorem nearBook_eq :
    run_actions sampleLib empty [addNear1, addNear2]
      = ⟨[(nearPrice, ⟨7, 1⟩), (100, ⟨5, 1⟩)], [],
          [(1, ⟨100, 5, 'B'⟩), (2, ⟨nearPrice, 7, 'B'⟩)]⟩ := by
  simp only [run_actions, List.foldl_cons, List.foldl_nil]
  rw [process_add sampleLib _ _ 'B' 100 _ 1 addNear1_parsed (by decide)]
  simp only
  rw [process_add sampleLib _ _ 'B' nearPrice _ 2 addNear2_parsed (by decide)]
  exact two_adds_empty 100 nearPrice nearPrice_facts.2.1

/-- C17, counterexample: the prices `100` and `100.0000000001` differ by less
than `1e-9`; from the empty book the Adds of order 1 (size 5) at the first and
order 2 (size 7) at the second leave two bid levels, one of total 5 and one
of total 7, and no level of total 12 with 2 orders. -/
theorem price_tolerance_counterexample :
    (100 : Price) ≠ nearPrice ∧
    |(100 : Price) - nearPrice| < 1 / 1000000000 ∧
    Parsed sampleLib addNear1 'A' 'B' 100 5 1 ∧
    Parsed sampleLib addNear2 'A' 'B' nearPrice 7 2 ∧
    (run_actions sampleLib empty [addNear1, addNear2]).bids
      = [(nearPrice, ⟨7, 1⟩), (100, ⟨5, 1⟩)] ∧
    ∀ e ∈ (run_actions sampleLib empty [addNear1, addNear2]).bids,
      e.2 ≠ ⟨5 + 7, 2⟩ := by
  refine ⟨nearPrice_facts.1, nearPrice_facts.2.2, addNear1_parsed, addNear2_parsed, ?_, ?_⟩
  · rw [nearBook_eq]
  · rw [nearBook_eq]
    intro e he
    simp only [List.mem_cons, List.mem_singleton, List.not_mem_nil, or_false] at he
    rcases he with rfl | rfl <;> decide

/-- C17, amended: for every book, side `B` or `A` and two different prices `p`
and `q` (within `1e-9` of each other or not), Add(id1, `p`, z1, side) followed
by Add(id2, `q`, z2, side), with no addition beyond 64 bits, keeps `p` and `q`
as two level keys: the level `p` gains z1 in total size and 1 in order count,
and the level `q` gains z2 and 1. The ledgers do not look at the ids, so this
holds in particular for distinct unregistered ids. -/
theorem price_keys_exact (lib : Lib) (b : OrderBook) (line1 line2 : Str) (side : Char)
    (p q : Price) (z1 z2 id1 id2 : Nat)
    (h1 : Parsed lib line1 'A' side p z1 id1) (h2 : Parsed lib line2 'A' side q z2 id2)
    (hside : side = 'B' ∨ side = 'A') (hpq : p ≠ q)
    (hov1 : (levelAt (sideLedger b side) p).total_size + z1 < U64 ∧
      (levelAt (sideLedger b side) p).order_count + 1 < U64)
    (hov2 : (levelAt (sideLedger b side) q).total_size + z2 < U64 ∧
      (levelAt (sideLedger b side) q).order_count + 1 < U64) :
    levelFind p (sideLedger
        (process_mbo_action lib (process_mbo_action lib b line1).1 line2).1 side)
      = some ⟨(levelAt (sideLedger b side) p).total_size + z1,
          (levelAt (sideLedger b side) p).order_count + 1⟩ ∧
    levelFind q (sideLedger
        (process_mbo_action lib (process_mbo_action lib b line1).1 line2).1 side)
      = some ⟨(levelAt (sideLedger b side) q).total_size + z2,
          (levelAt (sideLedger b side) q).order_count + 1⟩ := by
  have hN : side ≠ 'N' := by rcases hside with rfl | rfl <;> decide
  rw [process_add lib b line1 side p z1 id1 h1 hN]
  simp only
  rw [process_add lib _ line2 side q z2 id2 h2 hN]
  simp only
  have hq1 : levelFind q (sideLedger (add_order b id1 p z1 side) side)
      = levelFind q (sideLedger b side) :=
    levelFind_add_order_other b id1 p q z1 side hside (Ne.symm hpq)
  have hat : levelAt (sideLedger (add_order b id1 p z1 side) side) q
      = levelAt (sideLedger b side) q := by
    unfold levelAt
    rw [hq1]
  constructor
  · rw [levelFind_add_order_other _ id2 q p z2 side hside hpq]
    exact levelFind_add_order_same b id1 p z1 side hside hov1
  · have := levelFind_add_order_same (add_order b id1 p z1 side) id2 q z2 side hside
      (by rw [hat]; exact hov2)
    rw [hat] at this
    exact this

/-- Witness for the amended C17: the Adds at `100` and `100.0000000001` from
the empty book. -/
theorem price_keys_exact_witness :
    (100 : Price) ≠ nearPrice ∧
    levelFind 100 (sideLedger
        (process_mbo_action sampleLib (process_mbo_action sampleLib empty addNear1).1
          addNear2).1 'B')
      = some ⟨(levelAt (sideLedger empty 'B') 100).total_size + 5,
          (levelAt (sideLedger empty 'B') 100).order_count + 1⟩ :=
  ⟨nearPrice_facts.1,
    (price_keys_exact sampleLib empty addNear1 addNear2 'B' 100 nearPrice
      5 7 1 2 addNear1_parsed addNear2_parsed (Or.inl rfl) nearPrice_facts.1 (by decide)
      (by decide)).1⟩

/-! ## An Add followed by its full Cancel -/

theorem sub64_add64 (t z : Nat) (ht : t < U64) : sub64 (add64 t z) z = t := by
  unfold sub64 add64
  have hU : 0 < U64 := by unfold U64; decide
  rw [Nat.mod_mod]
  have h1 : (t + z) % U64 = (t + z % U64) % U64 := by
    rw [Nat.add_mod, Nat.mod_eq_of_lt ht]
  have hz : z % U64 < U64 := Nat.mod_lt _ hU
  rw [h1]
  by_cases hc : t + z % U64 < U64
  · rw [Nat.mod_eq_of_lt hc]
    have e : t + z % U64 + U64 - z % U64 = t + U64 := by omega
    rw [e, Nat.add_mod_right, Nat.mod_eq_of_lt ht]
  · have h2 : (t + z % U64) % U64 = t + z % U64 - U64 := by
      rw [Nat.mod_eq_sub_mod (by omega), Nat.mod_eq_of_lt (by omega)]
    rw [h2]
    have e : t + z % U64 - U64 + U64 - z % U64 = t := by omega
    rw [e, Nat.mod_eq_of_lt ht]

theorem sub64_self (z : Nat) : sub64 z z = 0 := by
  unfold sub64
  have hU : 0 < U64 := by unfold U64; decide
  have hz : z % U64 < U64 := Nat.mod_lt _ hU
  have e : z % U64 + U64 - z % U64 = U64 := by omega
  rw [e, Nat.mod_self]

theorem levelErase_of_absent (p : Price) (m : Ledger) (h : levelFind p m = none) :
    levelErase p m = m := by
  unfold levelErase
  rw [List.filter_eq_self]
  intro e he
  simpa using (levelFind_eq_none_iff p m).1 h e he

theorem levelErase_levelInsert (before : Price → Price → Bool) (p : Price) (l : PriceLevel)
    (m : Ledger) (h : levelFind p m = none) :
    levelErase p (levelInsert before p l m) = m := by
  induction m with
  | nil => simp [levelInsert, levelErase]
  | cons e rest ih =>
    obtain ⟨k, v⟩ := e
    have hall := (levelFind_eq_none_iff p _).1 h
    have hkp : k ≠ p := hall (k, v) (List.mem_cons_self _ _)
    have hrest : levelFind p rest = none :=
      (levelFind_eq_none_iff p rest).2 (fun e he => hall e (List.mem_cons_of_mem _ he))
    rw [levelInsert_cons]
    cases hb : before p k with
    | true =>
      simp only [if_true]
      rw [levelErase_cons, if_pos rfl, levelErase_of_absent p _ h]
    | false =>
      simp only [Bool.false_eq_true, if_false]
      rw [levelErase_cons, if_neg hkp, ih hrest]

theorem levelUpdate_restore (p : Price) (l : PriceLevel) (f : PriceLevel → PriceLevel)
    (m : Ledger) (hnd : (m.map Prod.fst).Nodup) (h : levelFind p m = some l) :
    levelUpdate p (fun _ => l) (levelUpdate p f m) = m := by
  have key : ∀ e ∈ m, e.1 = p → e.2 = l := by
    intro e he hep
    have := levelFind_of_mem m hnd e he
    rw [hep, h] at this
    exact (Option.some.inj this).symm
  unfold levelUpdate
  rw [List.map_map]
  conv => rhs; rw [← List.map_id m]
  apply List.map_congr_left
  intro e he
  by_cases hep : e.1 = p
  · have := key e he hep
    simp only [Function.comp, hep, if_true, id]
    rw [← this, ← hep]
  · simp only [Function.comp, hep, if_false, id]

/-- In a ledger without repeated key, with 64-bit values and no level of total
0, `cancel_level` of the full size undoes `add_level`. -/
theorem cancel_add_level (before : Price → Price → Bool) (p : Price) (z : Nat) (m : Ledger)
    (hnd : (m.map Prod.fst).Nodup)
    (hb : ∀ e ∈ m, e.2.total_size < U64 ∧ e.2.order_count < U64)
    (hz : ∀ e ∈ m, e.2.total_size ≠ 0) :
    cancel_level p z true (add_level before p z m) = m := by
  unfold cancel_level
  rw [levelFind_add_level_eq, if_pos rfl]
  cases hf : levelFind p m with
  | none =>
    simp only [sub64_self, if_true]
    unfold add_level
    rw [hf]
    exact levelErase_levelInsert before p _ m hf
  | some l =>
    have hl := mem_of_levelFind p l m hf
    have hlb := hb _ hl
    have hlz := hz _ hl
    simp only at hlb hlz
    simp only [sub64_add64 _ _ hlb.1, sub64_add64 _ _ hlb.2, if_neg hlz, if_true]
    unfold add_level
    rw [hf]
    exact levelUpdate_restore p l _ m hnd hf

theorem regErase_append_fresh (order_id : Nat) (o : Order) (r : Registry)
    (h : regFind order_id r = none) : regErase order_id (r ++ [(order_id, o)]) = r := by
  unfold regErase
  rw [List.filter_append]
  have h1 : r.filter (fun e => decide (e.1 ≠ order_id)) = r := by
    rw [List.filter_eq_self]
    intro e he
    simpa using (regFind_eq_none_iff order_id r).1 h e he
  rw [h1]
  simp

/-- `cancel_order` of at least the size undoes `add_order` of a fresh id. -/
theorem cancel_add_order (b : OrderBook) (order_id : Nat) (price : Price) (z S : Nat)
    (side : Char) (hv : BookValid b) (hnz : NoZeroLevel b) (hside : side = 'B' ∨ side = 'A')
    (hfresh : regFind order_id b.orders = none) (hS : z ≤ S) :
    cancel_order (add_order b order_id price z side) order_id S = b := by
  have hnd := valid_nodup b hv
  have hreg : regFind order_id (add_order b order_id price z side).orders
      = some ⟨price, z, side⟩ := by
    rw [orders_add_order, regFind_set, if_pos rfl]
  rw [cancel_order_eq _ order_id S _ hreg]
  have hm : min S z = z := Nat.min_eq_right hS
  have hc : decide (S ≥ z) = true := decide_eq_true hS
  have horders : cancel_registry order_id S ⟨price, z, side⟩
      (add_order b order_id price z side).orders = b.orders := by
    unfold cancel_registry
    simp only [hc, if_true]
    rw [orders_add_order, regSet_fresh _ _ _ hfresh, regErase_append_fresh _ _ _ hfresh]
  rw [horders]
  simp only [hm, hc]
  rcases hside with rfl | rfl
  · have e1 : (add_order b order_id price z 'B').bids = add_level bidBefore price z b.bids := by
      simp [add_order]
    have e2 : (add_order b order_id price z 'B').asks = b.asks := by
      simp [add_order]
    simp only [if_true, e1, e2]
    rw [cancel_add_level bidBefore price z b.bids hnd.1 hv.2.2.1 hnz.1]
  · have e1 : (add_order b order_id price z 'A').asks = add_level askBefore price z b.asks := by
      simp [add_order]
    have e2 : (add_order b order_id price z 'A').bids = b.bids := by
      simp [add_order]
    simp only [show ¬ ('A' : Char) = 'B' from by decide, if_false, if_true, e1, e2]
    rw [cancel_add_level askBefore price z b.asks hnd.2 hv.2.2.2 hnz.2]

/-- C14 (an Add followed by a full Cancel is a round trip): for every book (a
valid one: ordered ledgers, 64-bit values) that has no level of total size 0,
every side `B` or `A`, price `p`, size `z > 0`, order id not registered and
every `S ≥ z`, Add(id, `p`, `z`, side) followed by Cancel(id, `S`) (a Cancel
record of any side but `N`, any price) through `process_mbo_action` leaves a book equal to the original one: same bid ledger,
same ask ledger, same registry; when the level `(p, side)` did not exist
before, it does not exist afterwards. -/
theorem add_cancel_round_trip (lib : Lib) (b : OrderBook) (addLine cancelLn : Str)
    (side cside : Char) (p cp : Price) (z S order_id : Nat)
    (hv : BookValid b) (hnz : NoZeroLevel b)
    (ha : Parsed lib addLine 'A' side p z order_id)
    (hc : Parsed lib cancelLn 'C' cside cp S order_id)
    (hside : side = 'B' ∨ side = 'A') (hcN : cside ≠ 'N')
    (_hz : 0 < z) (hfresh : regFind order_id b.orders = none) (hS : z ≤ S) :
    (process_mbo_action lib (process_mbo_action lib b addLine).1 cancelLn).1 = b ∧
    (levelFind p (sideLedger b side) = none →
      levelFind p (sideLedger
        (process_mbo_action lib (process_mbo_action lib b addLine).1 cancelLn).1 side) = none) := by
  have hN : side ≠ 'N' := by rcases hside with rfl | rfl <;> decide
  have key : (process_mbo_action lib (process_mbo_action lib b addLine).1 cancelLn).1 = b := by
    rw [process_add lib b addLine side p z order_id ha hN]
    simp only
    rw [process_cancel lib _ cancelLn cside cp S order_id hc hcN]
    exact cancel_add_order b order_id p z S side hv hnz hside hfresh hS
  refine ⟨key, ?_⟩
  intro h
  rw [key]
  exact h

theorem addAsk3_parsed : Parsed sampleLib addAsk3 'A' 'A' 9 10 3 :=
  ⟨by decide, by decide, by decide, by with_unfolding_all decide,
    by with_unfolding_all decide, by with_unfolding_all decide⟩

theorem cancelAsk3_parsed : Parsed sampleLib cancelAsk3 'C' 'A' 9 10 3 :=
  ⟨by decide, by decide, by decide, by with_unfolding_all decide,
    by with_unfolding_all decide, by with_unfolding_all decide⟩

/-- Witness for C14: Add(3, 9.00, Ask, 10) then Cancel(3, 10) from the empty
book leaves the empty book: the ask side has no level. -/
theorem add_cancel_round_trip_witness :
    BookValid empty ∧ NoZeroLevel empty ∧ regFind 3 empty.orders = none ∧
    (process_mbo_action sampleLib (process_mbo_action sampleLib empty addAsk3).1
      cancelAsk3).1 = empty :=
  ⟨valid_empty, by simp [NoZeroLevel, empty], by decide,
    (add_cancel_round_trip sampleLib empty addAsk3 cancelAsk3 'A' 'A' 9 9 10 10 3 valid_empty
      (by simp [NoZeroLevel, empty]) addAsk3_parsed cancelAsk3_parsed (Or.inr rfl) (by decide)
      (by decide) (by decide) (by decide)).1⟩

/-- The rows of the second scenario of the specification: after the Add the ask
level 0 is `9`, size 10, count 1; after the Cancel the ask side has no level. -/
theorem round_trip_rows :
    (run_outputs sampleLib empty [addAsk3, cancelAsk3]).2.map
        (fun r => (List.range 6).map (fun k => String.mk (fieldAt (splitComma r) (14 + k))))
      = [["", "0", "0", "9", "10", "1"], ["", "0", "0", "", "0", "0"]] := by
  with_unfolding_all decide

/-- In a valid book the list order of the ledgers is the price order: bid
levels by descending price, ask levels by ascending price. -/
theorem valid_level_order (b : OrderBook) (hv : BookValid b) (i j : Nat) (hij : i < j) :
    (∀ x y, b.bids.get? i = some x → b.bids.get? j = some y → x.1 > y.1) ∧
    (∀ x y, b.asks.get? i = some x → b.asks.get? j = some y → x.1 < y.1) := by
  constructor
  · intro x y hx hy
    rw [List.get?_eq_getElem?] at hx hy
    obtain ⟨hi, rfl⟩ := List.getElem?_eq_some_iff.1 hx
    obtain ⟨hj, rfl⟩ := List.getElem?_eq_some_iff.1 hy
    exact List.pairwise_iff_getElem.1 hv.1 i j hi hj hij
  · intro x y hx hy
    rw [List.get?_eq_getElem?] at hx hy
    obtain ⟨hi, rfl⟩ := List.getElem?_eq_some_iff.1 hx
    obtain ⟨hj, rfl⟩ := List.getElem?_eq_some_iff.1 hy
    exact List.pairwise_iff_getElem.1 hv.2.1 i j hi hj hij

/-! ## Add and Cancel records without a side -/

theorem process_sideless (lib : Lib) (b : OrderBook) (line : Str) (action : Char)
    (price : Price) (size order_id : Nat)
    (h : Parsed lib line action 'N' price size order_id)
    (hact : action = 'A' ∨ action = 'C') :
    process_mbo_action lib b line = (b, get_mbp_10_snapshot lib b (getFields line) 0 0) := by
  unfold process_mbo_action
  have hlen : ¬ (getFields line).length < 15 := by have := h.len; omega
  simp only [hlen, if_false, h.action_eq, h.side_eq, h.price_eq, h.size_eq, h.id_eq]
  rcases hact with rfl | rfl
  · simp [compute_depth]
  · simp [compute_depth]

/-- C21 (side-less Add and Cancel): for every book and every well-formed Add or
Cancel record whose side is `N`, whatever its order id, `process_mbo_action`
leaves the bid ledger, the ask ledger and the registry unchanged and emits a
non-empty row whose side column is `N` and whose depth column is `0`. -/
theorem sideless_frame (lib : Lib) (b : OrderBook) (line : Str) (action : Char)
    (price : Price) (size order_id : Nat)
    (h : Parsed lib line action 'N' price size order_id)
    (hact : action = 'A' ∨ action = 'C') :
    (process_mbo_action lib b line).1 = b ∧
    (process_mbo_action lib b line).2 ≠ [] ∧
    side_field (process_mbo_action lib b line).2 = ['N'] ∧
    depth_field (process_mbo_action lib b line).2 = ['0'] := by
  rw [process_sideless lib b line action price size order_id h hact]
  refine ⟨rfl, snapshot_ne_nil _ _ _ _ _, ?_, ?_⟩
  · rw [snapshot_side_field, h.side_eq]
  · rw [snapshot_depth_field]
    rfl

theorem sidelessAdd_parsed : Parsed sampleLib sidelessAdd 'A' 'N' 100 5 42 :=
  ⟨by decide, by decide, by decide, by with_unfolding_all decide,
    by with_unfolding_all decide, by with_unfolding_all decide⟩

theorem sidelessCancel_parsed : Parsed sampleLib sidelessCancel 'C' 'N' 100 5 42 :=
  ⟨by decide, by decide, by decide, by with_unfolding_all decide,
    by with_unfolding_all decide, by with_unfolding_all decide⟩

/-- Witness for C21: a side-less Add carrying the id of the resting order 42
leaves the book `twoBids` as it is and reports side `N`, depth `0`. -/
theorem sideless_frame_witness :
    regFind 42 twoBids.orders = some ⟨100, 8, 'B'⟩ ∧
    (process_mbo_action sampleLib twoBids sidelessAdd).1 = twoBids ∧
    (process_mbo_action sampleLib twoBids sidelessAdd).2 ≠ [] ∧
    side_field (process_mbo_action sampleLib twoBids sidelessAdd).2 = ['N'] ∧
    depth_field (process_mbo_action sampleLib twoBids sidelessAdd).2 = ['0'] :=
  ⟨by with_unfolding_all decide,
    sideless_frame sampleLib twoBids sidelessAdd 'A' 100 5 42 sidelessAdd_parsed (Or.inl rfl)⟩

/-- The side-less Cancel of the resting order 42 likewise leaves `twoBids` and
its order 42 in place. -/
theorem sidelessCancel_rows :
    (process_mbo_action sampleLib twoBids sidelessCancel).1 = twoBids ∧
    (fieldAt (splitComma (process_mbo_action sampleLib twoBids sidelessCancel).2) 7,
      fieldAt (splitComma (process_mbo_action sampleLib twoBids sidelessCancel).2) 8)
      = (['N'], ['0']) := by
  constructor <;> with_unfolding_all decide

/-! ## The depth of an Add as the code computes it -/

/-- The row of the triplet on `twoBids`: timestamps `e1`, action `T`, side `B`,
depth `1`, flags `130`, ts_in_delta `165` and sequence `851` of the Trade
line, and the bid level 100 lowered from 8 to 3. -/
theorem tfc_single_action_row :
    [1, 2, 6, 7, 8, 11, 12, 13, 14, 15, 16, 20, 21, 22].map
        (fun k => String.mk (fieldAt (splitComma
          (process_tfc_sequence sampleLib twoBids tradeLine fillLine cancelLine).2) k))
      = ["e1", "e1", "T", "B", "1", "130", "165", "851", "101", "3", "1", "100", "3", "1"] := by
  with_unfolding_all decide

/-! ## Level totals cover the resting sizes -/

theorem levelAt_of_find (m : Ledger) (p : Price) (l : PriceLevel)
    (h : levelFind p m = some l) : levelAt m p = l := by
  unfold levelAt
  rw [h]
  rfl

theorem levelAt_of_none (m : Ledger) (p : Price) (h : levelFind p m = none) :
    levelAt m p = ⟨0, 0⟩ := by
  unfold levelAt
  rw [h]
  rfl

theorem levelAt_add_level (before : Price → Price → Bool) (q price : Price) (size : Nat)
    (m : Ledger) (h : (levelAt m price).total_size + size < U64) :
    (levelAt (add_level before price size m) q).total_size
      = if q = price then (levelAt m price).total_size + size
        else (levelAt m q).total_size := by
  by_cases hq : q = price
  · rw [if_pos hq]
    cases hf : levelFind price m with
    | none =>
      rw [levelAt_of_none m price hf]
      rw [levelAt_of_find _ q ⟨size, 1⟩ (by rw [levelFind_add_level_eq, if_pos hq, hf])]
      show size = 0 + size
      omega
    | some l =>
      rw [levelAt_of_find m price l hf] at h ⊢
      rw [levelAt_of_find _ q ⟨add64 l.total_size size, add64 l.order_count 1⟩
        (by rw [levelFind_add_level_eq, if_pos hq, hf])]
      exact add64_eq h
  · rw [if_neg hq]
    unfold levelAt
    rw [levelFind_add_level_eq, if_neg hq]

theorem levelAt_cancel_level (q price : Price) (actual : Nat) (complete : Bool) (m : Ledger)
    (ha : actual ≤ (levelAt m price).total_size) (ht : (levelAt m price).total_size < U64) :
    (levelAt (cancel_level price actual complete m) q).total_size
      = if q = price then (levelAt m price).total_size - actual
        else (levelAt m q).total_size := by
  by_cases hq : q = price
  · subst hq
    rw [if_pos rfl]
    cases hf : levelFind q m with
    | none =>
      have e : cancel_level q actual complete m = m := by
        unfold cancel_level
        rw [hf]
      rw [e, levelAt_of_none m q hf]
      show 0 = 0 - actual
      omega
    | some l =>
      rw [levelAt_of_find m q l hf] at ha ht ⊢
      have hfind := levelFind_cancel_level q actual complete m l hf ha ht
      by_cases h0 : l.total_size - actual = 0
      · rw [if_pos h0] at hfind
        rw [levelAt_of_none _ q hfind, h0]
      · rw [if_neg h0] at hfind
        rw [levelAt_of_find _ q _ hfind]
  · rw [if_neg hq]
    unfold levelAt
    rw [levelFind_cancel_level_ne q price actual complete m hq]

theorem le_regTotal_of_mem (r : Registry) (k : Nat) (o : Order) (h : (k, o) ∈ r) :
    o.size ≤ regTotal o.price o.side r := by
  rw [regTotal_eq]
  induction r with
  | nil => simp at h
  | cons e rest ih =>
    obtain ⟨k1, o1⟩ := e
    rw [regAgg_cons]
    rcases List.mem_cons.1 h with h1 | h1
    · have ho : o = o1 := (Prod.mk.inj h1).2
      subst ho
      rw [if_pos ⟨rfl, rfl⟩]
      omega
    · have := ih h1
      omega

theorem regTotal_regSet_same (p : Price) (s : Char) (z order_id : Nat) (r : Registry) :
    regTotal p s (regSet order_id ⟨p, z, s⟩ r) ≤ regTotal p s r + z := by
  rw [regTotal_eq, regTotal_eq]
  cases h : regFind order_id r with
  | none =>
    rw [regSet_fresh order_id _ r h, regAgg_append, regAgg_cons]
    have e : regAgg (fun o => o.size) p s [] = 0 := rfl
    rw [e, if_pos ⟨rfl, rfl⟩]
    show _ + (z + 0) ≤ _
    omega
  | some o =>
    have h1 := regAgg_set (fun o => o.size) p s order_id o ⟨p, z, s⟩ r h
    have h2 : (if (⟨p, z, s⟩ : Order).price = p ∧ (⟨p, z, s⟩ : Order).side = s then
        (fun o : Order => o.size) (⟨p, z, s⟩ : Order) else 0) = z := if_pos ⟨rfl, rfl⟩
    rw [h2] at h1
    omega

theorem regTotal_regSet_other (p : Price) (s : Char) (order_id : Nat) (o1 : Order)
    (r : Registry) (hne : ¬ (o1.price = p ∧ o1.side = s)) :
    regTotal p s (regSet order_id o1 r) ≤ regTotal p s r := by
  rw [regTotal_eq, regTotal_eq]
  cases h : regFind order_id r with
  | none =>
    rw [regSet_fresh order_id _ r h, regAgg_append, regAgg_cons]
    have e : regAgg (fun o => o.size) p s [] = 0 := rfl
    rw [e, if_neg hne]
    omega
  | some o =>
    have h1 := regAgg_set (fun o => o.size) p s order_id o o1 r h
    rw [if_neg hne] at h1
    omega

theorem nodup_regSet (order_id : Nat) (o1 : Order) (r : Registry)
    (hnd : (r.map Prod.fst).Nodup) : ((regSet order_id o1 r).map Prod.fst).Nodup := by
  cases h : regFind order_id r with
  | none =>
    rw [regSet_fresh order_id o1 r h, List.map_append, List.nodup_append]
    refine ⟨hnd, by simp, ?_⟩
    intro k hk hk2
    have hk3 : k = order_id := by simpa using hk2
    subst hk3
    obtain ⟨e, he, hek⟩ := List.mem_map.1 hk
    exact (regFind_eq_none_iff k r).1 h e he hek
  | some o =>
    rw [keys_regSet order_id o o1 r h]
    exact hnd

theorem cover_empty : CoverInv empty := by
  refine ⟨valid_empty, by simp [empty], ?_⟩
  intro p
  exact ⟨Nat.le_of_eq rfl, Nat.le_of_eq rfl⟩

theorem cover_add (b : OrderBook) (order_id : Nat) (price : Price) (size : Nat) (side : Char)
    (hs64 : size < U64)
    (hfit : (side = 'B' ∨ side = 'A') →
      (levelAt (sideLedger b side) price).total_size + size < U64)
    (h : CoverInv b) : CoverInv (add_order b order_id price size side) := by
  obtain ⟨hv, hnd, hcov⟩ := h
  refine ⟨valid_add_order b order_id price size side hs64 hv, ?_, ?_⟩
  · rw [orders_add_order]
    exact nodup_regSet _ _ _ hnd
  · intro p
    rw [orders_add_order]
    have hc := hcov p
    by_cases hB : side = 'B'
    · subst hB
      have e1 : (add_order b order_id price size 'B').bids
          = add_level bidBefore price size b.bids := by simp [add_order]
      have e2 : (add_order b order_id price size 'B').asks = b.asks := by simp [add_order]
      have hf : (levelAt b.bids price).total_size + size < U64 := hfit (Or.inl rfl)
      rw [e1, e2, levelAt_add_level bidBefore p price size b.bids hf]
      have hA := regTotal_regSet_other p 'A' order_id ⟨price, size, 'B'⟩ b.orders
        (fun hx => absurd hx.2 (show ¬ ('B' : Char) = 'A' from by decide))
      refine ⟨?_, le_trans hA hc.2⟩
      by_cases hp : p = price
      · subst hp
        rw [if_pos rfl]
        have := regTotal_regSet_same p 'B' size order_id b.orders
        omega
      · rw [if_neg hp]
        exact le_trans (regTotal_regSet_other p 'B' order_id ⟨price, size, 'B'⟩ b.orders
          (fun hx => hp hx.1.symm)) hc.1
    · by_cases hA : side = 'A'
      · subst hA
        have e1 : (add_order b order_id price size 'A').asks
            = add_level askBefore price size b.asks := by simp [add_order]
        have e2 : (add_order b order_id price size 'A').bids = b.bids := by simp [add_order]
        have hf : (levelAt b.asks price).total_size + size < U64 := hfit (Or.inr rfl)
        rw [e1, e2, levelAt_add_level askBefore p price size b.asks hf]
        have hB1 := regTotal_regSet_other p 'B' order_id ⟨price, size, 'A'⟩ b.orders
          (fun hx => absurd hx.2 (show ¬ ('A' : Char) = 'B' from by decide))
        refine ⟨le_trans hB1 hc.1, ?_⟩
        by_cases hp : p = price
        · subst hp
          rw [if_pos rfl]
          have := regTotal_regSet_same p 'A' size order_id b.orders
          omega
        · rw [if_neg hp]
          exact le_trans (regTotal_regSet_other p 'A' order_id ⟨price, size, 'A'⟩ b.orders
            (fun hx => hp hx.1.symm)) hc.2
      · have e1 : (add_order b order_id price size side).bids = b.bids := by
          simp [add_order, hB, hA]
        have e2 : (add_order b order_id price size side).asks = b.asks := by
          simp [add_order, hB, hA]
        rw [e1, e2]
        exact ⟨le_trans (regTotal_regSet_other p 'B' order_id ⟨price, size, side⟩ b.orders
            (fun hx => hB hx.2)) hc.1,
          le_trans (regTotal_regSet_other p 'A' order_id ⟨price, size, side⟩ b.orders
            (fun hx => hA hx.2)) hc.2⟩

theorem cover_cancel (b : OrderBook) (order_id size : Nat) (h : CoverInv b) :
    CoverInv (cancel_order b order_id size) := by
  cases hreg : regFind order_id b.orders with
  | none =>
    rw [cancel_order_unknown b order_id size hreg]
    exact h
  | some o =>
    obtain ⟨hv, hnd, hcov⟩ := h
    refine ⟨valid_cancel_order b order_id size hv, ?_, ?_⟩
    · rw [cancel_order_eq b order_id size o hreg]
      exact cancel_registry_nodup order_id size o b.orders hnd hreg
    · have hmem := le_regTotal_of_mem b.orders order_id o (mem_of_regFind order_id o b.orders hreg)
      have hmin : min size o.size ≤ o.size := Nat.min_le_right _ _
      rw [cancel_order_eq b order_id size o hreg]
      intro p
      have hc := hcov p
      have tB := cancel_registry_total p 'B' order_id size o b.orders hnd hreg
      have tA := cancel_registry_total p 'A' order_id size o b.orders hnd hreg
      show regTotal p 'B' (cancel_registry order_id size o b.orders)
          ≤ (levelAt (if o.side = 'B' then
              cancel_level o.price (min size o.size) (decide (size ≥ o.size)) b.bids
            else b.bids) p).total_size ∧
        regTotal p 'A' (cancel_registry order_id size o b.orders)
          ≤ (levelAt (if o.side = 'B' then b.asks
            else if o.side = 'A' then
              cancel_level o.price (min size o.size) (decide (size ≥ o.size)) b.asks
            else b.asks) p).total_size
      by_cases hB : o.side = 'B'
      · rw [if_pos hB, if_pos hB]
        rw [hB] at hmem
        have hco := (hcov o.price).1
        have hlt : (levelAt b.bids o.price).total_size < U64 := by
          cases hf : levelFind o.price b.bids with
          | none =>
            rw [levelAt_of_none _ _ hf]
            show 0 < U64
            unfold U64
            decide
          | some l =>
            rw [levelAt_of_find _ _ l hf]
            exact (hv.2.2.1 _ (mem_of_levelFind _ _ _ hf)).1
        rw [levelAt_cancel_level p o.price (min size o.size) _ b.bids (by omega) hlt]
        have hnA : ¬ (o.price = p ∧ o.side = 'A') := fun hx => by
          rw [hB] at hx
          exact absurd hx.2 (by decide)
        rw [if_neg hnA] at tA
        refine ⟨?_, by omega⟩
        by_cases hp : p = o.price
        · subst hp
          rw [if_pos rfl]
          rw [if_pos ⟨rfl, hB⟩] at tB
          omega
        · rw [if_neg hp]
          rw [if_neg (fun hx => hp hx.1.symm)] at tB
          omega
      · rw [if_neg hB, if_neg hB]
        have hnB : ¬ (o.price = p ∧ o.side = 'B') := fun hx => hB hx.2
        rw [if_neg hnB] at tB
        by_cases hA : o.side = 'A'
        · rw [if_pos hA]
          rw [hA] at hmem
          have hco := (hcov o.price).2
          have hlt : (levelAt b.asks o.price).total_size < U64 := by
            cases hf : levelFind o.price b.asks with
            | none =>
              rw [levelAt_of_none _ _ hf]
              show 0 < U64
              unfold U64
              decide
            | some l =>
              rw [levelAt_of_find _ _ l hf]
              exact (hv.2.2.2 _ (mem_of_levelFind _ _ _ hf)).1
          rw [levelAt_cancel_level p o.price (min size o.size) _ b.asks (by omega) hlt]
          refine ⟨by omega, ?_⟩
          by_cases hp : p = o.price
          · subst hp
            rw [if_pos rfl]
            rw [if_pos ⟨rfl, hA⟩] at tA
            omega
          · rw [if_neg hp]
            rw [if_neg (fun hx => hp hx.1.symm)] at tA
            omega
        · rw [if_neg hA]
          have hnA : ¬ (o.price = p ∧ o.side = 'A') := fun hx => hA hx.2
          rw [if_neg hnA] at tA
          exact ⟨by omega, by omega⟩

/-- The book `process_tfc_sequence` leaves: the same book, or the book after
`cancel_order`. -/
theorem tfc_book_cases (lib : Lib) (b : OrderBook) (t f c : Str) :
    (process_tfc_sequence lib b t f c).1 = b ∨
    ∃ order_id size, (process_tfc_sequence lib b t f c).1 = cancel_order b order_id size := by
  by_cases hc : (getFields c).length < 15
  · left
    simp [process_tfc_sequence, hc]
  · by_cases ht : (getFields t).length < 15
    · left
      simp [process_tfc_sequence, hc, ht]
    · cases hs : parse_u64 lib (fieldAt (getFields c) 8) with
      | none => left; simp [process_tfc_sequence, hc, ht, hs]
      | some size =>
        cases hi : parse_u64 lib (fieldAt (getFields c) 10) with
        | none => left; simp [process_tfc_sequence, hc, ht, hs, hi]
        | some order_id =>
          by_cases hN : firstChar (fieldAt (getFields c) 6) = 'N'
          · left
            simp [process_tfc_sequence, hc, ht, hs, hi, hN]
          · cases hp : parse_price lib (fieldAt (getFields c) 7) with
            | none => left; simp [process_tfc_sequence, hc, ht, hs, hi, hN, hp]
            | some price =>
              right
              exact ⟨order_id, size, by simp [process_tfc_sequence, hc, ht, hs, hi, hN, hp]⟩

theorem cover_step (lib : Lib) (b : OrderBook) (c : Call) (h : CoverInv b)
    (hfit : AddFits lib b c) : CoverInv (apply_call lib b c) := by
  cases c with
  | mbo line =>
    show CoverInv (process_mbo_action lib b line).1
    rcases process_book_cases lib b line with e | e | ⟨side, price, size, id, hp, -, e⟩ |
        ⟨side, price, size, id, -, -, e⟩
    · rw [e]; exact h
    · rw [e]; exact cover_empty
    · rw [e]
      exact cover_add b id price size side (parse_u64_lt lib _ size hp.size_eq)
        (hfit side price size id hp) h
    · rw [e]
      exact cover_cancel b id size h
  | tfc t f c =>
    show CoverInv (process_tfc_sequence lib b t f c).1
    rcases tfc_book_cases lib b t f c with e | ⟨id, size, e⟩
    · rw [e]; exact h
    · rw [e]
      exact cover_cancel b id size h

theorem cover_run (lib : Lib) (calls : List Call) :
    ∀ b : OrderBook, CoverInv b → AllFit lib b calls → CoverInv (run_calls lib b calls) := by
  induction calls with
  | nil => intro b hb _; exact hb
  | cons c rest ih =>
    intro b hb hfit
    exact ih (apply_call lib b c) (cover_step lib b c hb hfit.1) hfit.2

/-- C24 (level totals never underflow): in every book reached from the empty
book by a sequence of calls of `process_mbo_action` and `process_tfc_sequence`
(repeated order ids and sizes 0 included) in which no Add raises a level total
beyond the 64-bit range, every level of the bid ledger and of the ask ledger
has a total size at least the sum of the sizes of the registered orders with
its price and side; so for every registered order of side `B` or `A` whose
level is found, the size `cancel_order` subtracts, `min(size, order size)`, is
at most the level total and the 64-bit subtraction does not wrap. -/
theorem totals_never_underflow (lib : Lib) (calls : List Call)
    (h : AllFit lib empty calls) :
    (∀ e ∈ (run_calls lib empty calls).bids,
      regTotal e.1 'B' (run_calls lib empty calls).orders ≤ e.2.total_size) ∧
    (∀ e ∈ (run_calls lib empty calls).asks,
      regTotal e.1 'A' (run_calls lib empty calls).orders ≤ e.2.total_size) ∧
    ∀ (order_id size : Nat) (o : Order) (l : PriceLevel),
      regFind order_id (run_calls lib empty calls).orders = some o →
      (o.side = 'B' ∨ o.side = 'A') →
      levelFind o.price (sideLedger (run_calls lib empty calls) o.side) = some l →
        min size o.size ≤ l.total_size ∧
        sub64 l.total_size (min size o.size) = l.total_size - min size o.size := by
  obtain ⟨hv, hnd, hcov⟩ := cover_run lib calls empty cover_empty h
  generalize run_calls lib empty calls = b at hv hnd hcov ⊢
  refine ⟨?_, ?_, ?_⟩
  · intro e he
    have hf := levelFind_of_mem b.bids (valid_nodup b hv).1 e he
    have hc := (hcov e.1).1
    rw [levelAt_of_find _ _ _ hf] at hc
    exact hc
  · intro e he
    have hf := levelFind_of_mem b.asks (valid_nodup b hv).2 e he
    have hc := (hcov e.1).2
    rw [levelAt_of_find _ _ _ hf] at hc
    exact hc
  · intro order_id size o l hreg hside hfind
    have hmem := le_regTotal_of_mem b.orders order_id o (mem_of_regFind order_id o b.orders hreg)
    rcases hside with hB | hA
    · rw [hB] at hfind hmem
      have hfind2 : levelFind o.price b.bids = some l := by simpa [sideLedger] using hfind
      have hc := (hcov o.price).1
      rw [levelAt_of_find _ _ l hfind2] at hc
      have h64 := (hv.2.2.1 _ (mem_of_levelFind _ _ _ hfind2)).1
      have hle : min size o.size ≤ l.total_size :=
        le_trans (Nat.min_le_right _ _) (le_trans hmem hc)
      exact ⟨hle, sub64_of_le hle h64⟩
    · rw [hA] at hfind hmem
      have hfind2 : levelFind o.price b.asks = some l := by simpa [sideLedger] using hfind
      have hc := (hcov o.price).2
      rw [levelAt_of_find _ _ l hfind2] at hc
      have h64 := (hv.2.2.2 _ (mem_of_levelFind _ _ _ hfind2)).1
      have hle : min size o.size ≤ l.total_size :=
        le_trans (Nat.min_le_right _ _) (le_trans hmem hc)
      exact ⟨hle, sub64_of_le hle h64⟩

theorem zeroAdd_parsed : Parsed sampleLib zeroAdd 'A' 'B' 100 0 1 :=
  ⟨by decide, by decide, by decide, by with_unfolding_all decide,
    by with_unfolding_all decide, by with_unfolding_all decide⟩

/-- The books along `coverCalls`: after the second Add of order 42 the level
100 holds 16 for a registry total of 8; at the end it holds 11 for the resting
sizes 3 and 0. -/
theorem coverCalls_books :
    apply_call sampleLib empty (Call.mbo addLine42)
      = ⟨[(100, ⟨8, 1⟩)], [], [(42, ⟨100, 8, 'B'⟩)]⟩ ∧
    apply_call sampleLib ⟨[(100, ⟨8, 1⟩)], [], [(42, ⟨100, 8, 'B'⟩)]⟩ (Call.mbo addLine42)
      = ⟨[(100, ⟨16, 2⟩)], [], [(42, ⟨100, 8, 'B'⟩)]⟩ ∧
    run_calls sampleLib empty coverCalls
      = ⟨[(100, ⟨11, 3⟩)], [], [(42, ⟨100, 3, 'B'⟩), (1, ⟨100, 0, 'B'⟩)]⟩ := by
  refine ⟨?_, ?_, ?_⟩ <;> with_unfolding_all decide

theorem coverCalls_fit : AllFit sampleLib empty coverCalls := by
  have hU : ∀ n : Nat, n ≤ 16 → n + 8 < U64 := by
    intro n hn
    have : (24 : Nat) < U64 := by unfold U64; decide
    omega
  refine ⟨?_, ?_, ?_, trivial, trivial⟩
  · intro side price size id hp _
    obtain ⟨-, rfl, rfl, rfl, rfl⟩ := hp.unique addLine42_parsed
    exact hU _ (by with_unfolding_all decide)
  · intro side price size id hp _
    obtain ⟨-, rfl, rfl, rfl, rfl⟩ := hp.unique addLine42_parsed
    rw [coverCalls_books.1]
    exact hU _ (by with_unfolding_all decide)
  · intro side price size id hp _
    obtain ⟨-, rfl, rfl, rfl, rfl⟩ := hp.unique zeroAdd_parsed
    rw [coverCalls_books.1, coverCalls_books.2.1]
    have : (16 : Nat) < U64 := by unfold U64; decide
    have e : (levelAt (sideLedger ⟨[(100, ⟨16, 2⟩)], [], [(42, ⟨100, 8, 'B'⟩)]⟩ 'B')
        100).total_size = 16 := by with_unfolding_all decide
    rw [e]
    exact this

/-- Witness for C24: the calls `coverCalls` (a repeated order id, a size 0 and
a triplet) fit, and the bid levels of the book they leave cover the resting
sizes. -/
theorem totals_never_underflow_witness :
    AllFit sampleLib empty coverCalls ∧
    ∀ e ∈ (run_calls sampleLib empty coverCalls).bids,
      regTotal e.1 'B' (run_calls sampleLib empty coverCalls).orders ≤ e.2.total_size :=
  ⟨coverCalls_fit, (totals_never_underflow sampleLib coverCalls coverCalls_fit).1⟩

end OrderBookModel
